import Mathlib

set_option autoImplicit false

/-!
# Property list trees of Osxcart (`src/osxcart/osxcart/plist.c`)

A shallow embedding of the `PlistObject` operations of `plist.c`
(`plist_object_new`, `plist_object_copy`, `plist_object_free`, the typed
accessors and `plist_object_lookup`) over an explicit heap, followed by the
properties proved about them.

The C code works on heap-allocated nodes that point to each other, so the
embedding passes a heap explicitly.  An address (a C pointer) is a natural
number, `0` is `NULL`.  Allocation always returns a fresh address (one that was
never handed out before).  An operation whose C counterpart has undefined
behaviour (reading through a dangling pointer, `memcpy` out of bounds, reading
past the end of the variadic arguments) returns `none`.  Recursion through the
heap is bounded by an explicit fuel argument; running out of fuel also yields
`none`.  A `g_return_if_fail` that fails returns its default and leaves the
heap as it is.
-/

namespace Osxcart

/-! ## Data model -/

/-- Modelled from the spec: the enumeration `PlistObjectType` of `plist.h`
(the header is not part of the sources); one tag per plist type. -/
inductive PlistObjectType where
  | PLIST_OBJECT_BOOLEAN
  | PLIST_OBJECT_REAL
  | PLIST_OBJECT_INTEGER
  | PLIST_OBJECT_STRING
  | PLIST_OBJECT_DATE
  | PLIST_OBJECT_ARRAY
  | PLIST_OBJECT_DICT
  | PLIST_OBJECT_DATA
  deriving DecidableEq

/-- Modelled from the spec: a C `double`.  The code only stores and copies
doubles, so a double is represented by its 64-bit pattern; `0.0` is `0`. -/
abbrev gdouble := Nat

/-- Modelled from the spec: GLib's `GTimeVal` (seconds and microseconds). -/
structure GTimeVal where
  tv_sec : Int
  tv_usec : Int
  deriving DecidableEq

/-- Modelled from the spec: the tagged union `PlistObject` of `plist.h`.  The
constructor is the `type` field, its arguments are the `val` (and `length`)
fields of the matching union member.  `string.val` is a `char *`, `dict.val` a
`GHashTable *`, `data.val` an `unsigned char *`; `array.val` is a `GList` whose
spine is kept by value and whose elements are `PlistObject *`. -/
inductive PlistObject where
  | boolean (val : Bool)
  | real (val : gdouble)
  | integer (val : Int)
  | string (val : Nat)
  | date (val : GTimeVal)
  | array (val : List Nat)
  | dict (val : Nat)
  | data (val : Nat) (length : Nat)
  deriving DecidableEq

/-- The `type` field of a `PlistObject`. -/
def PlistObject.type : PlistObject → PlistObjectType
  | .boolean _ => .PLIST_OBJECT_BOOLEAN
  | .real _ => .PLIST_OBJECT_REAL
  | .integer _ => .PLIST_OBJECT_INTEGER
  | .string _ => .PLIST_OBJECT_STRING
  | .date _ => .PLIST_OBJECT_DATE
  | .array _ => .PLIST_OBJECT_ARRAY
  | .dict _ => .PLIST_OBJECT_DICT
  | .data _ _ => .PLIST_OBJECT_DATA

/-- What an allocated block holds: a `PlistObject`, a NUL-terminated string, a
block of bytes, or a `GHashTable` with string keys (the keys are owned by the
table and kept by value; the values are `PlistObject *`). -/
inductive Cell where
  | object (o : PlistObject)
  | chars (s : String)
  | bytes (b : List Nat)
  | table (entries : List (String × Nat))
  deriving DecidableEq

/-- The heap: the block at address `a + 1` is entry `a` of `cells`; `none` is a
block that has been freed. -/
structure Heap where
  cells : List (Option Cell)
  deriving DecidableEq

namespace Heap

/-- The number of addresses handed out so far. -/
def size (h : Heap) : Nat := h.cells.length

/-- The live block at an address, if any. -/
def read (h : Heap) (a : Nat) : Option Cell :=
  if a = 0 then none else h.cells.getD (a - 1) none

/-- Allocate a fresh block. -/
def alloc (h : Heap) (c : Cell) : Heap × Nat :=
  (⟨h.cells ++ [some c]⟩, h.cells.length + 1)

/-- Overwrite a block. -/
def write (h : Heap) (a : Nat) (c : Cell) : Heap :=
  if a = 0 then h else ⟨h.cells.set (a - 1) (some c)⟩

/-- Release a block. -/
def dealloc (h : Heap) (a : Nat) : Heap :=
  if a = 0 then h else ⟨h.cells.set (a - 1) none⟩

end Heap

/-! ## GLib and libc primitives used by `plist.c`

The sources call these library functions and do not contain them; each is
modelled by what it does to the heap. -/

/-- Modelled from the spec: `g_free` (also `g_slice_free`): `NULL` is ignored,
a live block is released, anything else is undefined. -/
def g_free (h : Heap) (p : Nat) : Option Heap :=
  if p = 0 then some h
  else match h.read p with
    | some _ => some (h.dealloc p)
    | none => none

/-- Modelled from the spec: `g_strdup`: `NULL` for `NULL`, else a fresh copy of
the string. -/
def g_strdup (h : Heap) (s : Nat) : Option (Heap × Nat) :=
  if s = 0 then some (h, 0)
  else match h.read s with
    | some (.chars c) => some (h.alloc (.chars c))
    | _ => none

/-- Modelled from the spec: `g_malloc`: `NULL` for a size of zero, else a fresh
block of that many bytes. -/
def g_malloc (h : Heap) (n : Nat) : Heap × Nat :=
  if n = 0 then (h, 0) else h.alloc (.bytes (List.replicate n 0))

/-- Modelled from the spec: `g_realloc`: frees the block for a size of zero,
allocates for `NULL`, else moves the block to a fresh one of the new size,
keeping the bytes that fit. -/
def g_realloc (h : Heap) (p : Nat) (n : Nat) : Option (Heap × Nat) :=
  if n = 0 then (g_free h p).map fun h1 => (h1, 0)
  else if p = 0 then some (g_malloc h n)
  else match h.read p with
    | some (.bytes b) =>
      some ((h.dealloc p).alloc (.bytes (b.take n ++ List.replicate (n - b.length) 0)))
    | _ => none

/-- Modelled from the spec: `memcpy` of `n` bytes between two blocks; nothing
happens for `n = 0`. -/
def memcpy (h : Heap) (dst src : Nat) (n : Nat) : Option Heap :=
  if n = 0 then some h
  else match h.read dst, h.read src with
    | some (.bytes d), some (.bytes s) =>
      if n ≤ d.length ∧ n ≤ s.length then
        some (h.write dst (.bytes (s.take n ++ d.drop n)))
      else none
    | _, _ => none

/-- Modelled from the spec: `g_list_prepend`. -/
def g_list_prepend (list : List Nat) (data : Nat) : List Nat := data :: list

/-- Modelled from the spec: `g_list_reverse`. -/
def g_list_reverse (list : List Nat) : List Nat := list.reverse

/-- Modelled from the spec: `g_list_nth_data`: the element at position `n`, or
`NULL` off the end of the list. -/
def g_list_nth_data (list : List Nat) (n : Nat) : Nat := list.getD n 0

/-- Modelled from the spec: `g_hash_table_new_full (g_str_hash, g_str_equal,
g_free, plist_object_free)`: a fresh empty table. -/
def g_hash_table_new_full (h : Heap) : Heap × Nat := h.alloc (.table [])

/-- Replace the value of an existing key, keeping the entry in place. -/
def replaceEntry (key : String) (value : Nat) :
    List (String × Nat) → List (String × Nat)
  | [] => []
  | e :: es => if e.1 = key then (e.1, value) :: es else e :: replaceEntry key value es

/-- Modelled from the spec: `g_hash_table_lookup` with `g_str_equal` keys: the
key is read as a string through the pointer; the value stored under an equal
key, or `NULL`. -/
def g_hash_table_lookup (h : Heap) (hash_table : Nat) (key : Nat) : Option Nat :=
  match h.read hash_table, h.read key with
  | some (.table es), some (.chars k) => some ((es.lookup k).getD 0)
  | _, _ => none

/-- Modelled from the spec: `g_hash_table_insert` on a table made by
`g_hash_table_new_full`: a new key is added; for a key already present the
value is replaced and the old value goes to the value destroy function
`destroy` (which is `plist_object_free`). -/
def g_hash_table_insert (destroy : Heap → Nat → Option Heap)
    (h : Heap) (hash_table : Nat) (key : String) (value : Nat) : Option Heap :=
  match h.read hash_table with
  | some (.table es) =>
    match es.lookup key with
    | some old => destroy (h.write hash_table (.table (replaceEntry key value es))) old
    | none => some (h.write hash_table (.table (es ++ [(key, value)])))
  | _ => none

/-- Modelled from the spec: `g_hash_table_remove_all`: the table is emptied and
every value goes to the value destroy function. -/
def g_hash_table_remove_all (destroy : Heap → Nat → Option Heap)
    (h : Heap) (hash_table : Nat) : Option Heap :=
  match h.read hash_table with
  | some (.table es) =>
    es.foldlM (fun hh e => destroy hh e.2) (h.write hash_table (.table []))
  | _ => none

/-- Modelled from the spec: `g_hash_table_destroy`: every value goes to the
value destroy function, then the table itself is released. -/
def g_hash_table_destroy (destroy : Heap → Nat → Option Heap)
    (h : Heap) (hash_table : Nat) : Option Heap :=
  match h.read hash_table with
  | some (.table es) =>
    (es.foldlM (fun hh e => destroy hh e.2) h).bind fun h1 => g_free h1 hash_table
  | _ => none

/-! ## `plist.c` -/

/-- The zero-filled object of `g_slice_new0 (PlistObject)` after
`retval->type = type`. -/
def zeroObject : PlistObjectType → PlistObject
  | .PLIST_OBJECT_BOOLEAN => .boolean false
  | .PLIST_OBJECT_REAL => .real 0
  | .PLIST_OBJECT_INTEGER => .integer 0
  | .PLIST_OBJECT_STRING => .string 0
  | .PLIST_OBJECT_DATE => .date ⟨0, 0⟩
  | .PLIST_OBJECT_ARRAY => .array []
  | .PLIST_OBJECT_DICT => .dict 0
  | .PLIST_OBJECT_DATA => .data 0 0

/-- `plist_object_new`. -/
def plist_object_new (h : Heap) (type : PlistObjectType) : Heap × Nat :=
  let r := h.alloc (.object (zeroObject type))
  match type with
  | .PLIST_OBJECT_REAL => (r.1.write r.2 (.object (.real 0)), r.2)
  | .PLIST_OBJECT_DICT =>
    let t := g_hash_table_new_full r.1
    (t.1.write r.2 (.object (.dict t.2)), r.2)
  | _ => r

/-- `plist_object_free`. -/
def plist_object_free : Nat → Heap → Nat → Option Heap
  | 0, _, _ => none
  | fuel + 1, h, object =>
    if object = 0 then some h
    else match h.read object with
      | some (.object o) =>
        (match o with
          | .string val => g_free h val
          | .array val => val.foldlM (fun hh e => plist_object_free fuel hh e) h
          | .dict val => g_hash_table_destroy (plist_object_free fuel) h val
          | .data val _ => g_free h val
          | _ => some h).bind fun h1 => g_free h1 object
      | _ => none

/-- `insert_copied_element`; `copy` is `plist_object_copy` (with the fuel that
is left), the list behind `new_list` is passed along with the heap. -/
def insert_copied_element (copy : Heap → Nat → Option (Heap × Nat))
    (s : Heap × List Nat) (object : Nat) : Option (Heap × List Nat) :=
  (copy s.1 object).map fun r => (r.1, g_list_prepend s.2 r.2)

/-- `insert_copied_key_and_value`; `copy` is `plist_object_copy` and `destroy`
is `plist_object_free` (with the fuel that is left). -/
def insert_copied_key_and_value (copy : Heap → Nat → Option (Heap × Nat))
    (destroy : Heap → Nat → Option Heap)
    (new_dict : Nat) (h : Heap) (e : String × Nat) : Option Heap :=
  (copy h e.2).bind fun r => g_hash_table_insert destroy r.1 new_dict e.1 r.2

/-- `plist_object_copy`. -/
def plist_object_copy : Nat → Heap → Nat → Option (Heap × Nat)
  | 0, _, _ => none
  | fuel + 1, h, object =>
    if object = 0 then some (h, 0)
    else match h.read object with
      | some (.object o) =>
        let r := plist_object_new h o.type
        let retval := r.2
        match o with
        | .boolean val => some (r.1.write retval (.object (.boolean val)), retval)
        | .real val => some (r.1.write retval (.object (.real val)), retval)
        | .integer val => some (r.1.write retval (.object (.integer val)), retval)
        | .string val =>
          (g_strdup r.1 val).map fun s => (s.1.write retval (.object (.string s.2)), retval)
        | .date val => some (r.1.write retval (.object (.date val)), retval)
        | .array val =>
          (val.foldlM (insert_copied_element (plist_object_copy fuel)) (r.1, [])).map
            fun s => (s.1.write retval (.object (.array (g_list_reverse s.2))), retval)
        | .dict val =>
          match r.1.read val, r.1.read retval with
          | some (.table es), some (.object (.dict new_dict)) =>
            (es.foldlM (insert_copied_key_and_value (plist_object_copy fuel)
              (plist_object_free fuel) new_dict) r.1).map fun h1 => (h1, retval)
          | _, _ => none
        | .data val length =>
          let m := g_malloc r.1 length
          (memcpy m.1 m.2 val length).map
            fun h1 => (h1.write retval (.object (.data m.2 length)), retval)
      | _ => none

/-! ### Typed accessors -/

/-- `plist_object_get_boolean`. -/
def plist_object_get_boolean (h : Heap) (object : Nat) : Option Bool :=
  if object = 0 then some false
  else match h.read object with
    | some (.object (.boolean val)) => some val
    | some (.object _) => some false
    | _ => none

/-- `plist_object_get_real`. -/
def plist_object_get_real (h : Heap) (object : Nat) : Option gdouble :=
  if object = 0 then some 0
  else match h.read object with
    | some (.object (.real val)) => some val
    | some (.object _) => some 0
    | _ => none

/-- `plist_object_get_integer`. -/
def plist_object_get_integer (h : Heap) (object : Nat) : Option Int :=
  if object = 0 then some 0
  else match h.read object with
    | some (.object (.integer val)) => some val
    | some (.object _) => some 0
    | _ => none

/-- `plist_object_get_string`. -/
def plist_object_get_string (h : Heap) (object : Nat) : Option Nat :=
  if object = 0 then some 0
  else match h.read object with
    | some (.object (.string val)) => some val
    | some (.object _) => some 0
    | _ => none

/-- `plist_object_get_date`. -/
def plist_object_get_date (h : Heap) (object : Nat) : Option GTimeVal :=
  if object = 0 then some ⟨0, 0⟩
  else match h.read object with
    | some (.object (.date val)) => some val
    | some (.object _) => some ⟨0, 0⟩
    | _ => none

/-- `plist_object_get_array`. -/
def plist_object_get_array (h : Heap) (object : Nat) : Option (List Nat) :=
  if object = 0 then some []
  else match h.read object with
    | some (.object (.array val)) => some val
    | some (.object _) => some []
    | _ => none

/-- `plist_object_get_dict`. -/
def plist_object_get_dict (h : Heap) (object : Nat) : Option Nat :=
  if object = 0 then some 0
  else match h.read object with
    | some (.object (.dict val)) => some val
    | some (.object _) => some 0
    | _ => none

/-- `plist_object_get_data`.  The out-parameter `length` is `none` for a `NULL`
pointer, else the value the caller's variable holds; the result is the
returned pointer together with the value of the caller's variable afterwards. -/
def plist_object_get_data (h : Heap) (object : Nat) (length : Option Nat) :
    Option (Nat × Option Nat) :=
  if object = 0 then some (0, length)
  else match length with
    | none => some (0, length)
    | some _ =>
      match h.read object with
      | some (.object (.data val len)) => some (val, some len)
      | some (.object _) => some (0, length)
      | _ => none

/-- `plist_object_set_boolean`. -/
def plist_object_set_boolean (h : Heap) (object : Nat) (val : Bool) : Option Heap :=
  if object = 0 then some h
  else match h.read object with
    | some (.object (.boolean _)) => some (h.write object (.object (.boolean val)))
    | some (.object _) => some h
    | _ => none

/-- `plist_object_set_real`. -/
def plist_object_set_real (h : Heap) (object : Nat) (val : gdouble) : Option Heap :=
  if object = 0 then some h
  else match h.read object with
    | some (.object (.real _)) => some (h.write object (.object (.real val)))
    | some (.object _) => some h
    | _ => none

/-- `plist_object_set_integer`. -/
def plist_object_set_integer (h : Heap) (object : Nat) (val : Int) : Option Heap :=
  if object = 0 then some h
  else match h.read object with
    | some (.object (.integer _)) => some (h.write object (.object (.integer val)))
    | some (.object _) => some h
    | _ => none

/-- `plist_object_set_string`. -/
def plist_object_set_string (h : Heap) (object : Nat) (val : Nat) : Option Heap :=
  if object = 0 then some h
  else if val = 0 then some h
  else match h.read object with
    | some (.object (.string old)) =>
      (g_free h old).bind fun h1 =>
        (g_strdup h1 val).map fun s => s.1.write object (.object (.string s.2))
    | some (.object _) => some h
    | _ => none

/-- `plist_object_set_date`. -/
def plist_object_set_date (h : Heap) (object : Nat) (val : GTimeVal) : Option Heap :=
  if object = 0 then some h
  else match h.read object with
    | some (.object (.date _)) => some (h.write object (.object (.date val)))
    | some (.object _) => some h
    | _ => none

/-- `plist_object_set_array`; the fuel bounds the recursion of
`plist_object_free` and `plist_object_copy`. -/
def plist_object_set_array (fuel : Nat) (h : Heap) (object : Nat) (val : List Nat) :
    Option Heap :=
  if object = 0 then some h
  else match h.read object with
    | some (.object (.array old)) =>
      (old.foldlM (fun hh e => plist_object_free fuel hh e) h).bind fun h1 =>
        (val.foldlM (insert_copied_element (plist_object_copy fuel))
          (h1.write object (.object (.array [])), [])).map
          fun s => s.1.write object (.object (.array (g_list_reverse s.2)))
    | some (.object _) => some h
    | _ => none

/-- `plist_object_set_dict`; the fuel bounds the recursion of
`plist_object_free` and `plist_object_copy`. -/
def plist_object_set_dict (fuel : Nat) (h : Heap) (object : Nat) (val : Nat) :
    Option Heap :=
  if object = 0 then some h
  else if val = 0 then some h
  else match h.read object with
    | some (.object (.dict own)) =>
      (g_hash_table_remove_all (plist_object_free fuel) h own).bind fun h1 =>
        match h1.read val with
        | some (.table es) =>
          es.foldlM (insert_copied_key_and_value (plist_object_copy fuel)
            (plist_object_free fuel) own) h1
        | _ => none
    | some (.object _) => some h
    | _ => none

/-- `plist_object_set_data`. -/
def plist_object_set_data (h : Heap) (object : Nat) (val : Nat) (length : Nat) :
    Option Heap :=
  if object = 0 then some h
  else if ¬ (val ≠ 0 ∨ length = 0) then some h
  else match h.read object with
    | some (.object (.data old _)) =>
      (g_realloc h old length).bind fun r =>
        memcpy (r.1.write object (.object (.data r.2 length))) r.2 val length
    | some (.object _) => some h
    | _ => none

/-! ### Path lookup -/

/-- Modelled from the spec: GLib's `GPOINTER_TO_INT`, as far as the test
`GPOINTER_TO_INT (arg) != -1` needs it: the low 32 bits of the word are all
ones. -/
def isTerminator (arg : Nat) : Bool := arg % 2 ^ 32 == 2 ^ 32 - 1

/-- Modelled from the spec: GLib's `GPOINTER_TO_UINT`: the low 32 bits. -/
def GPOINTER_TO_UINT (arg : Nat) : Nat := arg % 2 ^ 32

/-- The `for` loop of `plist_object_lookup` over the variadic arguments, each
a pointer-sized word.  Reading past the last argument is undefined. -/
def lookup_loop (h : Heap) : Nat → List Nat → Option Nat
  | _, [] => none
  | tree, arg :: rest =>
    if isTerminator arg then some tree
    else match h.read tree with
      | some (.object (.dict val)) =>
        match g_hash_table_lookup h val arg with
        | some next => if next = 0 then some 0 else lookup_loop h next rest
        | none => none
      | some (.object (.array val)) =>
        let next := g_list_nth_data val (GPOINTER_TO_UINT arg)
        if next = 0 then some 0 else lookup_loop h next rest
      | some (.object _) => some tree
      | _ => none

/-- `plist_object_lookup`. -/
def plist_object_lookup (h : Heap) (tree : Nat) (args : List Nat) : Option Nat :=
  if tree = 0 then some 0 else lookup_loop h tree args

/-! ## Specification vocabulary -/

/-- The value of a plist tree, without addresses: the tag of every node with
its payload, the text of a string (`none` for `NULL`), the bytes of a data
block (as many as its length), the elements of an array in order, and the
entries of a dict. -/
inductive PlistTree where
  | boolean (val : Bool)
  | real (val : gdouble)
  | integer (val : Int)
  | string (val : Option String)
  | date (val : GTimeVal)
  | array (val : List PlistTree)
  | dict (val : List (String × PlistTree))
  | data (val : List Nat)

/-- Apply `f` to every element; `none` as soon as one application is. -/
def collect {α β : Type} (f : α → Option β) : List α → Option (List β)
  | [] => some []
  | a :: as =>
    match f a, collect f as with
    | some b, some bs => some (b :: bs)
    | _, _ => none

/-- The tree stored at an address, when the blocks reachable from it within
`fuel` levels form a well-formed finite tree: every pointer followed leads to a
live block of the right kind, a data block has at least `length` bytes, and the
keys of a dict are pairwise distinct. -/
def tree_of : Nat → Heap → Nat → Option PlistTree
  | 0, _, _ => none
  | fuel + 1, h, p =>
    match h.read p with
    | some (.object o) =>
      (match o with
        | .boolean val => some (.boolean val)
        | .real val => some (.real val)
        | .integer val => some (.integer val)
        | .string val =>
          if val = 0 then some (.string none)
          else match h.read val with
            | some (.chars s) => some (.string (some s))
            | _ => none
        | .date val => some (.date val)
        | .array val => (collect (tree_of fuel h) val).map .array
        | .dict val =>
          match h.read val with
          | some (.table es) =>
            if (es.map Prod.fst).Nodup then
              (collect (fun e => (tree_of fuel h e.2).map fun t => (e.1, t)) es).map .dict
            else none
          | _ => none
        | .data val length =>
          if length = 0 then some (.data [])
          else match h.read val with
            | some (.bytes b) => if length ≤ b.length then some (.data (b.take length)) else none
            | _ => none)
    | _ => none

/-- The pointers a block holds. -/
def Cell.ptrs : Cell → List Nat
  | .object (.string val) => [val]
  | .object (.array val) => val
  | .object (.dict val) => [val]
  | .object (.data val _) => [val]
  | .object _ => []
  | .table es => es.map Prod.snd
  | _ => []

/-- The children of a node: the elements of an array, the values of a dict. -/
def children (h : Heap) (p : Nat) : List Nat :=
  match h.read p with
  | some (.object (.array val)) => val
  | some (.object (.dict val)) =>
    match h.read val with
    | some (.table es) => es.map Prod.snd
    | _ => []
  | _ => []

/-- A node is in the tree of `root`: it is `root` or a child of a node in the
tree. -/
inductive InTree (h : Heap) (root : Nat) : Nat → Prop where
  | root : InTree h root root
  | child {p q : Nat} : InTree h root p → q ∈ children h p → InTree h root q

/-- A call of one of the eight setters, with its arguments. -/
inductive SetterCall where
  | set_boolean (val : Bool)
  | set_real (val : gdouble)
  | set_integer (val : Int)
  | set_string (val : Nat)
  | set_date (val : GTimeVal)
  | set_array (val : List Nat)
  | set_dict (val : Nat)
  | set_data (val : Nat) (length : Nat)

/-- Run a setter call on a node. -/
def SetterCall.run (fuel : Nat) (h : Heap) (object : Nat) : SetterCall → Option Heap
  | .set_boolean val => plist_object_set_boolean h object val
  | .set_real val => plist_object_set_real h object val
  | .set_integer val => plist_object_set_integer h object val
  | .set_string val => plist_object_set_string h object val
  | .set_date val => plist_object_set_date h object val
  | .set_array val => plist_object_set_array fuel h object val
  | .set_dict val => plist_object_set_dict fuel h object val
  | .set_data val length => plist_object_set_data h object val length

/-- The node is a Dict whose table holds the entries `es`. -/
def IsDict (h : Heap) (p : Nat) (es : List (String × Nat)) : Prop :=
  ∃ t, h.read p = some (.object (.dict t)) ∧ h.read t = some (.table es)

/-- The node is an Array with the elements `l`. -/
abbrev IsArray (h : Heap) (p : Nat) (l : List Nat) : Prop :=
  h.read p = some (.object (.array l))

/-- The node is live and neither a Dict nor an Array. -/
def IsScalar (h : Heap) (p : Nat) : Prop :=
  ∃ o, h.read p = some (.object o) ∧
    o.type ≠ .PLIST_OBJECT_DICT ∧ o.type ≠ .PLIST_OBJECT_ARRAY

/-- The variadic argument is a string key: a pointer to the text `k` (that
does not read as the terminator `-1`). -/
abbrev KeyArg (h : Heap) (arg : Nat) (k : String) : Prop :=
  isTerminator arg = false ∧ h.read arg = some (.chars k)

/-- The variadic argument is the integer index `i` (not the terminator `-1`). -/
abbrev IndexArg (arg : Nat) (i : Nat) : Prop :=
  isTerminator arg = false ∧ GPOINTER_TO_UINT arg = i

/-- The plist of the documentation of `plist_object_lookup`, preceded by the
three key strings a caller passes: the root dict is at address 16. -/
def docExample : Heap := ⟨[
  some (.chars "Array"), some (.chars "Dict"), some (.chars "Integer"),
  some (.object (.integer 1)), some (.chars "2"), some (.object (.string 5)),
  some (.object (.real 3)), some (.object (.array [4, 6, 7])),
  some (.object (.integer 1)), some (.object (.real 2)), some (.chars "3"),
  some (.object (.string 11)),
  some (.table [("Integer", 9), ("Real", 10), ("String", 12)]),
  some (.object (.dict 13)),
  some (.table [("Array", 8), ("Dict", 14)]),
  some (.object (.dict 15))]⟩

/-- Every block handed out before `h` ended is the same in `h2`. -/
def SameBelow (h h2 : Heap) : Prop :=
  h.size ≤ h2.size ∧ ∀ a, a ≤ h.size → h2.read a = h.read a

/-- The heaps hold the same blocks at the addresses in `(lo, hi]`. -/
def AgreeOn (lo hi : Nat) (h1 h2 : Heap) : Prop :=
  ∀ a, lo < a → a ≤ hi → h2.read a = h1.read a

/-- The node `q` owns a tree of value `t` that lies within the addresses
`(lo, hi]` of `h1`: in every heap with the same blocks at these addresses, `q`
holds `t`, and freeing `q` succeeds and touches no other address. -/
def OwnsWithin (n lo hi : Nat) (h1 : Heap) (q : Nat) (t : PlistTree) : Prop :=
  ∀ h2, AgreeOn lo hi h1 h2 →
    tree_of n h2 q = some t ∧
    ∃ h3, plist_object_free n h2 q = some h3 ∧
      ∀ a, (a ≤ lo ∨ hi < a) → h3.read a = h2.read a

/-- Every pointer is `NULL` or an address above `b`. -/
def PtrsAbove (b : Nat) (l : List Nat) : Prop := ∀ x ∈ l, x = 0 ∨ b < x

/-- The addresses above `b` are closed: `b` is within the heap and a block
above `b` points only to blocks above `b`. -/
def Guard (b : Nat) (h : Heap) : Prop :=
  b ≤ h.size ∧ ∀ a c, b < a → h.read a = some c → PtrsAbove b c.ptrs

/-- The step from `h` to `h2` leaves the blocks up to `b` as they are and keeps
the addresses above `b` closed. -/
def Keeps (b : Nat) (h h2 : Heap) : Prop :=
  Guard b h2 ∧ h.size ≤ h2.size ∧ ∀ a, a ≤ b → h2.read a = h.read a

/-- The elements `qs` own trees of the values `ts` within the addresses
`(lo, hi]` of `h1`, one after the other. -/
def ElemsWithin (n lo hi : Nat) (h1 : Heap) (qs : List Nat) (ts : List PlistTree) : Prop :=
  ∀ h2, AgreeOn lo hi h1 h2 →
    collect (tree_of n h2) qs = some ts ∧
    ∃ h3, qs.foldlM (fun hh e => plist_object_free n hh e) h2 = some h3 ∧
      ∀ a, (a ≤ lo ∨ hi < a) → h3.read a = h2.read a

/-- The values of the entries `es` own trees of the values in `ts` within the
addresses `(lo, hi]` of `h1`, one after the other. -/
def EntriesWithin (n lo hi : Nat) (h1 : Heap) (es : List (String × Nat))
    (ts : List (String × PlistTree)) : Prop :=
  ∀ h2, AgreeOn lo hi h1 h2 →
    collect (fun e => (tree_of n h2 e.2).map fun t => (e.1, t)) es = some ts ∧
    ∃ h3, es.foldlM (fun hh e => plist_object_free n hh e.2) h2 = some h3 ∧
      ∀ a, (a ≤ lo ∨ hi < a) → h3.read a = h2.read a

/-- What `plist_object_copy` with fuel `n` does on a well-formed tree: it
returns a fresh node, leaves every block that existed as it was, and the new
node owns a tree of the same value within the fresh addresses. -/
def CopySpec (n : Nat) : Prop :=
  ∀ (h : Heap) (p : Nat) (t : PlistTree), tree_of n h p = some t →
    ∃ h2 q, plist_object_copy n h p = some (h2, q) ∧ SameBelow h h2 ∧
      h.size < q ∧ q ≤ h2.size ∧ OwnsWithin n h.size h2.size h2 q t

/-- What `plist_object_copy` with fuel `n` can touch, whatever it is given: it
leaves the blocks up to `b` as they are and returns `NULL` or a node above `b`. -/
def CopyKeeps (b n : Nat) : Prop :=
  ∀ (h : Heap) (p : Nat) (h2 : Heap) (q : Nat), Guard b h →
    plist_object_copy n h p = some (h2, q) → Keeps b h h2 ∧ (q = 0 ∨ b < q)

/-- The value of the plist of the documentation of `plist_object_lookup`. -/
def docTree : PlistTree :=
  .dict [("Array", .array [.integer 1, .string (some "2"), .real 3]),
    ("Dict", .dict [("Integer", .integer 1), ("Real", .real 2), ("String", .string (some "3"))])]

/-- The type a setter is for. -/
def SetterCall.type : SetterCall → PlistObjectType
  | .set_boolean _ => .PLIST_OBJECT_BOOLEAN
  | .set_real _ => .PLIST_OBJECT_REAL
  | .set_integer _ => .PLIST_OBJECT_INTEGER
  | .set_string _ => .PLIST_OBJECT_STRING
  | .set_date _ => .PLIST_OBJECT_DATE
  | .set_array _ => .PLIST_OBJECT_ARRAY
  | .set_dict _ => .PLIST_OBJECT_DICT
  | .set_data _ _ => .PLIST_OBJECT_DATA

/-- A heap with one node of every type: a Boolean at 1, a Real at 2, an
Integer at 3, a String at 5 (its text at 4), a Date at 6, a Data node at 8 (its
three bytes at 7), an Array at 9 (its element is the Integer), a Dict at 11
(its table at 10 maps "k" to the Boolean); and, owned by a caller, the text
"new" at 12, four bytes at 13 and a table at 14 that maps "x" to the Date. -/
def sampleHeap : Heap := ⟨[
  some (.object (.boolean true)), some (.object (.real 7)), some (.object (.integer 5)),
  some (.chars "text"), some (.object (.string 4)), some (.object (.date ⟨10, 20⟩)),
  some (.bytes [1, 2, 3]), some (.object (.data 7 3)), some (.object (.array [3])),
  some (.table [("k", 1)]), some (.object (.dict 10)),
  some (.chars "new"), some (.bytes [9, 8, 7, 6]), some (.table [("x", 6)])]⟩

/-- The two blocks are of the same kind: two nodes with the same tag, two
strings, two byte blocks or two tables. -/
def SameKind : Cell → Cell → Prop
  | .object o, .object o2 => o.type = o2.type
  | .chars _, .chars _ => True
  | .bytes _, .bytes _ => True
  | .table _, .table _ => True
  | _, _ => False

/-- The step from `h` to `h2` only releases blocks: every block of `h2` is a
block of `h`, unchanged. -/
def OnlyFrees (h h2 : Heap) : Prop :=
  h2.size = h.size ∧ ∀ a c, h2.read a = some c → h.read a = some c

/-- The step from `h` to `h2` changes the kind of no block: a block that `h2`
holds at an address of `h` was a block of the same kind in `h`. -/
def Evolves (h h2 : Heap) : Prop :=
  h.size ≤ h2.size ∧
    ∀ a c2, a ≤ h.size → h2.read a = some c2 → ∃ c, h.read a = some c ∧ SameKind c c2

/-- The step from `h` to `h2` leaves every table as it was or with pairwise
distinct keys: a table of `h2` is a table of `h`, unchanged, or its keys are
pairwise distinct. -/
def TablesKept (h h2 : Heap) : Prop :=
  ∀ a es, h2.read a = some (.table es) →
    h.read a = some (.table es) ∨ (es.map Prod.fst).Nodup

/-- If the block at `t` is a table, its keys are pairwise distinct. -/
def DistinctAt (t : Nat) (h : Heap) : Prop :=
  ∀ es, h.read t = some (.table es) → (es.map Prod.fst).Nodup

/-! ## Path lookup: lemmas -/

theorem lookup_loop_dict {h : Heap} {p : Nat} {es : List (String × Nat)} {arg : Nat}
    {k : String} (hd : IsDict h p es) (hk : KeyArg h arg k) (rest : List Nat) :
    lookup_loop h p (arg :: rest) = plist_object_lookup h ((es.lookup k).getD 0) rest := by
  obtain ⟨t, hp, ht⟩ := hd
  obtain ⟨hterm, hs⟩ := hk
  simp [lookup_loop, hterm, hp, ht, hs, g_hash_table_lookup, plist_object_lookup]

theorem lookup_loop_array {h : Heap} {p : Nat} {l : List Nat} {arg : Nat}
    (ha : IsArray h p l) (hterm : isTerminator arg = false) (rest : List Nat) :
    lookup_loop h p (arg :: rest)
      = plist_object_lookup h (g_list_nth_data l (GPOINTER_TO_UINT arg)) rest := by
  unfold IsArray at ha
  simp [lookup_loop, hterm, ha, plist_object_lookup]

theorem lookup_loop_scalar {h : Heap} {p : Nat} {arg : Nat}
    (hs : IsScalar h p) (hterm : isTerminator arg = false) (rest : List Nat) :
    lookup_loop h p (arg :: rest) = some p := by
  obtain ⟨o, hp, h1, h2⟩ := hs
  cases o <;> simp_all [lookup_loop, PlistObject.type]

theorem read_zero (h : Heap) : h.read 0 = none := by
  simp [Heap.read]

theorem ne_zero_of_read {h : Heap} {p : Nat} {c : Cell} (hp : h.read p = some c) : p ≠ 0 := by
  rintro rfl
  simp [read_zero] at hp

theorem plist_object_lookup_live {h : Heap} {p : Nat} {c : Cell} (hp : h.read p = some c)
    (args : List Nat) : plist_object_lookup h p args = lookup_loop h p args := by
  simp [plist_object_lookup, ne_zero_of_read hp]

/-- When the walk along the segments `p` ends on a container node `d`, the
lookup of a longer path goes on from `d` with the segments after `p`. -/
theorem lookup_loop_after_walk {h : Heap} {d : Nat} {term : Nat}
    (hterm : isTerminator term = true)
    (hd : (∃ es, IsDict h d es) ∨ (∃ l, IsArray h d l)) :
    ∀ (p : List Nat) (root : Nat), (∀ a ∈ p, isTerminator a = false) →
      lookup_loop h root (p ++ [term]) = some d →
      ∀ rest, lookup_loop h root (p ++ rest) = lookup_loop h d rest := by
  have hlive : ∃ o, h.read d = some (.object o) ∧
      (o.type = .PLIST_OBJECT_DICT ∨ o.type = .PLIST_OBJECT_ARRAY) := by
    rcases hd with ⟨es, t, h1, _⟩ | ⟨l, h1⟩
    · exact ⟨_, h1, Or.inl rfl⟩
    · exact ⟨_, h1, Or.inr rfl⟩
  obtain ⟨od, hod, hty⟩ := hlive
  have hd0 : d ≠ 0 := ne_zero_of_read hod
  intro p
  induction p with
  | nil =>
    intro root _ hw rest
    simp [lookup_loop, hterm] at hw
    simp [hw]
  | cons a p ih =>
    intro root hp hw rest
    have ha : isTerminator a = false := hp a (by simp)
    have hp2 : ∀ b ∈ p, isTerminator b = false := fun b hb => hp b (by simp [hb])
    simp only [List.cons_append, lookup_loop, ha] at hw ⊢
    cases hr : h.read root with
    | none => simp [hr] at hw
    | some c =>
      cases c with
      | object o =>
        cases o with
        | dict val =>
          simp only [hr] at hw ⊢
          cases hl : g_hash_table_lookup h val a with
          | none => simp [hl] at hw
          | some next =>
            simp only [hl] at hw ⊢
            by_cases hn : next = 0
            · simp [hn] at hw
              exact absurd hw.symm hd0
            · simp only [hn, if_false] at hw ⊢
              exact ih next hp2 hw rest
        | array val =>
          simp only [hr] at hw ⊢
          by_cases hn : g_list_nth_data val (GPOINTER_TO_UINT a) = 0
          · simp [hn] at hw
            exact absurd hw.symm hd0
          · simp only [hn, if_false] at hw ⊢
            exact ih _ hp2 hw rest
        | _ =>
          simp [hr] at hw
          subst hw
          rw [hr] at hod
          cases hod
          simp [PlistObject.type] at hty
      | _ => simp [hr] at hw

/-- The walk that ends on a node that is neither a Dict nor an Array stays on
that node, whatever segments follow. -/
theorem lookup_loop_stays_on_scalar {h : Heap} {d : Nat} {term arg : Nat}
    (hterm : isTerminator term = true) (harg : isTerminator arg = false)
    (hd : IsScalar h d) :
    ∀ (p : List Nat) (root : Nat), (∀ a ∈ p, isTerminator a = false) →
      lookup_loop h root (p ++ [term]) = some d →
      ∀ rest, lookup_loop h root (p ++ arg :: rest) = some d := by
  have hd0 : d ≠ 0 := by
    obtain ⟨o, ho, _⟩ := hd
    exact ne_zero_of_read ho
  intro p
  induction p with
  | nil =>
    intro root _ hw rest
    simp [lookup_loop, hterm] at hw
    subst hw
    exact lookup_loop_scalar hd harg rest
  | cons a p ih =>
    intro root hp hw rest
    have ha : isTerminator a = false := hp a (by simp)
    have hp2 : ∀ b ∈ p, isTerminator b = false := fun b hb => hp b (by simp [hb])
    simp only [List.cons_append, lookup_loop, ha] at hw ⊢
    cases hr : h.read root with
    | none => simp [hr] at hw
    | some c =>
      cases c with
      | object o =>
        cases o with
        | dict val =>
          simp only [hr] at hw ⊢
          cases hl : g_hash_table_lookup h val a with
          | none => simp [hl] at hw
          | some next =>
            simp only [hl] at hw ⊢
            by_cases hn : next = 0
            · simp [hn] at hw
              exact absurd hw.symm hd0
            · simp only [hn, if_false] at hw ⊢
              exact ih next hp2 hw rest
        | array val =>
          simp only [hr] at hw ⊢
          by_cases hn : g_list_nth_data val (GPOINTER_TO_UINT a) = 0
          · simp [hn] at hw
            exact absurd hw.symm hd0
          · simp only [hn, if_false] at hw ⊢
            exact ih _ hp2 hw rest
        | _ =>
          simp [hr] at hw
          simp [hr, hw]
      | _ => simp [hr] at hw

theorem plist_object_lookup_terminator (h : Heap) (p : Nat) {term : Nat}
    (hterm : isTerminator term = true) (rest : List Nat) :
    plist_object_lookup h p (term :: rest) = some p := by
  by_cases hp : p = 0
  · simp [plist_object_lookup, hp]
  · simp [plist_object_lookup, hp, lookup_loop, hterm]

theorem plist_object_lookup_null (h : Heap) (args : List Nat) :
    plist_object_lookup h 0 args = some 0 := by
  simp [plist_object_lookup]

/-- A lookup that ends on a live node did not start from `NULL`, so it is the
loop that produced the node. -/
theorem lookup_loop_of_lookup {h : Heap} {root d : Nat} {c : Cell} {args : List Nat}
    (hd : h.read d = some c) (hw : plist_object_lookup h root args = some d) :
    lookup_loop h root args = some d := by
  unfold plist_object_lookup at hw
  by_cases hr : root = 0
  · simp [hr] at hw
    exact absurd hw.symm (ne_zero_of_read hd)
  · simpa [hr] using hw

theorem plist_object_lookup_ne_null {h : Heap} {root : Nat} (hr : root ≠ 0) (args : List Nat) :
    plist_object_lookup h root args = lookup_loop h root args := by
  simp [plist_object_lookup, hr]

theorem root_ne_null_of_lookup {h : Heap} {root d : Nat} {c : Cell} {args : List Nat}
    (hd : h.read d = some c) (hw : plist_object_lookup h root args = some d) :
    root ≠ 0 := by
  rintro rfl
  simp [plist_object_lookup] at hw
  exact ne_zero_of_read hd hw.symm

/-! ## Path lookup: the claims -/

/-- C3: on a Dict root in which key `k` is mapped to an Array node `A`, the
path `k`, `i` with `i` smaller than the length of `A` returns the `i`-th
element of `A`. -/
theorem lookup_key_then_index (h : Heap) (root : Nat) (es : List (String × Nat))
    (k : String) (A : Nat) (l : List Nat) (i : Nat) (kArg iArg term : Nat)
    (rest : List Nat)
    (hroot : IsDict h root es) (hk : es.lookup k = some A) (hA : IsArray h A l)
    (hi : i < l.length) (hkArg : KeyArg h kArg k) (hiArg : IndexArg iArg i)
    (hterm : isTerminator term = true) :
    plist_object_lookup h root (kArg :: iArg :: term :: rest) = some (l.get ⟨i, hi⟩) := by
  obtain ⟨t, hr, ht⟩ := hroot
  rw [plist_object_lookup_live hr, lookup_loop_dict ⟨t, hr, ht⟩ hkArg, hk]
  simp only [Option.getD_some]
  rw [plist_object_lookup_live hA, lookup_loop_array hA hiArg.1, hiArg.2,
    plist_object_lookup_terminator _ _ hterm]
  simp [g_list_nth_data, List.getElem?_eq_getElem hi]

/-- Witness for C3: the example of the documentation, path "Array", 0. -/
theorem lookup_key_then_index_witness :
    plist_object_lookup docExample 16 [1, 0, 2 ^ 32 - 1] = some 4 ∧
      docExample.read 4 = some (.object (.integer 1)) :=
  ⟨lookup_key_then_index docExample 16 [("Array", 8), ("Dict", 14)] "Array" 8 [4, 6, 7]
      0 1 0 (2 ^ 32 - 1) [] ⟨15, by decide, by decide⟩ (by decide) (by decide) (by decide)
      ⟨by decide, by decide⟩ ⟨by decide, by decide⟩ (by decide),
    by decide⟩

/-- C4: on a Dict root in which key `k1` is mapped to a Dict node `D` that maps
key `k2` to a node `v`, the path `k1`, `k2` returns `v`. -/
theorem lookup_key_then_key (h : Heap) (root : Nat) (es : List (String × Nat))
    (k1 : String) (D : Nat) (es2 : List (String × Nat)) (k2 : String) (v : Nat)
    (k1Arg k2Arg term : Nat) (rest : List Nat)
    (hroot : IsDict h root es) (hk1 : es.lookup k1 = some D) (hD : IsDict h D es2)
    (hk2 : es2.lookup k2 = some v) (hk1Arg : KeyArg h k1Arg k1) (hk2Arg : KeyArg h k2Arg k2)
    (hterm : isTerminator term = true) :
    plist_object_lookup h root (k1Arg :: k2Arg :: term :: rest) = some v := by
  obtain ⟨t, hr, ht⟩ := hroot
  obtain ⟨t2, hr2, ht2⟩ := hD
  rw [plist_object_lookup_live hr, lookup_loop_dict ⟨t, hr, ht⟩ hk1Arg, hk1]
  simp only [Option.getD_some]
  rw [plist_object_lookup_live hr2, lookup_loop_dict ⟨t2, hr2, ht2⟩ hk2Arg, hk2]
  simp only [Option.getD_some]
  exact plist_object_lookup_terminator _ _ hterm _

/-- Witness for C4: the example of the documentation, path "Dict", "Integer". -/
theorem lookup_key_then_key_witness :
    plist_object_lookup docExample 16 [2, 3, 2 ^ 32 - 1] = some 9 ∧
      docExample.read 9 = some (.object (.integer 1)) :=
  ⟨lookup_key_then_key docExample 16 [("Array", 8), ("Dict", 14)] "Dict" 14
      [("Integer", 9), ("Real", 10), ("String", 12)] "Integer" 9 2 3 (2 ^ 32 - 1) []
      ⟨15, by decide, by decide⟩ (by decide) ⟨13, by decide, by decide⟩ (by decide)
      ⟨by decide, by decide⟩ ⟨by decide, by decide⟩ (by decide),
    by decide⟩

theorem lookup_none_of_not_key {es : List (String × Nat)} {k : String}
    (hk : k ∉ es.map Prod.fst) : es.lookup k = none := by
  rw [List.lookup_eq_none_iff]
  intro e he
  have hne : k ≠ e.1 := fun heq => hk (heq ▸ List.mem_map_of_mem Prod.fst he)
  simpa using hne

/-- C5: when the walk has arrived at a Dict node and the next segment is a
string key that is not a key of that dict, the lookup returns `NULL`, whatever
segments follow. -/
theorem lookup_missing_key (h : Heap) (root d : Nat) (es : List (String × Nat))
    (k : String) (p : List Nat) (arg term : Nat) (rest : List Nat)
    (hp : ∀ a ∈ p, isTerminator a = false) (hterm : isTerminator term = true)
    (hw : plist_object_lookup h root (p ++ [term]) = some d)
    (hd : IsDict h d es) (harg : KeyArg h arg k) (hk : k ∉ es.map Prod.fst) :
    plist_object_lookup h root (p ++ arg :: rest) = some 0 := by
  obtain ⟨t, hr, ht⟩ := hd
  have hroot : root ≠ 0 := root_ne_null_of_lookup hr hw
  rw [plist_object_lookup_ne_null hroot,
    lookup_loop_after_walk hterm (Or.inl ⟨es, t, hr, ht⟩) p root hp (lookup_loop_of_lookup hr hw),
    lookup_loop_dict ⟨t, hr, ht⟩ harg, lookup_none_of_not_key hk]
  exact plist_object_lookup_null h rest

/-- Witness for C5: the key "Integer" is looked up in the root dict of the
documentation's example, and "Array" in its inner dict, with segments after. -/
theorem lookup_missing_key_witness :
    plist_object_lookup docExample 16 [3, 0, 2 ^ 32 - 1] = some 0 ∧
      plist_object_lookup docExample 16 [2, 1, 0, 2 ^ 32 - 1] = some 0 :=
  ⟨lookup_missing_key docExample 16 16 [("Array", 8), ("Dict", 14)] "Integer" []
      3 (2 ^ 32 - 1) [0, 2 ^ 32 - 1] (by decide) (by decide) (by decide)
      ⟨15, by decide, by decide⟩ (by decide) (by decide),
    lookup_missing_key docExample 16 14 [("Integer", 9), ("Real", 10), ("String", 12)] "Array"
      [2] 1 (2 ^ 32 - 1) [0, 2 ^ 32 - 1] (by decide) (by decide) (by decide)
      ⟨13, by decide, by decide⟩ (by decide) (by decide)⟩

/-- C6: when the walk has arrived at an Array node of length `n` and the next
segment is the index `i`, the lookup returns `NULL` for `i ≥ n`, whatever
segments follow, and for `i < n` it goes on from the `i`-th element with the
segments that follow. -/
theorem lookup_index (h : Heap) (root A : Nat) (l : List Nat) (i : Nat)
    (p : List Nat) (arg term : Nat) (rest : List Nat)
    (hp : ∀ a ∈ p, isTerminator a = false) (hterm : isTerminator term = true)
    (hw : plist_object_lookup h root (p ++ [term]) = some A)
    (hA : IsArray h A l) (harg : IndexArg arg i) :
    (l.length ≤ i → plist_object_lookup h root (p ++ arg :: rest) = some 0) ∧
      (∀ hi : i < l.length, plist_object_lookup h root (p ++ arg :: rest)
        = plist_object_lookup h (l.get ⟨i, hi⟩) rest) := by
  have hroot : root ≠ 0 := root_ne_null_of_lookup hA hw
  have hgo : plist_object_lookup h root (p ++ arg :: rest)
      = plist_object_lookup h (g_list_nth_data l i) rest := by
    rw [plist_object_lookup_ne_null hroot,
      lookup_loop_after_walk hterm (Or.inr ⟨l, hA⟩) p root hp (lookup_loop_of_lookup hA hw),
      lookup_loop_array hA harg.1, harg.2]
  constructor
  · intro hi
    rw [hgo]
    simp [g_list_nth_data, List.getElem?_eq_none hi, plist_object_lookup_null]
  · intro hi
    rw [hgo]
    simp [g_list_nth_data, List.getElem?_eq_getElem hi]

/-- Witness for C6: index 3 and index 1 on the three-element array of the
documentation's example, reached by the key "Array". -/
theorem lookup_index_witness :
    plist_object_lookup docExample 16 [1, 3, 0, 2 ^ 32 - 1] = some 0 ∧
      plist_object_lookup docExample 16 [1, 1, 2 ^ 32 - 1]
        = plist_object_lookup docExample 6 [2 ^ 32 - 1] :=
  ⟨(lookup_index docExample 16 8 [4, 6, 7] 3 [1] 3 (2 ^ 32 - 1) [0, 2 ^ 32 - 1]
      (by decide) (by decide) (by decide) (by decide) ⟨by decide, by decide⟩).1 (by decide),
    (lookup_index docExample 16 8 [4, 6, 7] 1 [1] 1 (2 ^ 32 - 1) [2 ^ 32 - 1]
      (by decide) (by decide) (by decide) (by decide) ⟨by decide, by decide⟩).2 (by decide)⟩

/-- C7: when the walk has reached a node that is neither a Dict nor an Array
(the root included) and at least one segment remains, the lookup returns that
node itself, not `NULL`. -/
theorem lookup_scalar_with_segments_left (h : Heap) (root d : Nat)
    (p : List Nat) (arg term : Nat) (rest : List Nat)
    (hp : ∀ a ∈ p, isTerminator a = false) (hterm : isTerminator term = true)
    (hw : plist_object_lookup h root (p ++ [term]) = some d)
    (hd : IsScalar h d) (harg : isTerminator arg = false) :
    plist_object_lookup h root (p ++ arg :: rest) = some d ∧ d ≠ 0 := by
  obtain ⟨o, ho, hty⟩ := hd
  have hroot : root ≠ 0 := root_ne_null_of_lookup ho hw
  refine ⟨?_, ne_zero_of_read ho⟩
  rw [plist_object_lookup_ne_null hroot]
  exact lookup_loop_stays_on_scalar hterm harg ⟨o, ho, hty⟩ p root hp
    (lookup_loop_of_lookup ho hw) rest

/-- Witness for C7: the path "Dict", "Integer", "Integer" on the
documentation's example stays on the Integer node; so does any segment applied
to an Integer root. -/
theorem lookup_scalar_with_segments_left_witness :
    (plist_object_lookup docExample 16 [2, 3, 3, 2 ^ 32 - 1] = some 9 ∧ 9 ≠ 0) ∧
      (plist_object_lookup docExample 4 [0, 2 ^ 32 - 1] = some 4 ∧ 4 ≠ 0) :=
  ⟨lookup_scalar_with_segments_left docExample 16 9 [2, 3] 3 (2 ^ 32 - 1) [2 ^ 32 - 1]
      (by decide) (by decide) (by decide) ⟨.integer 1, by decide, by decide, by decide⟩
      (by decide),
    lookup_scalar_with_segments_left docExample 4 4 [] 0 (2 ^ 32 - 1) [2 ^ 32 - 1]
      (by decide) (by decide) (by decide) ⟨.integer 1, by decide, by decide, by decide⟩
      (by decide)⟩

/-- C8, evaluated on the code: on the documentation's example the path "Dict",
"Integer", "Integer" does not exist (the Integer node has no children), yet the
lookup returns the Integer node at address 9 instead of `NULL`. -/
theorem lookup_nonexistent_path_returns_node :
    children docExample 9 = [] ∧
      plist_object_lookup docExample 16 [2, 3, 3, 2 ^ 32 - 1] = some 9 := by
  decide

/-- C9 fails: a string key applied to an Array node is read as an index (the
pointer to "Array" is the word 1, and the lookup returns element 1 of the
array), and an integer applied to a Dict node is read as a pointer to a key:
the word 3 is the address of the text "Integer", and the lookup returns the
value of that key; the index 0 is the `NULL` pointer, and reading a key through
it is undefined. -/
theorem lookup_kind_mismatch_counterexample :
    (IsArray docExample 8 [4, 6, 7] ∧ KeyArg docExample 1 "Array" ∧
      plist_object_lookup docExample 8 [1, 2 ^ 32 - 1] = some 6) ∧
    (IsDict docExample 14 [("Integer", 9), ("Real", 10), ("String", 12)] ∧ IndexArg 3 3 ∧
      plist_object_lookup docExample 14 [3, 2 ^ 32 - 1] = some 9) ∧
    (IndexArg 0 0 ∧ plist_object_lookup docExample 14 [0, 2 ^ 32 - 1] = none) :=
  ⟨⟨by decide, by decide, by decide⟩, ⟨⟨13, by decide, by decide⟩, by decide, by decide⟩,
    by decide, by decide⟩

/-- C9 as amended: a segment is read by the kind of the node it is applied to.
On an Array node the low 32 bits of the argument are the index: the lookup
yields `NULL` when that index is not below the length and otherwise goes on
from that element.  On a Dict node the argument is a pointer to the key text:
the lookup goes on from the value of that key (`NULL` when the text is not a
key) and is undefined when the argument does not point to a string. -/
theorem lookup_segment_read_by_node_kind (h : Heap) (d : Nat) (arg : Nat)
    (rest : List Nat) (harg : isTerminator arg = false) :
    (∀ l, IsArray h d l →
      plist_object_lookup h d (arg :: rest)
        = plist_object_lookup h (g_list_nth_data l (GPOINTER_TO_UINT arg)) rest ∧
      (l.length ≤ GPOINTER_TO_UINT arg → plist_object_lookup h d (arg :: rest) = some 0)) ∧
    (∀ es, IsDict h d es →
      (∀ k, h.read arg = some (.chars k) →
        plist_object_lookup h d (arg :: rest)
          = plist_object_lookup h ((es.lookup k).getD 0) rest) ∧
      ((∀ k, h.read arg ≠ some (.chars k)) →
        plist_object_lookup h d (arg :: rest) = none)) := by
  refine ⟨fun l hl => ?_, fun es hes => ?_⟩
  · have hgo := lookup_loop_array hl harg rest
    rw [← plist_object_lookup_live hl] at hgo
    refine ⟨hgo, fun hlen => ?_⟩
    rw [hgo]
    simp [g_list_nth_data, List.getElem?_eq_none hlen, plist_object_lookup_null]
  · obtain ⟨t, hr, ht⟩ := hes
    refine ⟨fun k hk => ?_, fun hno => ?_⟩
    · rw [plist_object_lookup_live hr]
      exact lookup_loop_dict ⟨t, hr, ht⟩ ⟨harg, hk⟩ rest
    · rw [plist_object_lookup_live hr]
      simp only [lookup_loop, harg, hr, g_hash_table_lookup, ht]
      cases hc : h.read arg with
      | none => simp
      | some c =>
        cases c with
        | chars k => exact absurd hc (hno k)
        | _ => simp

/-- Witness for C9 as amended, on the documentation's example: the key pointer
2 applied to the three-element array is index 2; the key pointer 5 applied to
it is out of range. -/
theorem lookup_segment_read_by_node_kind_witness :
    plist_object_lookup docExample 8 [2, 2 ^ 32 - 1]
        = plist_object_lookup docExample 7 [2 ^ 32 - 1] ∧
      plist_object_lookup docExample 8 [5, 2 ^ 32 - 1] = some 0 :=
  ⟨((lookup_segment_read_by_node_kind docExample 8 2 [2 ^ 32 - 1] (by decide)).1
      [4, 6, 7] (by decide)).1,
    ((lookup_segment_read_by_node_kind docExample 8 5 [2 ^ 32 - 1] (by decide)).1
      [4, 6, 7] (by decide)).2 (by decide)⟩

theorem inTree_of_child {h : Heap} {r q p : Nat} (hq : q ∈ children h r)
    (hp : InTree h q p) : InTree h r p := by
  induction hp with
  | root => exact InTree.child InTree.root hq
  | child _ hmem ih => exact InTree.child ih hmem

theorem mem_of_getD_ne_zero {l : List Nat} {n : Nat} (hne : l.getD n 0 ≠ 0) :
    l.getD n 0 ∈ l := by
  by_cases hn : n < l.length
  · rw [List.getD_eq_getElem _ _ hn]
    exact List.getElem_mem hn
  · exact absurd (List.getD_eq_default _ _ (Nat.le_of_not_lt hn)) hne

theorem mem_values_of_lookup {es : List (String × Nat)} {k : String} {v : Nat}
    (hk : es.lookup k = some v) : v ∈ es.map Prod.snd := by
  obtain ⟨l1, l2, rfl, _⟩ := List.lookup_eq_some_iff.mp hk
  simp

theorem inTree_of_lookup_loop (h : Heap) :
    ∀ (args : List Nat) (root p : Nat), lookup_loop h root args = some p → p ≠ 0 →
      InTree h root p := by
  intro args
  induction args with
  | nil => intro root p hw; simp [lookup_loop] at hw
  | cons a args ih =>
    intro root p hw hp
    simp only [lookup_loop] at hw
    by_cases ha : isTerminator a = true
    · simp [ha] at hw
      subst hw
      exact InTree.root
    · simp only [ha] at hw
      cases hr : h.read root with
      | none => simp [hr] at hw
      | some c =>
        cases c with
        | object o =>
          cases o with
          | dict val =>
            simp only [hr, g_hash_table_lookup] at hw
            cases ht : h.read val with
            | none => simp [ht] at hw
            | some c2 =>
              cases c2 with
              | table es =>
                cases hk : h.read a with
                | none => simp [ht, hk] at hw
                | some c3 =>
                  cases c3 with
                  | chars k =>
                    simp only [ht, hk] at hw
                    by_cases hn : (es.lookup k).getD 0 = 0
                    · simp [hn] at hw
                      exact absurd hw.symm hp
                    · simp only [hn] at hw
                      cases hl : es.lookup k with
                      | none => simp [hl] at hn
                      | some v =>
                        simp only [hl, Option.getD_some] at hw
                        refine inTree_of_child ?_ (ih v p (by simpa using hw) hp)
                        simp only [children, hr, ht]
                        exact mem_values_of_lookup hl
                  | _ => simp [ht, hk] at hw
              | _ => simp [ht] at hw
          | array val =>
            simp only [hr] at hw
            by_cases hn : g_list_nth_data val (GPOINTER_TO_UINT a) = 0
            · simp [hn] at hw
              exact absurd hw.symm hp
            · simp only [hn] at hw
              refine inTree_of_child ?_ (ih _ p (by simpa using hw) hp)
              simp only [children, hr]
              exact mem_of_getD_ne_zero hn
          | _ =>
            simp [hr] at hw
            subst hw
            exact InTree.root
        | _ => simp [hr] at hw

/-- C10: a node returned by the lookup is the root or a descendant of the root,
reached through array elements and dict values; the lookup leaves the heap as
it is (it produces no heap), so the node is not a copy. -/
theorem lookup_returns_node_of_tree (h : Heap) (root : Nat) (args : List Nat) (p : Nat)
    (hw : plist_object_lookup h root args = some p) (hp : p ≠ 0) : InTree h root p := by
  unfold plist_object_lookup at hw
  by_cases hr : root = 0
  · simp [hr] at hw
    exact absurd hw.symm hp
  · simp only [hr, if_false] at hw
    exact inTree_of_lookup_loop h args root p hw hp

/-- Witness for C10: the node found under "Array", 0 in the documentation's
example is in the tree of the root. -/
theorem lookup_returns_node_of_tree_witness : InTree docExample 16 4 :=
  lookup_returns_node_of_tree docExample 16 [1, 0, 2 ^ 32 - 1] 4 (by decide) (by decide)

/-! ## The heap: lemmas -/

theorem read_of_size_lt {h : Heap} {a : Nat} (ha : h.size < a) : h.read a = none := by
  unfold Heap.read Heap.size at *
  have h0 : a ≠ 0 := by omega
  simp only [h0, if_false]
  exact List.getD_eq_default _ _ (by omega)

theorem le_size_of_read {h : Heap} {a : Nat} {c : Cell} (ha : h.read a = some c) :
    a ≤ h.size := by
  by_contra hlt
  rw [read_of_size_lt (Nat.lt_of_not_le hlt)] at ha
  cases ha

theorem size_alloc (h : Heap) (c : Cell) : (h.alloc c).1.size = h.size + 1 := by
  simp [Heap.alloc, Heap.size]

theorem alloc_snd (h : Heap) (c : Cell) : (h.alloc c).2 = h.size + 1 := rfl

theorem read_alloc_self (h : Heap) (c : Cell) : (h.alloc c).1.read (h.size + 1) = some c := by
  simp [Heap.alloc, Heap.read, Heap.size, List.getD_eq_getElem?_getD]

theorem read_alloc_of_ne (h : Heap) (c : Cell) {a : Nat} (ha : a ≠ h.size + 1) :
    (h.alloc c).1.read a = h.read a := by
  unfold Heap.alloc Heap.read Heap.size at *
  by_cases h0 : a = 0
  · simp [h0]
  · simp only [h0, if_false, List.getD_eq_getElem?_getD]
    by_cases hlt : a - 1 < h.cells.length
    · rw [List.getElem?_append_left hlt]
    · have h1 : h.cells.length < a - 1 := by omega
      have h2 : (h.cells ++ [some c]).length ≤ a - 1 := by
        rw [List.length_append, List.length_singleton]; omega
      rw [List.getElem?_eq_none h2, List.getElem?_eq_none (by omega)]

theorem size_write (h : Heap) (a : Nat) (c : Cell) : (h.write a c).size = h.size := by
  unfold Heap.write Heap.size
  split <;> simp

theorem read_write_self {h : Heap} {a : Nat} (c : Cell) (h0 : a ≠ 0) (ha : a ≤ h.size) :
    (h.write a c).read a = some c := by
  unfold Heap.size at ha
  have hlt : a - 1 < h.cells.length := by omega
  simp [Heap.write, Heap.read, h0, List.getD_eq_getElem?_getD, List.getElem?_set, hlt]

theorem read_write_of_ne (h : Heap) (c : Cell) {a x : Nat} (hx : x ≠ a) :
    (h.write a c).read x = h.read x := by
  unfold Heap.write Heap.read
  by_cases h0 : a = 0
  · simp [h0]
  · by_cases hx0 : x = 0
    · simp [hx0]
    · have : a - 1 ≠ x - 1 := by omega
      simp [h0, hx0, List.getD_eq_getElem?_getD, List.getElem?_set, this]

theorem size_dealloc (h : Heap) (a : Nat) : (h.dealloc a).size = h.size := by
  unfold Heap.dealloc Heap.size
  split <;> simp

theorem read_dealloc_of_ne (h : Heap) {a x : Nat} (hx : x ≠ a) :
    (h.dealloc a).read x = h.read x := by
  unfold Heap.dealloc Heap.read
  by_cases h0 : a = 0
  · simp [h0]
  · by_cases hx0 : x = 0
    · simp [hx0]
    · have : a - 1 ≠ x - 1 := by omega
      simp [h0, hx0, List.getD_eq_getElem?_getD, List.getElem?_set, this]

theorem read_dealloc_some {h : Heap} {a x : Nat} {c : Cell}
    (hx : (h.dealloc a).read x = some c) : h.read x = some c ∧ x ≠ a := by
  by_cases hxa : x = a
  · subst hxa
    exfalso
    unfold Heap.dealloc Heap.read at hx
    by_cases h0 : x = 0
    · simp [h0] at hx
    · simp only [h0, if_false, List.getD_eq_getElem?_getD, List.getElem?_set] at hx
      by_cases hlt : x - 1 < h.cells.length
      · simp [hlt] at hx
      · simp [hlt] at hx
  · exact ⟨by rw [← read_dealloc_of_ne h hxa]; exact hx, hxa⟩

/-! ## The value of a tree: lemmas -/

theorem collect_cons_eq_some {α β : Type} {f : α → Option β} {a : α} {as : List α}
    {l : List β} (hc : collect f (a :: as) = some l) :
    ∃ b bs, f a = some b ∧ collect f as = some bs ∧ l = b :: bs := by
  simp only [collect] at hc
  cases hb : f a with
  | none => simp [hb] at hc
  | some b =>
    cases hbs : collect f as with
    | none => simp [hb, hbs] at hc
    | some bs =>
      simp [hb, hbs] at hc
      exact ⟨b, bs, rfl, rfl, hc.symm⟩

theorem collect_cons_of_some {α β : Type} {f : α → Option β} {a : α} {as : List α}
    {b : β} {bs : List β} (hb : f a = some b) (hbs : collect f as = some bs) :
    collect f (a :: as) = some (b :: bs) := by
  simp [collect, hb, hbs]

theorem collect_mono {α β : Type} {f g : α → Option β} :
    ∀ (l : List α) (bs : List β), (∀ a ∈ l, ∀ b, f a = some b → g a = some b) →
      collect f l = some bs → collect g l = some bs := by
  intro l
  induction l with
  | nil => intro bs _ hc; simpa [collect] using hc
  | cons a as ih =>
    intro bs hfg hc
    obtain ⟨b, bs2, hb, hbs, rfl⟩ := collect_cons_eq_some hc
    exact collect_cons_of_some (hfg a (by simp) b hb)
      (ih bs2 (fun x hx y hy => hfg x (by simp [hx]) y hy) hbs)

theorem map_eq_some_of_imp {α β : Type} {x y : Option α} {f : α → β} {b : β}
    (hxy : ∀ a, x = some a → y = some a) (hx : x.map f = some b) : y.map f = some b := by
  cases x with
  | none => simp at hx
  | some a => rw [hxy a rfl]; exact hx

/-- The value of a tree stays the same when every live block stays the same. -/
theorem tree_of_preserved {h h2 : Heap}
    (hp : ∀ a c, h.read a = some c → h2.read a = some c) :
    ∀ (n : Nat) (p : Nat) (t : PlistTree), tree_of n h p = some t →
      tree_of n h2 p = some t := by
  intro n
  induction n with
  | zero => intro p t hT; simp [tree_of] at hT
  | succ n ih =>
    intro p t hT
    simp only [tree_of] at hT ⊢
    cases hr : h.read p with
    | none => simp [hr] at hT
    | some c =>
      cases c with
      | object o =>
        rw [hp p _ hr]
        simp only [hr] at hT
        cases o with
        | string val =>
          by_cases hv : val = 0
          · simpa [hv] using hT
          · simp only [hv, if_false] at hT ⊢
            cases hs : h.read val with
            | none => simp [hs] at hT
            | some c2 => rw [hp val _ hs]; simpa [hs] using hT
        | array val =>
          simp only at hT ⊢
          exact map_eq_some_of_imp (fun ts hts => collect_mono val ts
            (fun a _ b hb => ih a b hb) hts) hT
        | dict val =>
          simp only at hT ⊢
          cases hs : h.read val with
          | none => simp [hs] at hT
          | some c2 =>
            rw [hp val _ hs]
            simp only [hs] at hT
            cases c2 with
            | table es =>
              simp only at hT ⊢
              by_cases hnd : (es.map Prod.fst).Nodup
              · simp only [hnd, if_true] at hT ⊢
                exact map_eq_some_of_imp (fun ts hts => collect_mono es ts
                  (fun e _ b hb => map_eq_some_of_imp (fun t1 ht1 => ih e.2 t1 ht1) hb) hts) hT
              · simp [hnd] at hT
            | _ => simp at hT
        | data val length =>
          by_cases hl : length = 0
          · simpa [hl] using hT
          · simp only [hl, if_false] at hT ⊢
            cases hs : h.read val with
            | none => simp [hs] at hT
            | some c2 => rw [hp val _ hs]; simpa [hs] using hT
        | _ => exact hT
      | _ => simp [hr] at hT

/-- More fuel does not change the value of a tree. -/
theorem tree_of_succ (h : Heap) :
    ∀ (n : Nat) (p : Nat) (t : PlistTree), tree_of n h p = some t →
      tree_of (n + 1) h p = some t := by
  intro n
  induction n with
  | zero => intro p t hT; simp [tree_of] at hT
  | succ n ih =>
    intro p t hT
    rw [tree_of] at hT ⊢
    cases hr : h.read p with
    | none => simp [hr] at hT
    | some c =>
      cases c with
      | object o =>
        simp only [hr] at hT ⊢
        cases o with
        | array val =>
          simp only at hT ⊢
          exact map_eq_some_of_imp (fun ts hts => collect_mono val ts
            (fun a _ b hb => ih a b hb) hts) hT
        | dict val =>
          simp only at hT ⊢
          cases hs : h.read val with
          | none => simp [hs] at hT
          | some c2 =>
            simp only [hs] at hT ⊢
            cases c2 with
            | table es =>
              simp only at hT ⊢
              by_cases hnd : (es.map Prod.fst).Nodup
              · simp only [hnd, if_true] at hT ⊢
                exact map_eq_some_of_imp (fun ts hts => collect_mono es ts
                  (fun e _ b hb => map_eq_some_of_imp (fun t1 ht1 => ih e.2 t1 ht1) hb) hts) hT
              · simp [hnd] at hT
            | _ => simp at hT
        | _ => exact hT
      | _ => simp [hr] at hT

theorem tree_of_le (h : Heap) {n m : Nat} (hnm : n ≤ m) (p : Nat) (t : PlistTree)
    (hT : tree_of n h p = some t) : tree_of m h p = some t := by
  induction hnm with
  | refl => exact hT
  | step _ ih => exact tree_of_succ h _ p t ih

/-! ## `plist_object_copy` on a well-formed tree -/

theorem sameBelow_refl (h : Heap) : SameBelow h h := ⟨Nat.le_refl _, fun _ _ => rfl⟩

theorem sameBelow_trans {h1 h2 h3 : Heap} (h12 : SameBelow h1 h2) (h23 : SameBelow h2 h3) :
    SameBelow h1 h3 :=
  ⟨Nat.le_trans h12.1 h23.1, fun a ha => by
    rw [h23.2 a (Nat.le_trans ha h12.1), h12.2 a ha]⟩

theorem sameBelow_alloc (h : Heap) (c : Cell) : SameBelow h (h.alloc c).1 :=
  ⟨by rw [size_alloc]; omega, fun a ha => read_alloc_of_ne h c (by omega)⟩

theorem sameBelow_write {h : Heap} {a : Nat} (c : Cell) {h0 : Heap} (h0h : SameBelow h0 h)
    (ha : h0.size < a) : SameBelow h0 (h.write a c) :=
  ⟨by rw [size_write]; exact h0h.1, fun x hx => by
    rw [read_write_of_ne h c (by omega), h0h.2 x hx]⟩

theorem preserved_of_sameBelow {h h2 : Heap} (hsb : SameBelow h h2) :
    ∀ a c, h.read a = some c → h2.read a = some c := fun a c ha => by
  rw [hsb.2 a (le_size_of_read ha)]; exact ha

theorem foldlM_nil_option {σ α : Type} (f : σ → α → Option σ) (s : σ) :
    List.foldlM f s [] = some s := rfl

theorem foldlM_cons_option {σ α : Type} (f : σ → α → Option σ) (s : σ) (a : α)
    (as : List α) : List.foldlM f s (a :: as) = (f s a).bind fun s1 => List.foldlM f s1 as := by
  simp [List.foldlM_cons]

/-- A node that holds no pointers owns its own block, nothing else. -/
theorem owns_leaf {n lo hi : Nat} {h1 : Heap} {r : Nat} {o : PlistObject} {t : PlistTree}
    (hr : h1.read r = some (.object o)) (hlo : lo < r) (hhi : r ≤ hi)
    (htree : ∀ h2 : Heap, h2.read r = some (.object o) → tree_of n h2 r = some t)
    (hfree : ∀ h2 : Heap, h2.read r = some (.object o) →
      plist_object_free n h2 r = some (h2.dealloc r)) :
    OwnsWithin n lo hi h1 r t := by
  intro h2 hag
  have hr2 : h2.read r = some (.object o) := by rw [hag r hlo hhi]; exact hr
  refine ⟨htree h2 hr2, h2.dealloc r, hfree h2 hr2, fun a ha => ?_⟩
  exact read_dealloc_of_ne h2 (by omega)

/-- The heap after allocating a block and filling it. -/
theorem alloc_write_facts (h : Heap) (z c : Cell) :
    SameBelow h ((h.alloc z).1.write (h.size + 1) c) ∧
      ((h.alloc z).1.write (h.size + 1) c).size = h.size + 1 ∧
      ((h.alloc z).1.write (h.size + 1) c).read (h.size + 1) = some c := by
  refine ⟨sameBelow_write c (sameBelow_alloc h z) (by omega), ?_, ?_⟩
  · rw [size_write, size_alloc]
  · exact read_write_self c (by omega) (by rw [size_alloc])

theorem write_write (h : Heap) (a : Nat) (c c2 : Cell) :
    (h.write a c).write a c2 = h.write a c2 := by
  unfold Heap.write
  by_cases h0 : a = 0
  · simp [h0]
  · simp [h0, List.set_set]

/-- The copies of the elements of an array, made one after the other. -/
theorem copy_elements {n : Nat} (ih : CopySpec n) (h0 : Heap) :
    ∀ (val : List Nat) (ts : List PlistTree) (hs : Heap) (acc : List Nat),
      SameBelow h0 hs → collect (tree_of n h0) val = some ts →
      ∃ hs2 qs, val.foldlM (insert_copied_element (plist_object_copy n)) (hs, acc)
          = some (hs2, qs.reverse ++ acc) ∧
        SameBelow hs hs2 ∧ ElemsWithin n hs.size hs2.size hs2 qs ts := by
  intro val
  induction val with
  | nil =>
    intro ts hs acc _ hc
    simp [collect] at hc
    subst hc
    refine ⟨hs, [], by simp [foldlM_nil_option], sameBelow_refl hs, fun h2 _ => ?_⟩
    exact ⟨by simp [collect], h2, by simp [foldlM_nil_option], fun _ _ => rfl⟩
  | cons v vs ihl =>
    intro ts hs acc hsb hc
    obtain ⟨t, ts2, ht, hts, rfl⟩ := collect_cons_eq_some hc
    have htv : tree_of n hs v = some t :=
      tree_of_preserved (preserved_of_sameBelow hsb) n v t ht
    obtain ⟨h1, q, hcopy, hsb1, _, _, hown⟩ := ih hs v t htv
    obtain ⟨hs2, qs, hfold, hsb2, hel⟩ :=
      ihl ts2 h1 (q :: acc) (sameBelow_trans hsb hsb1) hts
    refine ⟨hs2, q :: qs, ?_, sameBelow_trans hsb1 hsb2, ?_⟩
    · rw [foldlM_cons_option]
      simp only [insert_copied_element, hcopy, Option.map_some', Option.some_bind,
        g_list_prepend]
      rw [hfold]
      simp
    · intro h2 hag
      have hag1 : AgreeOn hs.size h1.size h1 h2 := fun a hlo hhi => by
        rw [hag a hlo (Nat.le_trans hhi hsb2.1)]; exact hsb2.2 a hhi
      obtain ⟨htq, h3, hfree, hframe⟩ := hown h2 hag1
      have hag2 : AgreeOn h1.size hs2.size hs2 h2 := fun a hlo hhi =>
        hag a (Nat.lt_of_le_of_lt hsb1.1 hlo) hhi
      obtain ⟨hcol, _⟩ := hel h2 hag2
      have hag3 : AgreeOn h1.size hs2.size hs2 h3 := fun a hlo hhi => by
        rw [hframe a (Or.inr hlo)]; exact hag2 a hlo hhi
      obtain ⟨_, h4, hfree2, hframe2⟩ := hel h3 hag3
      refine ⟨collect_cons_of_some htq hcol, h4, ?_, fun a ha => ?_⟩
      · rw [foldlM_cons_option, hfree]
        exact hfree2
      · have hle := hsb1.1
        have hle2 := hsb2.1
        rw [hframe2 a (by omega), hframe a (by omega)]

/-- The copies of the entries of a dict, made one after the other and inserted
into the new table `nt`. -/
theorem copy_entries {n : Nat} (ih : CopySpec n) (h0 : Heap) (nt : Nat)
    (hnt : h0.size < nt) :
    ∀ (es : List (String × Nat)) (ts : List (String × PlistTree)) (hs : Heap)
      (done : List (String × Nat)),
      (∀ a, a ≤ h0.size → hs.read a = h0.read a) → nt ≤ hs.size →
      hs.read nt = some (.table done) →
      (∀ e ∈ es, e.1 ∉ done.map Prod.fst) → (es.map Prod.fst).Nodup →
      collect (fun e => (tree_of n h0 e.2).map fun t => (e.1, t)) es = some ts →
      ∃ hs2 ne, es.foldlM (insert_copied_key_and_value (plist_object_copy n)
            (plist_object_free n) nt) hs = some hs2 ∧
        hs2.read nt = some (.table (done ++ ne)) ∧ ne.map Prod.fst = es.map Prod.fst ∧
        hs.size ≤ hs2.size ∧ (∀ a, a ≤ hs.size → a ≠ nt → hs2.read a = hs.read a) ∧
        EntriesWithin n hs.size hs2.size hs2 ne ts := by
  intro es
  induction es with
  | nil =>
    intro ts hs done _ _ hread _ _ hc
    simp [collect] at hc
    subst hc
    refine ⟨hs, [], by simp [foldlM_nil_option], by simpa using hread, rfl, Nat.le_refl _,
      fun _ _ _ => rfl, fun h2 _ => ?_⟩
    exact ⟨by simp [collect], h2, by simp [foldlM_nil_option], fun _ _ => rfl⟩
  | cons e es ihl =>
    intro ts hs done hbelow hsize hread hfresh hnodup hc
    obtain ⟨b, ts2, hb, hts, rfl⟩ := collect_cons_eq_some hc
    obtain ⟨k, v⟩ := e
    simp only at hb
    cases ht : tree_of n h0 v with
    | none => simp [ht] at hb
    | some t =>
      simp only [ht, Option.map_some', Option.some.injEq] at hb
      subst hb
      have hpres : ∀ a c, h0.read a = some c → hs.read a = some c := fun a c ha => by
        rw [hbelow a (le_size_of_read ha)]; exact ha
      have htv : tree_of n hs v = some t := tree_of_preserved hpres n v t ht
      obtain ⟨h1, q, hcopy, hsb1, _, _, hown⟩ := ih hs v t htv
      have hread1 : h1.read nt = some (.table done) := by rw [hsb1.2 nt hsize]; exact hread
      have hk : done.lookup k = none :=
        lookup_none_of_not_key (hfresh (k, v) (by simp))
      have hnt0 : nt ≠ 0 := by omega
      have hle1 := hsb1.1
      simp only [List.map_cons, List.nodup_cons] at hnodup
      obtain ⟨hs2, ne, hfold, hread2, hkeys, hsize2, hframe, hent⟩ :=
        ihl ts2 (h1.write nt (.table (done ++ [(k, q)]))) (done ++ [(k, q)])
          (fun a ha => by
            rw [read_write_of_ne h1 _ (by omega), hsb1.2 a (by omega), hbelow a ha])
          (by rw [size_write]; omega)
          (read_write_self _ hnt0 (by omega))
          (fun e2 he2 => by
            simp only [List.map_append, List.map_cons, List.map_nil, List.mem_append,
              List.mem_singleton, not_or]
            refine ⟨hfresh e2 (by simp [he2]), fun heq => hnodup.1 ?_⟩
            rw [← heq]
            exact List.mem_map_of_mem Prod.fst he2)
          hnodup.2 hts
      rw [size_write] at hsize2 hframe hent
      refine ⟨hs2, (k, q) :: ne, ?_, by simpa using hread2, by simp [hkeys], by omega,
        fun a ha hane => ?_, ?_⟩
      · rw [foldlM_cons_option]
        simp only [insert_copied_key_and_value, hcopy, Option.some_bind, g_hash_table_insert,
          hread1, hk]
        exact hfold
      · rw [hframe a (by omega) hane, read_write_of_ne h1 _ hane, hsb1.2 a ha]
      · intro h2 hag
        have hag1 : AgreeOn hs.size h1.size h1 h2 := fun a hlo hhi => by
          rw [hag a hlo (by omega), hframe a hhi (by omega), read_write_of_ne h1 _ (by omega)]
        obtain ⟨htq, h3, hfree, hfr⟩ := hown h2 hag1
        have hag2 : AgreeOn h1.size hs2.size hs2 h2 := fun a hlo hhi =>
          hag a (by omega) hhi
        obtain ⟨hcol, _⟩ := hent h2 hag2
        have hag3 : AgreeOn h1.size hs2.size hs2 h3 := fun a hlo hhi => by
          rw [hfr a (Or.inr hlo)]; exact hag2 a hlo hhi
        obtain ⟨_, h4, hfree2, hfr2⟩ := hent h3 hag3
        refine ⟨collect_cons_of_some (by simp [htq]) hcol, h4, ?_, fun a ha => ?_⟩
        · rw [foldlM_cons_option]
          simp only [hfree, Option.some_bind]
          exact hfree2
        · rw [hfr2 a (by omega), hfr a (by omega)]

/-- A node with one block of its own (a string or a byte buffer) owns the two
blocks. -/
theorem owns_with_block {n lo hi : Nat} {h1 : Heap} {r s : Nat} {o : PlistObject} {c : Cell}
    {t : PlistTree} (hr : h1.read r = some (.object o)) (hs : h1.read s = some c)
    (hr1 : lo < r) (hr2 : r ≤ hi) (hs1 : lo < s) (hs2 : s ≤ hi)
    (htree : ∀ h2 : Heap, h2.read r = some (.object o) → h2.read s = some c →
      tree_of n h2 r = some t)
    (hfree : ∀ h2 : Heap, h2.read r = some (.object o) → h2.read s = some c →
      plist_object_free n h2 r = some ((h2.dealloc s).dealloc r)) :
    OwnsWithin n lo hi h1 r t := by
  intro h2 hag
  have hr3 : h2.read r = some (.object o) := by rw [hag r hr1 hr2]; exact hr
  have hs3 : h2.read s = some c := by rw [hag s hs1 hs2]; exact hs
  refine ⟨htree h2 hr3 hs3, _, hfree h2 hr3 hs3, fun a ha => ?_⟩
  rw [read_dealloc_of_ne _ (by omega), read_dealloc_of_ne _ (by omega)]

theorem alloc_write_self (h : Heap) (c0 c : Cell) {a : Nat} (ha : a = h.size + 1) :
    (h.alloc c0).1.write a c = (h.alloc c).1 := by
  subst ha
  simp [Heap.alloc, Heap.write, Heap.size]

/-- The heap after allocating a node and a block for it and filling in the
node. -/
theorem alloc_alloc_write_facts (h : Heap) (z c o : Cell) :
    SameBelow h (((h.alloc z).1.alloc c).1.write (h.size + 1) o) ∧
      (((h.alloc z).1.alloc c).1.write (h.size + 1) o).size = h.size + 2 ∧
      (((h.alloc z).1.alloc c).1.write (h.size + 1) o).read (h.size + 1) = some o ∧
      (((h.alloc z).1.alloc c).1.write (h.size + 1) o).read (h.size + 1 + 1) = some c := by
  refine ⟨sameBelow_write o (sameBelow_trans (sameBelow_alloc h z) (sameBelow_alloc _ c))
    (by omega), ?_, ?_, ?_⟩
  · rw [size_write, size_alloc, size_alloc]
  · exact read_write_self o (by omega) (by rw [size_alloc, size_alloc]; omega)
  · rw [read_write_of_ne _ _ (by omega)]
    have := read_alloc_self (h.alloc z).1 c
    rwa [size_alloc] at this

/-- The copy of a node without pointers: the block is allocated zero-filled
and then filled in. -/
theorem copy_leaf {n : Nat} (h : Heap) (z o : PlistObject) (t : PlistTree)
    (htree : ∀ (h2 : Heap) (r : Nat), h2.read r = some (.object o) → tree_of n h2 r = some t)
    (hfree : ∀ (h2 : Heap) (r : Nat), h2.read r = some (.object o) →
      plist_object_free n h2 r = some (h2.dealloc r)) :
    SameBelow h ((h.alloc (.object z)).1.write (h.size + 1) (.object o)) ∧
      h.size < h.size + 1 ∧
      h.size + 1 ≤ ((h.alloc (.object z)).1.write (h.size + 1) (.object o)).size ∧
      OwnsWithin n h.size ((h.alloc (.object z)).1.write (h.size + 1) (.object o)).size
        ((h.alloc (.object z)).1.write (h.size + 1) (.object o)) (h.size + 1) t := by
  obtain ⟨hsb, hsz, hrd⟩ := alloc_write_facts h (.object z) (.object o)
  refine ⟨hsb, by omega, by omega, ?_⟩
  exact owns_leaf hrd (by omega) (by omega) (htree · _) (hfree · _)

theorem copy_spec : ∀ n : Nat, CopySpec n := by
  intro n
  induction n with
  | zero => intro h p t hT; simp [tree_of] at hT
  | succ n ih =>
    intro h p t hT
    simp only [tree_of] at hT
    cases hr : h.read p with
    | none => simp [hr] at hT
    | some c =>
      have hp0 : p ≠ 0 := ne_zero_of_read hr
      cases c with
      | object o =>
        simp only [hr] at hT
        cases o with
        | boolean val =>
          simp only [Option.some.injEq] at hT
          subst hT
          simp only [plist_object_copy, hp0, hr, if_false, PlistObject.type, plist_object_new,
            zeroObject, alloc_snd]
          exact ⟨_, _, rfl, copy_leaf h _ _ _
            (fun h2 r hr2 => by simp [tree_of, hr2])
            (fun h2 r hr2 => by
              simp [plist_object_free, ne_zero_of_read hr2, hr2, g_free])⟩
        | real val =>
          simp only [Option.some.injEq] at hT
          subst hT
          simp only [plist_object_copy, hp0, hr, if_false, PlistObject.type, plist_object_new,
            zeroObject, alloc_snd, write_write]
          exact ⟨_, _, rfl, copy_leaf h _ _ _
            (fun h2 r hr2 => by simp [tree_of, hr2])
            (fun h2 r hr2 => by
              simp [plist_object_free, ne_zero_of_read hr2, hr2, g_free])⟩
        | integer val =>
          simp only [Option.some.injEq] at hT
          subst hT
          simp only [plist_object_copy, hp0, hr, if_false, PlistObject.type, plist_object_new,
            zeroObject, alloc_snd]
          exact ⟨_, _, rfl, copy_leaf h _ _ _
            (fun h2 r hr2 => by simp [tree_of, hr2])
            (fun h2 r hr2 => by
              simp [plist_object_free, ne_zero_of_read hr2, hr2, g_free])⟩
        | date val =>
          simp only [Option.some.injEq] at hT
          subst hT
          simp only [plist_object_copy, hp0, hr, if_false, PlistObject.type, plist_object_new,
            zeroObject, alloc_snd]
          exact ⟨_, _, rfl, copy_leaf h _ _ _
            (fun h2 r hr2 => by simp [tree_of, hr2])
            (fun h2 r hr2 => by
              simp [plist_object_free, ne_zero_of_read hr2, hr2, g_free])⟩
        | string val =>
          by_cases hv : val = 0
          · simp only [hv, if_true, Option.some.injEq] at hT
            subst hT
            subst hv
            simp only [plist_object_copy, hp0, hr, if_false, PlistObject.type, plist_object_new,
              zeroObject, alloc_snd, g_strdup, if_true, Option.map_some']
            exact ⟨_, _, rfl, copy_leaf h _ _ _
              (fun h2 r hr2 => by simp [tree_of, hr2])
              (fun h2 r hr2 => by
                simp [plist_object_free, ne_zero_of_read hr2, hr2, g_free])⟩
          · simp only [hv, if_false] at hT
            cases hs : h.read val with
            | none => simp [hs] at hT
            | some c2 =>
              cases c2 with
              | chars s =>
                simp only [hs, Option.some.injEq] at hT
                subst hT
                have hs1 : (h.alloc (.object (.string 0))).1.read val = some (.chars s) := by
                  rw [(sameBelow_alloc h _).2 val (le_size_of_read hs)]; exact hs
                simp only [plist_object_copy, hp0, hr, if_false, PlistObject.type,
                  plist_object_new, zeroObject, alloc_snd, g_strdup, hv, hs1, Option.map_some',
                  size_alloc]
                obtain ⟨hsb, hsz, hrd, hrd2⟩ := alloc_alloc_write_facts h
                  (.object (.string 0)) (.chars s) (.object (.string (h.size + 1 + 1)))
                refine ⟨_, _, rfl, hsb, by omega, by omega, ?_⟩
                refine owns_with_block hrd hrd2 (by omega) (by omega) (by omega)
                  (by omega) (fun h2 hr2 hs2 => ?_) (fun h2 hr2 hs2 => ?_)
                · simp [tree_of, hr2, hs2]
                · simp [plist_object_free, hr2, hs2, g_free, read_dealloc_of_ne]
              | _ => simp [hs] at hT
        | array val =>
          cases hc : collect (tree_of n h) val with
          | none => simp [hc] at hT
          | some ts =>
            simp only [hc, Option.map_some', Option.some.injEq] at hT
            subst hT
            obtain ⟨hs2, qs, hfold, hsb2, hel⟩ := copy_elements ih h val ts
              (h.alloc (.object (.array []))).1 [] (sameBelow_alloc h _) hc
            rw [size_alloc] at hel
            have hle : h.size + 1 ≤ hs2.size := by
              have := hsb2.1
              rwa [size_alloc] at this
            simp only [plist_object_copy, hp0, hr, if_false, PlistObject.type, plist_object_new,
              zeroObject, alloc_snd, hfold, Option.map_some', g_list_reverse,
              List.append_nil, List.reverse_reverse]
            refine ⟨_, _, rfl, sameBelow_write _ (sameBelow_trans (sameBelow_alloc h _)
              hsb2) (by omega), by omega,
              by rw [size_write]; omega, ?_⟩
            rw [size_write]
            intro h2 hag
            have hr2 : h2.read (h.size + 1) = some (.object (.array qs)) := by
              rw [hag _ (by omega) (by omega)]
              exact read_write_self _ (by omega) (by omega)
            have hag2 : AgreeOn (h.size + 1) hs2.size hs2 h2 := fun a hlo hhi => by
              rw [hag a (by omega) hhi, read_write_of_ne _ _ (by omega)]
            obtain ⟨hcol, h3, hfree, hfr⟩ := hel h2 hag2
            refine ⟨by simp [tree_of, hr2, hcol], h3.dealloc (h.size + 1), ?_, fun a ha => ?_⟩
            · have hr3 : h3.read (h.size + 1) = some (.object (.array qs)) := by
                rw [hfr _ (Or.inl (Nat.le_refl _))]; exact hr2
              simp [plist_object_free, hr2, hfree, g_free, hr3]
            · rw [read_dealloc_of_ne _ (by omega), hfr a (by omega)]
        | dict val =>
          cases hs : h.read val with
          | none => simp [hs] at hT
          | some c2 =>
            cases c2 with
            | table es =>
              simp only [hs] at hT
              by_cases hnd : (es.map Prod.fst).Nodup
              · simp only [hnd, if_true] at hT
                cases hc : collect (fun e => (tree_of n h e.2).map fun t => (e.1, t)) es with
                | none => simp [hc] at hT
                | some ts =>
                  simp only [hc, Option.map_some', Option.some.injEq] at hT
                  subst hT
                  have hval : val ≤ h.size := le_size_of_read hs
                  obtain ⟨hsb, hsz, hrd, hrd2⟩ := alloc_alloc_write_facts h
                    (.object (.dict 0)) (.table []) (.object (.dict (h.size + 1 + 1)))
                  have hs1 : (((h.alloc (.object (.dict 0))).1.alloc (.table [])).1.write
                      (h.size + 1) (.object (.dict (h.size + 1 + 1)))).read val
                      = some (.table es) := by rw [hsb.2 val hval]; exact hs
                  obtain ⟨hs2, ne, hfold, hread2, hkeys, hsize2, hframe, hent⟩ :=
                    copy_entries ih h (h.size + 1 + 1) (by omega) es ts _ []
                      hsb.2 (by omega) hrd2 (by simp) hnd hc
                  rw [hsz] at hsize2 hframe hent
                  simp only [plist_object_copy, hp0, hr, if_false, PlistObject.type,
                    plist_object_new, zeroObject, alloc_snd, g_hash_table_new_full, size_alloc,
                    hs1, hrd, hfold, Option.map_some']
                  have hrd3 : hs2.read (h.size + 1) = some (.object (.dict (h.size + 1 + 1))) := by
                    rw [hframe _ (by omega) (by omega)]; exact hrd
                  refine ⟨_, _, rfl, ⟨by omega, fun a ha => ?_⟩, by omega, by omega, ?_⟩
                  · rw [hframe a (by omega) (by omega), hsb.2 a ha]
                  · intro h2 hag
                    have hr2 : h2.read (h.size + 1)
                        = some (.object (.dict (h.size + 1 + 1))) := by
                      rw [hag _ (by omega) (by omega)]; exact hrd3
                    have ht2 : h2.read (h.size + 1 + 1) = some (.table ne) := by
                      rw [hag _ (by omega) (by omega)]; simpa using hread2
                    have hag2 : AgreeOn (h.size + 2) hs2.size hs2 h2 := fun a hlo hhi =>
                      hag a (by omega) hhi
                    obtain ⟨hcol, h3, hfree, hfr⟩ := hent h2 hag2
                    refine ⟨by simp [tree_of, hr2, ht2, hkeys, hnd, hcol],
                      (h3.dealloc (h.size + 1 + 1)).dealloc (h.size + 1), ?_, fun a ha => ?_⟩
                    · have ht3 : h3.read (h.size + 1 + 1) = some (.table ne) := by
                        rw [hfr _ (Or.inl (by omega))]; exact ht2
                      have hr3 : h3.read (h.size + 1) = some (.object (.dict (h.size + 1 + 1))) := by
                        rw [hfr _ (Or.inl (by omega))]; exact hr2
                      simp [plist_object_free, hr2, g_hash_table_destroy, ht2, hfree, g_free, ht3,
                        read_dealloc_of_ne, hr3]
                    · rw [read_dealloc_of_ne _ (by omega), read_dealloc_of_ne _ (by omega),
                        hfr a (by omega)]
              · simp [hnd] at hT
            | _ => simp [hs] at hT
        | data val length =>
          by_cases hl : length = 0
          · simp only [hl, if_true, Option.some.injEq] at hT
            subst hT
            subst hl
            simp only [plist_object_copy, hp0, hr, if_false, PlistObject.type, plist_object_new,
              zeroObject, alloc_snd, g_malloc, memcpy, if_true, Option.map_some']
            exact ⟨_, _, rfl, copy_leaf h _ _ _
              (fun h2 r hr2 => by simp [tree_of, hr2])
              (fun h2 r hr2 => by
                simp [plist_object_free, ne_zero_of_read hr2, hr2, g_free])⟩
          · simp only [hl, if_false] at hT
            cases hs : h.read val with
            | none => simp [hs] at hT
            | some c2 =>
              cases c2 with
              | bytes b =>
                simp only [hs] at hT
                by_cases hlen : length ≤ b.length
                · simp only [hlen, if_true, Option.some.injEq] at hT
                  subst hT
                  have hval : val ≤ h.size := le_size_of_read hs
                  have hs1 : ((h.alloc (.object (.data 0 0))).1.alloc
                      (.bytes (List.replicate length 0))).1.read val = some (.bytes b) := by
                    rw [read_alloc_of_ne _ _ (by rw [size_alloc]; omega),
                      read_alloc_of_ne _ _ (by omega)]
                    exact hs
                  have hs2 : ((h.alloc (.object (.data 0 0))).1.alloc
                      (.bytes (List.replicate length 0))).1.read (h.size + 1 + 1)
                      = some (.bytes (List.replicate length 0)) := by
                    have := read_alloc_self (h.alloc (.object (.data 0 0))).1
                      (.bytes (List.replicate length 0))
                    rwa [size_alloc] at this
                  simp only [plist_object_copy, hp0, hr, if_false, PlistObject.type,
                    plist_object_new, zeroObject, alloc_snd, g_malloc, hl, memcpy, size_alloc,
                    hs1, hs2, List.length_replicate, Nat.le_refl, hlen, and_self, if_true,
                    Option.map_some', List.drop_replicate, Nat.sub_self, List.replicate_zero,
                    List.append_nil]
                  rw [alloc_write_self _ _ _ (by rw [size_alloc])]
                  obtain ⟨hsb, hsz, hrd, hrd2⟩ := alloc_alloc_write_facts h
                    (.object (.data 0 0)) (.bytes (b.take length))
                    (.object (.data (h.size + 1 + 1) length))
                  refine ⟨_, _, rfl, hsb, by omega, by omega, ?_⟩
                  refine owns_with_block hrd hrd2 (by omega) (by omega) (by omega)
                    (by omega) (fun h2 hr2 hs2 => ?_) (fun h2 hr2 hs2 => ?_)
                  · simp [tree_of, hr2, hs2, hl, hlen]
                  · simp [plist_object_free, hr2, hs2, g_free, read_dealloc_of_ne]
                · simp [hlen] at hT
              | _ => simp [hs] at hT
      | _ => simp [hr] at hT

/-! ## Frame lemmas: what an operation on blocks above `b` can touch -/

theorem read_write_some {h : Heap} {a x : Nat} {c c2 : Cell}
    (hx : (h.write a c).read x = some c2) :
    (x = a ∧ c2 = c) ∨ (x ≠ a ∧ h.read x = some c2) := by
  by_cases hxa : x = a
  · subst hxa
    left
    refine ⟨rfl, ?_⟩
    have hx0 : x ≠ 0 := ne_zero_of_read hx
    have hle : x ≤ h.size := by
      have := le_size_of_read hx
      rwa [size_write] at this
    rw [read_write_self c hx0 hle] at hx
    exact (Option.some.inj hx).symm
  · right
    exact ⟨hxa, by rw [← read_write_of_ne h c hxa]; exact hx⟩

theorem read_alloc_some {h : Heap} {x : Nat} {c c2 : Cell}
    (hx : (h.alloc c).1.read x = some c2) :
    (x = h.size + 1 ∧ c2 = c) ∨ (x ≠ h.size + 1 ∧ h.read x = some c2) := by
  by_cases hxa : x = h.size + 1
  · subst hxa
    rw [read_alloc_self] at hx
    exact Or.inl ⟨rfl, (Option.some.inj hx).symm⟩
  · exact Or.inr ⟨hxa, by rw [← read_alloc_of_ne h c hxa]; exact hx⟩

theorem ptrsAbove_nil (b : Nat) : PtrsAbove b [] := fun _ hx => by simp at hx

theorem ptrsAbove_singleton {b x : Nat} (hx : x = 0 ∨ b < x) : PtrsAbove b [x] :=
  fun y hy => by
    rw [List.mem_singleton] at hy
    rw [hy]; exact hx

theorem guard_of_size (h : Heap) : Guard h.size h :=
  ⟨Nat.le_refl _, fun a c ha hr => by rw [read_of_size_lt ha] at hr; cases hr⟩

theorem keeps_refl {b : Nat} {h : Heap} (hg : Guard b h) : Keeps b h h :=
  ⟨hg, Nat.le_refl _, fun _ _ => rfl⟩

theorem keeps_trans {b : Nat} {h1 h2 h3 : Heap} (h12 : Keeps b h1 h2) (h23 : Keeps b h2 h3) :
    Keeps b h1 h3 :=
  ⟨h23.1, Nat.le_trans h12.2.1 h23.2.1, fun a ha => by rw [h23.2.2 a ha, h12.2.2 a ha]⟩

theorem keeps_alloc {b : Nat} {h : Heap} (hg : Guard b h) {c : Cell}
    (hc : PtrsAbove b c.ptrs) : Keeps b h (h.alloc c).1 := by
  refine ⟨⟨by rw [size_alloc]; exact Nat.le_succ_of_le hg.1, fun a c2 ha hr => ?_⟩,
    by rw [size_alloc]; omega, fun a ha => read_alloc_of_ne h c (by have := hg.1; omega)⟩
  rcases read_alloc_some hr with ⟨_, rfl⟩ | ⟨_, hr2⟩
  · exact hc
  · exact hg.2 a c2 ha hr2

theorem keeps_write {b : Nat} {h : Heap} (hg : Guard b h) {a : Nat} {c : Cell}
    (ha : b < a) (hc : PtrsAbove b c.ptrs) : Keeps b h (h.write a c) := by
  refine ⟨⟨by rw [size_write]; exact hg.1, fun x c2 hx hr => ?_⟩,
    by rw [size_write], fun x hx => read_write_of_ne h c (by omega)⟩
  rcases read_write_some hr with ⟨_, rfl⟩ | ⟨_, hr2⟩
  · exact hc
  · exact hg.2 x c2 hx hr2

theorem keeps_dealloc {b : Nat} {h : Heap} (hg : Guard b h) {a : Nat} (ha : b < a) :
    Keeps b h (h.dealloc a) :=
  ⟨⟨by rw [size_dealloc]; exact hg.1, fun x c2 hx hr => hg.2 x c2 hx (read_dealloc_some hr).1⟩,
    by rw [size_dealloc], fun x hx => read_dealloc_of_ne h (by omega)⟩

theorem keeps_g_free {b : Nat} {h h2 : Heap} (hg : Guard b h) {p : Nat}
    (hp : p = 0 ∨ b < p) (hf : g_free h p = some h2) : Keeps b h h2 := by
  unfold g_free at hf
  by_cases h0 : p = 0
  · simp [h0] at hf
    subst hf
    exact keeps_refl hg
  · simp only [h0, if_false] at hf
    cases hr : h.read p with
    | none => simp [hr] at hf
    | some c =>
      simp [hr] at hf
      subst hf
      exact keeps_dealloc hg (by omega)

/-- A loop over a list keeps what each of its steps keeps. -/
theorem keeps_foldlM {α : Type} {b : Nat} (f : Heap → α → Option Heap) (ok : α → Prop)
    (hf : ∀ (h : Heap) (x : α) (h2 : Heap), Guard b h → ok x → f h x = some h2 →
      Keeps b h h2) :
    ∀ (l : List α) (h h2 : Heap), Guard b h → (∀ x ∈ l, ok x) →
      l.foldlM f h = some h2 → Keeps b h h2 := by
  intro l
  induction l with
  | nil =>
    intro h h2 hg _ hfold
    simp [foldlM_nil_option] at hfold
    subst hfold
    exact keeps_refl hg
  | cons x xs ih =>
    intro h h2 hg hok hfold
    rw [foldlM_cons_option] at hfold
    cases h1 : f h x with
    | none => simp [h1] at hfold
    | some hm =>
      simp only [h1, Option.some_bind] at hfold
      have hk := hf h x hm hg (hok x (by simp)) h1
      exact keeps_trans hk (ih hm h2 hk.1 (fun y hy => hok y (by simp [hy])) hfold)

theorem ptrs_of_live {b : Nat} {h : Heap} (hg : Guard b h) {p : Nat} {c : Cell}
    (hp : p = 0 ∨ b < p) (hr : h.read p = some c) : b < p ∧ PtrsAbove b c.ptrs := by
  have hlt : b < p := by
    rcases hp with h0 | h1
    · exact absurd h0 (ne_zero_of_read hr)
    · exact h1
  exact ⟨hlt, hg.2 p c hlt hr⟩

/-- Freeing a node above `b` touches nothing up to `b`. -/
theorem free_keeps {b : Nat} :
    ∀ (n : Nat) (h : Heap) (p : Nat) (h2 : Heap), Guard b h → (p = 0 ∨ b < p) →
      plist_object_free n h p = some h2 → Keeps b h h2 := by
  intro n
  induction n with
  | zero => intro h p h2 _ _ hf; simp [plist_object_free] at hf
  | succ n ih =>
    intro h p h2 hg hp hf
    simp only [plist_object_free] at hf
    by_cases h0 : p = 0
    · simp [h0] at hf
      subst hf
      exact keeps_refl hg
    · simp only [h0, if_false] at hf
      cases hr : h.read p with
      | none => simp [hr] at hf
      | some c =>
        obtain ⟨hlt, hptrs⟩ := ptrs_of_live hg hp hr
        cases c with
        | object o =>
          simp only [hr] at hf
          cases o with
          | string val =>
            simp only at hf
            cases h1 : g_free h val with
            | none => simp [h1] at hf
            | some hm =>
              simp only [h1, Option.some_bind] at hf
              have hk := keeps_g_free hg (hptrs val (by simp [Cell.ptrs])) h1
              exact keeps_trans hk (keeps_g_free hk.1 (Or.inr hlt) hf)
          | data val length =>
            simp only at hf
            cases h1 : g_free h val with
            | none => simp [h1] at hf
            | some hm =>
              simp only [h1, Option.some_bind] at hf
              have hk := keeps_g_free hg (hptrs val (by simp [Cell.ptrs])) h1
              exact keeps_trans hk (keeps_g_free hk.1 (Or.inr hlt) hf)
          | array val =>
            simp only at hf
            cases h1 : val.foldlM (fun hh e => plist_object_free n hh e) h with
            | none => simp [h1] at hf
            | some hm =>
              simp only [h1, Option.some_bind] at hf
              have hk := keeps_foldlM (fun hh e => plist_object_free n hh e)
                (fun x => x = 0 ∨ b < x) (fun hh x hh2 hgg hx hfx => ih hh x hh2 hgg hx hfx)
                val h hm hg (fun x hx => hptrs x (by simpa [Cell.ptrs] using hx)) h1
              exact keeps_trans hk (keeps_g_free hk.1 (Or.inr hlt) hf)
          | dict val =>
            simp only [g_hash_table_destroy] at hf
            cases ht : h.read val with
            | none => simp [ht] at hf
            | some c2 =>
              obtain ⟨hvlt, hvptrs⟩ := ptrs_of_live hg (hptrs val (by simp [Cell.ptrs])) ht
              cases c2 with
              | table es =>
                simp only [ht] at hf
                cases h1 : es.foldlM (fun hh e => plist_object_free n hh e.2) h with
                | none => simp [h1] at hf
                | some hm =>
                  simp only [h1, Option.some_bind] at hf
                  have hk := keeps_foldlM (fun hh (e : String × Nat) => plist_object_free n hh e.2)
                    (fun e => e.2 = 0 ∨ b < e.2)
                    (fun hh x hh2 hgg hx hfx => ih hh x.2 hh2 hgg hx hfx)
                    es h hm hg
                    (fun e he => hvptrs e.2 (by
                      simp only [Cell.ptrs]; exact List.mem_map_of_mem Prod.snd he)) h1
                  cases h3 : g_free hm val with
                  | none => simp [h3] at hf
                  | some hm2 =>
                    simp only [h3, Option.some_bind] at hf
                    have hk2 := keeps_g_free hk.1 (Or.inr hvlt) h3
                    exact keeps_trans hk (keeps_trans hk2 (keeps_g_free hk2.1 (Or.inr hlt) hf))
              | _ => simp [ht] at hf
          | _ =>
            simp only [Option.some_bind] at hf
            exact keeps_g_free hg (Or.inr hlt) hf
        | _ => simp [hr] at hf

theorem mem_values_replaceEntry {key : String} {value : Nat} :
    ∀ (es : List (String × Nat)) (x : Nat),
      x ∈ (replaceEntry key value es).map Prod.snd → x = value ∨ x ∈ es.map Prod.snd := by
  intro es
  induction es with
  | nil => intro x hx; simp [replaceEntry] at hx
  | cons e es ih =>
    intro x hx
    simp only [replaceEntry] at hx
    by_cases he : e.1 = key
    · simp only [he, if_true, List.map_cons, List.mem_cons] at hx
      rcases hx with hx | hx
      · exact Or.inl hx
      · exact Or.inr (by simp [hx])
    · simp only [he, if_false, List.map_cons, List.mem_cons] at hx
      rcases hx with hx | hx
      · exact Or.inr (by simp [hx])
      · rcases ih x hx with h1 | h1
        · exact Or.inl h1
        · exact Or.inr (by simp [h1])

/-- Inserting a value above `b` into a table above `b` touches nothing up to
`b`, also when an old value is destroyed. -/
theorem insert_keeps {b n : Nat} {h h2 : Heap} (hg : Guard b h) {nd : Nat} {k : String}
    {q : Nat} (hnd : nd = 0 ∨ b < nd) (hq : q = 0 ∨ b < q)
    (hi : g_hash_table_insert (plist_object_free n) h nd k q = some h2) : Keeps b h h2 := by
  unfold g_hash_table_insert at hi
  cases ht : h.read nd with
  | none => simp [ht] at hi
  | some c =>
    obtain ⟨hlt, hptrs⟩ := ptrs_of_live hg hnd ht
    cases c with
    | table es =>
      simp only [ht] at hi
      cases hl : es.lookup k with
      | none =>
        simp only [hl, Option.some.injEq] at hi
        subst hi
        refine keeps_write hg hlt (fun x hx => ?_)
        simp only [Cell.ptrs, List.map_append, List.map_cons, List.map_nil, List.mem_append,
          List.mem_singleton] at hx
        rcases hx with hx | hx
        · exact hptrs x (by simpa [Cell.ptrs] using hx)
        · rw [hx]; exact hq
      | some old =>
        simp only [hl] at hi
        have hk : Keeps b h (h.write nd (.table (replaceEntry k q es))) := by
          refine keeps_write hg hlt (fun x hx => ?_)
          rcases mem_values_replaceEntry es x (by simpa [Cell.ptrs] using hx) with h1 | h1
          · rw [h1]; exact hq
          · exact hptrs x (by simpa [Cell.ptrs] using h1)
        have hold : old = 0 ∨ b < old :=
          hptrs old (by simpa [Cell.ptrs] using mem_values_of_lookup hl)
        exact keeps_trans hk (free_keeps n _ old h2 hk.1 hold hi)
    | _ => simp [ht] at hi

theorem new_keeps {b : Nat} {h : Heap} (hg : Guard b h) (ty : PlistObjectType) :
    Keeps b h (plist_object_new h ty).1 ∧ b < (plist_object_new h ty).2 := by
  have hb := hg.1
  have hz : Keeps b h (h.alloc (.object (zeroObject ty))).1 :=
    keeps_alloc hg (by cases ty <;> simp [zeroObject, Cell.ptrs, PtrsAbove])
  cases ty with
  | PLIST_OBJECT_REAL =>
    simp only [plist_object_new, alloc_snd]
    exact ⟨keeps_trans hz (keeps_write hz.1 (by omega) (by simp [Cell.ptrs, PtrsAbove])),
      by omega⟩
  | PLIST_OBJECT_DICT =>
    simp only [plist_object_new, alloc_snd, g_hash_table_new_full, size_alloc]
    have ht : Keeps b (h.alloc (.object (zeroObject .PLIST_OBJECT_DICT))).1
        ((h.alloc (.object (zeroObject .PLIST_OBJECT_DICT))).1.alloc (.table [])).1 :=
      keeps_alloc hz.1 (by simp [Cell.ptrs, PtrsAbove])
    exact ⟨keeps_trans hz (keeps_trans ht (keeps_write ht.1 (by omega)
      (ptrsAbove_singleton (Or.inr (by omega))))), by omega⟩
  | _ =>
    simp only [plist_object_new, alloc_snd]
    exact ⟨hz, by omega⟩

theorem copy_elements_keeps {b n : Nat} (ih : CopyKeeps b n) :
    ∀ (val : List Nat) (hs : Heap) (acc : List Nat) (hs2 : Heap) (out : List Nat),
      Guard b hs → PtrsAbove b acc →
      val.foldlM (insert_copied_element (plist_object_copy n)) (hs, acc) = some (hs2, out) →
      Keeps b hs hs2 ∧ PtrsAbove b out := by
  intro val
  induction val with
  | nil =>
    intro hs acc hs2 out hg hacc hfold
    simp [foldlM_nil_option] at hfold
    obtain ⟨rfl, rfl⟩ := hfold
    exact ⟨keeps_refl hg, hacc⟩
  | cons v vs ihl =>
    intro hs acc hs2 out hg hacc hfold
    rw [foldlM_cons_option] at hfold
    simp only [insert_copied_element] at hfold
    cases hc : plist_object_copy n hs v with
    | none => simp [hc] at hfold
    | some r =>
      obtain ⟨h1, q⟩ := r
      simp only [hc, Option.map_some', Option.some_bind, g_list_prepend] at hfold
      obtain ⟨hk, hq⟩ := ih hs v h1 q hg hc
      obtain ⟨hk2, hout⟩ := ihl h1 (q :: acc) hs2 out hk.1
        (fun x hx => by
          rw [List.mem_cons] at hx
          rcases hx with hx | hx
          · rw [hx]; exact hq
          · exact hacc x hx) hfold
      exact ⟨keeps_trans hk hk2, hout⟩

theorem insert_copied_keeps {b n : Nat} (ih : CopyKeeps b n) {nd : Nat}
    (hnd : nd = 0 ∨ b < nd) (h : Heap) (e : String × Nat) (h2 : Heap) (hg : Guard b h)
    (hi : insert_copied_key_and_value (plist_object_copy n) (plist_object_free n) nd h e
      = some h2) : Keeps b h h2 := by
  unfold insert_copied_key_and_value at hi
  cases hc : plist_object_copy n h e.2 with
  | none => simp [hc] at hi
  | some r =>
    obtain ⟨h1, q⟩ := r
    simp only [hc, Option.some_bind] at hi
    obtain ⟨hk, hq⟩ := ih h e.2 h1 q hg hc
    exact keeps_trans hk (insert_keeps hk.1 hnd hq hi)

theorem copy_keeps {b : Nat} : ∀ n : Nat, CopyKeeps b n := by
  intro n
  induction n with
  | zero => intro h p h2 q _ hc; simp [plist_object_copy] at hc
  | succ n ih =>
    intro h p h2 q hg hc
    simp only [plist_object_copy] at hc
    by_cases h0 : p = 0
    · simp [h0] at hc
      obtain ⟨rfl, rfl⟩ := hc
      exact ⟨keeps_refl hg, Or.inl rfl⟩
    · simp only [h0, if_false] at hc
      cases hr : h.read p with
      | none => simp [hr] at hc
      | some c =>
        cases c with
        | object o =>
          simp only [hr] at hc
          obtain ⟨hkn, hrn⟩ := new_keeps hg o.type
          generalize plist_object_new h o.type = r at hc hkn hrn
          cases o with
          | boolean val =>
            simp only [Option.some.injEq, Prod.mk.injEq] at hc
            obtain ⟨rfl, rfl⟩ := hc
            exact ⟨keeps_trans hkn (keeps_write hkn.1 hrn (ptrsAbove_nil b)), Or.inr hrn⟩
          | real val =>
            simp only [Option.some.injEq, Prod.mk.injEq] at hc
            obtain ⟨rfl, rfl⟩ := hc
            exact ⟨keeps_trans hkn (keeps_write hkn.1 hrn (ptrsAbove_nil b)), Or.inr hrn⟩
          | integer val =>
            simp only [Option.some.injEq, Prod.mk.injEq] at hc
            obtain ⟨rfl, rfl⟩ := hc
            exact ⟨keeps_trans hkn (keeps_write hkn.1 hrn (ptrsAbove_nil b)), Or.inr hrn⟩
          | date val =>
            simp only [Option.some.injEq, Prod.mk.injEq] at hc
            obtain ⟨rfl, rfl⟩ := hc
            exact ⟨keeps_trans hkn (keeps_write hkn.1 hrn (ptrsAbove_nil b)), Or.inr hrn⟩
          | string val =>
            simp only at hc
            cases hs : g_strdup r.1 val with
            | none => simp [hs] at hc
            | some s =>
              simp only [hs, Option.map_some', Option.some.injEq, Prod.mk.injEq] at hc
              obtain ⟨rfl, rfl⟩ := hc
              have hks : Keeps b r.1 s.1 ∧ (s.2 = 0 ∨ b < s.2) := by
                unfold g_strdup at hs
                by_cases hv : val = 0
                · simp [hv] at hs
                  subst hs
                  exact ⟨keeps_refl hkn.1, Or.inl rfl⟩
                · simp only [hv, if_false] at hs
                  cases hrv : r.1.read val with
                  | none => simp [hrv] at hs
                  | some c2 =>
                    cases c2 with
                    | chars cs =>
                      simp [hrv] at hs
                      subst hs
                      exact ⟨keeps_alloc hkn.1 (ptrsAbove_nil b),
                        Or.inr (by rw [alloc_snd]; have := hkn.1.1; omega)⟩
                    | _ => simp [hrv] at hs
              exact ⟨keeps_trans hkn (keeps_trans hks.1
                (keeps_write hks.1.1 hrn (ptrsAbove_singleton hks.2))), Or.inr hrn⟩
          | array val =>
            simp only at hc
            cases hf : val.foldlM (insert_copied_element (plist_object_copy n)) (r.1, []) with
            | none => simp [hf] at hc
            | some s =>
              obtain ⟨hs2, out⟩ := s
              simp only [hf, Option.map_some', Option.some.injEq, Prod.mk.injEq] at hc
              obtain ⟨rfl, rfl⟩ := hc
              obtain ⟨hk, hout⟩ := copy_elements_keeps ih val r.1 [] hs2 out hkn.1
                (ptrsAbove_nil b) hf
              refine ⟨keeps_trans hkn (keeps_trans hk (keeps_write hk.1 hrn (fun x hx => ?_))),
                Or.inr hrn⟩
              exact hout x (by simpa [Cell.ptrs, g_list_reverse] using hx)
          | dict val =>
            simp only at hc
            cases hrv : r.1.read val with
            | none => simp [hrv] at hc
            | some c2 =>
              cases hrr : r.1.read r.2 with
              | none => cases c2 <;> simp [hrv, hrr] at hc
              | some c3 =>
                cases c2 with
                | table es =>
                  cases c3 with
                  | object o2 =>
                    cases o2 with
                    | dict nd =>
                      simp only [hrv, hrr] at hc
                      have hnd : nd = 0 ∨ b < nd :=
                        hkn.1.2 r.2 _ hrn hrr nd (by simp [Cell.ptrs])
                      cases hf : es.foldlM (insert_copied_key_and_value (plist_object_copy n)
                          (plist_object_free n) nd) r.1 with
                      | none => simp [hf] at hc
                      | some hs2 =>
                        simp only [hf, Option.map_some', Option.some.injEq,
                          Prod.mk.injEq] at hc
                        obtain ⟨rfl, rfl⟩ := hc
                        have hk := keeps_foldlM
                          (insert_copied_key_and_value (plist_object_copy n)
                            (plist_object_free n) nd) (fun _ => True)
                          (fun hh e hh2 hgg _ hi => insert_copied_keeps ih hnd hh e hh2 hgg hi)
                          es r.1 hs2 hkn.1 (fun _ _ => trivial) hf
                        exact ⟨keeps_trans hkn hk, Or.inr hrn⟩
                    | _ => simp [hrv, hrr] at hc
                  | _ => simp [hrv, hrr] at hc
                | _ => simp [hrv, hrr] at hc
          | data val length =>
            simp only at hc
            have hm : Keeps b r.1 (g_malloc r.1 length).1 ∧
                ((g_malloc r.1 length).2 = 0 ∨ b < (g_malloc r.1 length).2) := by
              unfold g_malloc
              by_cases hl : length = 0
              · rw [if_pos hl]
                exact ⟨keeps_refl hkn.1, Or.inl rfl⟩
              · rw [if_neg hl]
                exact ⟨keeps_alloc hkn.1 (ptrsAbove_nil b),
                  Or.inr (by rw [alloc_snd]; have := hkn.1.1; omega)⟩
            generalize g_malloc r.1 length = m at hc hm
            cases hcp : memcpy m.1 m.2 val length with
            | none => simp [hcp] at hc
            | some h3 =>
              simp only [hcp, Option.map_some', Option.some.injEq, Prod.mk.injEq] at hc
              obtain ⟨rfl, rfl⟩ := hc
              have hk3 : Keeps b m.1 h3 := by
                unfold memcpy at hcp
                by_cases hl : length = 0
                · simp [hl] at hcp
                  subst hcp
                  exact keeps_refl hm.1.1
                · simp only [hl, if_false] at hcp
                  cases hd : m.1.read m.2 with
                  | none => simp [hd] at hcp
                  | some cd =>
                    obtain ⟨hlt, _⟩ := ptrs_of_live hm.1.1 hm.2 hd
                    cases hsrc : m.1.read val with
                    | none => cases cd <;> simp [hd, hsrc] at hcp
                    | some cs =>
                      cases cd with
                      | bytes d =>
                        cases cs with
                        | bytes sb =>
                          simp only [hd, hsrc] at hcp
                          by_cases hlen : length ≤ d.length ∧ length ≤ sb.length
                          · simp only [hlen, and_self, if_true, Option.some.injEq] at hcp
                            subst hcp
                            exact keeps_write hm.1.1 hlt (ptrsAbove_nil b)
                          · simp [hlen] at hcp
                        | _ => simp [hd, hsrc] at hcp
                      | _ => simp [hd, hsrc] at hcp
              exact ⟨keeps_trans hkn (keeps_trans hm.1 (keeps_trans hk3
                (keeps_write hk3.1 hrn (ptrsAbove_singleton hm.2)))), Or.inr hrn⟩
        | _ => simp [hr] at hc

/-! ### The setters -/

theorem set_boolean_keeps {b : Nat} {h h2 : Heap} {r : Nat} (val : Bool) (hg : Guard b h)
    (hr : r = 0 ∨ b < r) (hrun : plist_object_set_boolean h r val = some h2) : Keeps b h h2 := by
  unfold plist_object_set_boolean at hrun
  by_cases h0 : r = 0
  · simp [h0] at hrun
    subst hrun
    exact keeps_refl hg
  · simp only [h0, if_false] at hrun
    cases hrd : h.read r with
    | none => simp [hrd] at hrun
    | some c =>
      obtain ⟨hlt, _⟩ := ptrs_of_live hg hr hrd
      cases c with
      | object o =>
        cases o with
        | boolean old =>
          simp [hrd] at hrun
          subst hrun
          exact keeps_write hg hlt (ptrsAbove_nil b)
        | _ =>
          simp [hrd] at hrun
          subst hrun
          exact keeps_refl hg
      | _ => simp [hrd] at hrun

theorem set_real_keeps {b : Nat} {h h2 : Heap} {r : Nat} (val : gdouble) (hg : Guard b h)
    (hr : r = 0 ∨ b < r) (hrun : plist_object_set_real h r val = some h2) : Keeps b h h2 := by
  unfold plist_object_set_real at hrun
  by_cases h0 : r = 0
  · simp [h0] at hrun
    subst hrun
    exact keeps_refl hg
  · simp only [h0, if_false] at hrun
    cases hrd : h.read r with
    | none => simp [hrd] at hrun
    | some c =>
      obtain ⟨hlt, _⟩ := ptrs_of_live hg hr hrd
      cases c with
      | object o =>
        cases o with
        | real old =>
          simp [hrd] at hrun
          subst hrun
          exact keeps_write hg hlt (ptrsAbove_nil b)
        | _ =>
          simp [hrd] at hrun
          subst hrun
          exact keeps_refl hg
      | _ => simp [hrd] at hrun

theorem set_integer_keeps {b : Nat} {h h2 : Heap} {r : Nat} (val : Int) (hg : Guard b h)
    (hr : r = 0 ∨ b < r) (hrun : plist_object_set_integer h r val = some h2) : Keeps b h h2 := by
  unfold plist_object_set_integer at hrun
  by_cases h0 : r = 0
  · simp [h0] at hrun
    subst hrun
    exact keeps_refl hg
  · simp only [h0, if_false] at hrun
    cases hrd : h.read r with
    | none => simp [hrd] at hrun
    | some c =>
      obtain ⟨hlt, _⟩ := ptrs_of_live hg hr hrd
      cases c with
      | object o =>
        cases o with
        | integer old =>
          simp [hrd] at hrun
          subst hrun
          exact keeps_write hg hlt (ptrsAbove_nil b)
        | _ =>
          simp [hrd] at hrun
          subst hrun
          exact keeps_refl hg
      | _ => simp [hrd] at hrun

theorem set_date_keeps {b : Nat} {h h2 : Heap} {r : Nat} (val : GTimeVal) (hg : Guard b h)
    (hr : r = 0 ∨ b < r) (hrun : plist_object_set_date h r val = some h2) : Keeps b h h2 := by
  unfold plist_object_set_date at hrun
  by_cases h0 : r = 0
  · simp [h0] at hrun
    subst hrun
    exact keeps_refl hg
  · simp only [h0, if_false] at hrun
    cases hrd : h.read r with
    | none => simp [hrd] at hrun
    | some c =>
      obtain ⟨hlt, _⟩ := ptrs_of_live hg hr hrd
      cases c with
      | object o =>
        cases o with
        | date old =>
          simp [hrd] at hrun
          subst hrun
          exact keeps_write hg hlt (ptrsAbove_nil b)
        | _ =>
          simp [hrd] at hrun
          subst hrun
          exact keeps_refl hg
      | _ => simp [hrd] at hrun

theorem strdup_keeps {b : Nat} {h : Heap} {val : Nat} {s : Heap × Nat} (hg : Guard b h)
    (hs : g_strdup h val = some s) : Keeps b h s.1 ∧ (s.2 = 0 ∨ b < s.2) := by
  unfold g_strdup at hs
  by_cases hv : val = 0
  · simp [hv] at hs
    subst hs
    exact ⟨keeps_refl hg, Or.inl rfl⟩
  · simp only [hv, if_false] at hs
    cases hrv : h.read val with
    | none => simp [hrv] at hs
    | some c2 =>
      cases c2 with
      | chars cs =>
        simp [hrv] at hs
        subst hs
        exact ⟨keeps_alloc hg (ptrsAbove_nil b),
          Or.inr (by rw [alloc_snd]; have := hg.1; omega)⟩
      | _ => simp [hrv] at hs

theorem memcpy_keeps {b : Nat} {h h2 : Heap} {dst src n : Nat} (hg : Guard b h)
    (hdst : dst = 0 ∨ b < dst) (hcp : memcpy h dst src n = some h2) : Keeps b h h2 := by
  unfold memcpy at hcp
  by_cases hl : n = 0
  · simp [hl] at hcp
    subst hcp
    exact keeps_refl hg
  · simp only [hl, if_false] at hcp
    cases hd : h.read dst with
    | none => simp [hd] at hcp
    | some cd =>
      obtain ⟨hlt, _⟩ := ptrs_of_live hg hdst hd
      cases hsrc : h.read src with
      | none => cases cd <;> simp [hd, hsrc] at hcp
      | some cs =>
        cases cd with
        | bytes d =>
          cases cs with
          | bytes sb =>
            simp only [hd, hsrc] at hcp
            by_cases hlen : n ≤ d.length ∧ n ≤ sb.length
            · simp only [hlen, and_self, if_true, Option.some.injEq] at hcp
              subst hcp
              exact keeps_write hg hlt (ptrsAbove_nil b)
            · simp [hlen] at hcp
          | _ => simp [hd, hsrc] at hcp
        | _ => simp [hd, hsrc] at hcp

theorem realloc_keeps {b : Nat} {h : Heap} {p n : Nat} {r : Heap × Nat} (hg : Guard b h)
    (hp : p = 0 ∨ b < p) (hre : g_realloc h p n = some r) :
    Keeps b h r.1 ∧ (r.2 = 0 ∨ b < r.2) := by
  unfold g_realloc at hre
  by_cases hn : n = 0
  · simp only [hn, if_true] at hre
    cases hf : g_free h p with
    | none => simp [hf] at hre
    | some h1 =>
      simp [hf] at hre
      subst hre
      exact ⟨keeps_g_free hg hp hf, Or.inl rfl⟩
  · simp only [hn, if_false] at hre
    by_cases h0 : p = 0
    · simp only [h0, if_true, Option.some.injEq] at hre
      subst hre
      unfold g_malloc
      rw [if_neg hn]
      exact ⟨keeps_alloc hg (ptrsAbove_nil b), Or.inr (by rw [alloc_snd]; have := hg.1; omega)⟩
    · simp only [h0, if_false] at hre
      cases hrd : h.read p with
      | none => simp [hrd] at hre
      | some c =>
        obtain ⟨hlt, _⟩ := ptrs_of_live hg hp hrd
        cases c with
        | bytes bs =>
          simp [hrd] at hre
          subst hre
          have hk := keeps_dealloc hg hlt
          exact ⟨keeps_trans hk (keeps_alloc hk.1 (ptrsAbove_nil b)),
            Or.inr (by rw [alloc_snd, size_dealloc]; have := hg.1; omega)⟩
        | _ => simp [hrd] at hre

theorem remove_all_keeps {b n : Nat} {h h2 : Heap} {t : Nat} (hg : Guard b h)
    (ht : t = 0 ∨ b < t)
    (hre : g_hash_table_remove_all (plist_object_free n) h t = some h2) : Keeps b h h2 := by
  unfold g_hash_table_remove_all at hre
  cases hrd : h.read t with
  | none => simp [hrd] at hre
  | some c =>
    obtain ⟨hlt, hptrs⟩ := ptrs_of_live hg ht hrd
    cases c with
    | table es =>
      simp only [hrd] at hre
      have hk : Keeps b h (h.write t (.table [])) :=
        keeps_write hg hlt (by simp [Cell.ptrs, PtrsAbove])
      exact keeps_trans hk (keeps_foldlM
        (fun hh (e : String × Nat) => plist_object_free n hh e.2) (fun e => e.2 = 0 ∨ b < e.2)
        (fun hh x hh2 hgg hx hfx => free_keeps n hh x.2 hh2 hgg hx hfx) es _ h2 hk.1
        (fun e he => hptrs e.2 (by
          simp only [Cell.ptrs]; exact List.mem_map_of_mem Prod.snd he)) hre)
    | _ => simp [hrd] at hre

theorem set_string_keeps {b : Nat} {h h2 : Heap} {r : Nat} (val : Nat) (hg : Guard b h)
    (hr : r = 0 ∨ b < r) (hrun : plist_object_set_string h r val = some h2) :
    Keeps b h h2 := by
  unfold plist_object_set_string at hrun
  by_cases h0 : r = 0
  · simp [h0] at hrun
    subst hrun
    exact keeps_refl hg
  · simp only [h0, if_false] at hrun
    by_cases hv : val = 0
    · simp [hv] at hrun
      subst hrun
      exact keeps_refl hg
    · simp only [hv, if_false] at hrun
      cases hrd : h.read r with
      | none => simp [hrd] at hrun
      | some c =>
        obtain ⟨hlt, hptrs⟩ := ptrs_of_live hg hr hrd
        cases c with
        | object o =>
          cases o with
          | string old =>
            simp only [hrd] at hrun
            cases hf : g_free h old with
            | none => simp [hf] at hrun
            | some h1 =>
              simp only [hf, Option.some_bind] at hrun
              have hk1 := keeps_g_free hg (hptrs old (by simp [Cell.ptrs])) hf
              cases hs : g_strdup h1 val with
              | none => simp [hs] at hrun
              | some s =>
                simp only [hs, Option.map_some', Option.some.injEq] at hrun
                subst hrun
                obtain ⟨hk2, hs2⟩ := strdup_keeps hk1.1 hs
                exact keeps_trans hk1 (keeps_trans hk2
                  (keeps_write hk2.1 hlt (ptrsAbove_singleton hs2)))
          | _ =>
            simp [hrd] at hrun
            subst hrun
            exact keeps_refl hg
        | _ => simp [hrd] at hrun

theorem set_data_keeps {b : Nat} {h h2 : Heap} {r : Nat} (val length : Nat) (hg : Guard b h)
    (hr : r = 0 ∨ b < r) (hrun : plist_object_set_data h r val length = some h2) :
    Keeps b h h2 := by
  unfold plist_object_set_data at hrun
  by_cases h0 : r = 0
  · simp [h0] at hrun
    subst hrun
    exact keeps_refl hg
  · simp only [h0, if_false] at hrun
    by_cases hv : ¬ (val ≠ 0 ∨ length = 0)
    · rw [if_pos hv] at hrun
      simp only [Option.some.injEq] at hrun
      subst hrun
      exact keeps_refl hg
    · rw [if_neg hv] at hrun
      cases hrd : h.read r with
      | none => simp [hrd] at hrun
      | some c =>
        obtain ⟨hlt, hptrs⟩ := ptrs_of_live hg hr hrd
        cases c with
        | object o =>
          cases o with
          | data old oldlen =>
            simp only [hrd] at hrun
            cases hre : g_realloc h old length with
            | none => simp [hre] at hrun
            | some m =>
              simp only [hre, Option.some_bind] at hrun
              obtain ⟨hk1, hm⟩ := realloc_keeps hg (hptrs old (by simp [Cell.ptrs])) hre
              have hk2 := keeps_write hk1.1 (c := .object (.data m.2 length)) hlt
                (ptrsAbove_singleton hm)
              exact keeps_trans hk1 (keeps_trans hk2 (memcpy_keeps hk2.1 hm hrun))
          | _ =>
            simp [hrd] at hrun
            subst hrun
            exact keeps_refl hg
        | _ => simp [hrd] at hrun

theorem set_array_keeps {b : Nat} {h h2 : Heap} {r : Nat} (fuel : Nat) (val : List Nat)
    (hg : Guard b h) (hr : r = 0 ∨ b < r)
    (hrun : plist_object_set_array fuel h r val = some h2) : Keeps b h h2 := by
  unfold plist_object_set_array at hrun
  by_cases h0 : r = 0
  · simp [h0] at hrun
    subst hrun
    exact keeps_refl hg
  · simp only [h0, if_false] at hrun
    cases hrd : h.read r with
    | none => simp [hrd] at hrun
    | some c =>
      obtain ⟨hlt, hptrs⟩ := ptrs_of_live hg hr hrd
      cases c with
      | object o =>
        cases o with
        | array old =>
          simp only [hrd] at hrun
          cases hf : old.foldlM (fun hh e => plist_object_free fuel hh e) h with
          | none => simp [hf] at hrun
          | some h1 =>
            simp only [hf, Option.some_bind] at hrun
            have hk1 := keeps_foldlM (fun hh e => plist_object_free fuel hh e)
              (fun x => x = 0 ∨ b < x)
              (fun hh x hh2 hgg hx hfx => free_keeps fuel hh x hh2 hgg hx hfx)
              old h h1 hg (fun x hx => hptrs x (by simpa [Cell.ptrs] using hx)) hf
            have hkw : Keeps b h1 (h1.write r (.object (.array []))) :=
              keeps_write hk1.1 hlt (ptrsAbove_nil b)
            cases hc : val.foldlM (insert_copied_element (plist_object_copy fuel))
                (h1.write r (.object (.array [])), []) with
            | none => simp [hc] at hrun
            | some s =>
              obtain ⟨hs2, out⟩ := s
              simp only [hc, Option.map_some', Option.some.injEq] at hrun
              subst hrun
              obtain ⟨hk2, hout⟩ := copy_elements_keeps (copy_keeps fuel) val _ [] hs2 out
                hkw.1 (ptrsAbove_nil b) hc
              refine keeps_trans hk1 (keeps_trans hkw (keeps_trans hk2
                (keeps_write hk2.1 hlt (fun x hx => ?_))))
              exact hout x (by simpa [Cell.ptrs, g_list_reverse] using hx)
        | _ =>
          simp [hrd] at hrun
          subst hrun
          exact keeps_refl hg
      | _ => simp [hrd] at hrun

theorem set_dict_keeps {b : Nat} {h h2 : Heap} {r : Nat} (fuel : Nat) (val : Nat)
    (hg : Guard b h) (hr : r = 0 ∨ b < r)
    (hrun : plist_object_set_dict fuel h r val = some h2) : Keeps b h h2 := by
  unfold plist_object_set_dict at hrun
  by_cases h0 : r = 0
  · simp [h0] at hrun
    subst hrun
    exact keeps_refl hg
  · simp only [h0, if_false] at hrun
    by_cases hv : val = 0
    · simp [hv] at hrun
      subst hrun
      exact keeps_refl hg
    · simp only [hv, if_false] at hrun
      cases hrd : h.read r with
      | none => simp [hrd] at hrun
      | some c =>
        obtain ⟨hlt, hptrs⟩ := ptrs_of_live hg hr hrd
        cases c with
        | object o =>
          cases o with
          | dict own =>
            simp only [hrd] at hrun
            have hown : own = 0 ∨ b < own := hptrs own (by simp [Cell.ptrs])
            cases hre : g_hash_table_remove_all (plist_object_free fuel) h own with
            | none => simp [hre] at hrun
            | some h1 =>
              simp only [hre, Option.some_bind] at hrun
              have hk1 := remove_all_keeps hg hown hre
              cases hrv : h1.read val with
              | none => simp [hrv] at hrun
              | some c2 =>
                cases c2 with
                | table es =>
                  simp only [hrv] at hrun
                  exact keeps_trans hk1 (keeps_foldlM
                    (insert_copied_key_and_value (plist_object_copy fuel)
                      (plist_object_free fuel) own) (fun _ => True)
                    (fun hh e hh2 hgg _ hi =>
                      insert_copied_keeps (copy_keeps fuel) hown hh e hh2 hgg hi)
                    es h1 h2 hk1.1 (fun _ _ => trivial) hrun)
                | _ => simp [hrv] at hrun
          | _ =>
            simp [hrd] at hrun
            subst hrun
            exact keeps_refl hg
        | _ => simp [hrd] at hrun

/-- A setter called on a node above `b` (or on `NULL`) touches nothing up to
`b`. -/
theorem setter_keeps {b : Nat} {h h2 : Heap} {r : Nat} (call : SetterCall) (fuel : Nat)
    (hg : Guard b h) (hr : r = 0 ∨ b < r) (hrun : call.run fuel h r = some h2) :
    Keeps b h h2 := by
  cases call with
  | set_boolean val => exact set_boolean_keeps val hg hr hrun
  | set_real val => exact set_real_keeps val hg hr hrun
  | set_integer val => exact set_integer_keeps val hg hr hrun
  | set_string val => exact set_string_keeps val hg hr hrun
  | set_date val => exact set_date_keeps val hg hr hrun
  | set_array val => exact set_array_keeps fuel val hg hr hrun
  | set_dict val => exact set_dict_keeps fuel val hg hr hrun
  | set_data val length => exact set_data_keeps val length hg hr hrun

/-- Every node of a tree whose root is above `b` is above `b` (or `NULL`). -/
theorem inTree_above {b : Nat} {h : Heap} (hg : Guard b h) {q : Nat} (hq : q = 0 ∨ b < q) :
    ∀ r, InTree h q r → r = 0 ∨ b < r := by
  intro r hin
  induction hin with
  | root => exact hq
  | @child p1 q1 _ hmem ih =>
    unfold children at hmem
    cases hrd : h.read p1 with
    | none => simp [hrd] at hmem
    | some c =>
      obtain ⟨_, hptrs⟩ := ptrs_of_live hg ih hrd
      cases c with
      | object o =>
        cases o with
        | array val =>
          simp only [hrd] at hmem
          exact hptrs q1 (by simpa [Cell.ptrs] using hmem)
        | dict val =>
          simp only [hrd] at hmem
          cases hrt : h.read val with
          | none => simp [hrt] at hmem
          | some c2 =>
            obtain ⟨_, hptrs2⟩ := ptrs_of_live hg (hptrs val (by simp [Cell.ptrs])) hrt
            cases c2 with
            | table es =>
              simp only [hrt] at hmem
              exact hptrs2 q1 (by simpa [Cell.ptrs] using hmem)
            | _ => simp [hrt] at hmem
        | _ => simp [hrd] at hmem
      | _ => simp [hrd] at hmem

/-! ## Deep copy: the claims -/

theorem agreeOn_refl (lo hi : Nat) (h : Heap) : AgreeOn lo hi h h := fun _ _ _ => rfl

/-- C1: for every well-formed finite tree (`tree_of` gives its value `t`) and
enough fuel, `plist_object_copy` returns a node whose tree has the same value
`t`: the same tag and payload at every node, the same string texts, the same
data bytes and lengths, the same array elements in the same order and the same
dict entries; the source still has the value `t` afterwards. -/
theorem copy_structurally_equal (n fuel : Nat) (h : Heap) (p : Nat) (t : PlistTree)
    (hT : tree_of n h p = some t) (hfuel : n ≤ fuel) :
    ∃ h2 q, plist_object_copy fuel h p = some (h2, q) ∧ q ≠ 0 ∧
      tree_of fuel h2 q = some t ∧ tree_of fuel h2 p = some t := by
  have hT2 := tree_of_le h hfuel p t hT
  obtain ⟨h2, q, hc, hsb, hq, _, hown⟩ := copy_spec fuel h p t hT2
  exact ⟨h2, q, hc, by omega, (hown h2 (agreeOn_refl _ _ h2)).1,
    tree_of_preserved (preserved_of_sameBelow hsb) fuel p t hT2⟩

/-- Witness for C1: the copy of the documentation's example. -/
theorem copy_structurally_equal_witness :
    ∃ h2 q, plist_object_copy 3 docExample 16 = some (h2, q) ∧ q ≠ 0 ∧
      tree_of 3 h2 q = some docTree ∧ tree_of 3 h2 16 = some docTree :=
  copy_structurally_equal 3 3 docExample 16 docTree rfl (Nat.le_refl 3)

/-- C2: the copy of a well-formed tree shares nothing with it.  Every node of
the copy is at an address that held no block before; freeing the copy
succeeds, and after it, or after any setter call on any node of the copy, every
block that was live before the copy (every node, string, data buffer and dict
table of the source) holds what it held before, and the source has the same
value. -/
theorem copy_shares_nothing (n fuel : Nat) (h : Heap) (p : Nat) (t : PlistTree)
    (hT : tree_of n h p = some t) (hfuel : n ≤ fuel) :
    ∃ h2 q, plist_object_copy fuel h p = some (h2, q) ∧
      (∀ r, InTree h2 q r → h.read r = none) ∧
      (∃ h3, plist_object_free fuel h2 q = some h3 ∧
        (∀ a c, h.read a = some c → h3.read a = some c) ∧ tree_of n h3 p = some t) ∧
      (∀ r, InTree h2 q r → ∀ (call : SetterCall) (fuel2 : Nat) (h3 : Heap),
        call.run fuel2 h2 r = some h3 →
        (∀ a c, h.read a = some c → h3.read a = some c) ∧ tree_of n h3 p = some t) := by
  have hT2 := tree_of_le h hfuel p t hT
  obtain ⟨h2, q, hc, hsb, hq, _, hown⟩ := copy_spec fuel h p t hT2
  obtain ⟨hk, hq2⟩ := copy_keeps fuel h p h2 q (guard_of_size h) hc
  have habove : ∀ r, InTree h2 q r → r = 0 ∨ h.size < r := inTree_above hk.1 hq2
  refine ⟨h2, q, hc, fun r hr => ?_, ?_, fun r hr call fuel2 h3 hrun => ?_⟩
  · rcases habove r hr with h0 | hlt
    · rw [h0]; exact read_zero h
    · exact read_of_size_lt hlt
  · obtain ⟨_, h3, hfree, hfr⟩ := hown h2 (agreeOn_refl _ _ h2)
    have hpres : ∀ a c, h.read a = some c → h3.read a = some c := fun a c ha => by
      rw [hfr a (Or.inl (le_size_of_read ha)), hsb.2 a (le_size_of_read ha)]; exact ha
    exact ⟨h3, hfree, hpres, tree_of_preserved hpres n p t hT⟩
  · have hk2 := setter_keeps call fuel2 hk.1 (habove r hr) hrun
    have hpres : ∀ a c, h.read a = some c → h3.read a = some c := fun a c ha => by
      rw [hk2.2.2 a (le_size_of_read ha), hsb.2 a (le_size_of_read ha)]; exact ha
    exact ⟨hpres, tree_of_preserved hpres n p t hT⟩

/-- Witness for C2: the copy of the documentation's example. -/
theorem copy_shares_nothing_witness :
    ∃ h2 q, plist_object_copy 3 docExample 16 = some (h2, q) ∧
      (∀ r, InTree h2 q r → docExample.read r = none) ∧
      (∃ h3, plist_object_free 3 h2 q = some h3 ∧
        (∀ a c, docExample.read a = some c → h3.read a = some c) ∧
        tree_of 3 h3 16 = some docTree) ∧
      (∀ r, InTree h2 q r → ∀ (call : SetterCall) (fuel2 : Nat) (h3 : Heap),
        call.run fuel2 h2 r = some h3 →
        (∀ a c, docExample.read a = some c → h3.read a = some c) ∧
        tree_of 3 h3 16 = some docTree) :=
  copy_shares_nothing 3 3 docExample 16 docTree rfl (Nat.le_refl 3)

/-- The copy of the documentation's example is at address 17, its Integer node
under "Array", 0 at address 20.  Setting that node to 42, or replacing the
copied array at address 19 by an empty one, goes through and leaves the source
as it was. -/
theorem copy_then_set_example :
    ((plist_object_copy 3 docExample 16).bind fun r =>
        (plist_object_set_integer r.1 20 42).map fun h3 =>
          (r.2, plist_object_lookup h3 r.2 [1, 0, 2 ^ 32 - 1], h3.read 20, h3.read 4))
      = some (17, some 20, some (.object (.integer 42)), some (.object (.integer 1))) ∧
    ((plist_object_copy 3 docExample 16).bind fun r =>
        (plist_object_set_array 3 r.1 19 []).map fun h3 =>
          (h3.read 19, h3.read 20, h3.read 8, h3.read 4))
      = some (some (.object (.array [])), none, some (.object (.array [4, 6, 7])),
          some (.object (.integer 1))) := by
  decide

/-! ## Typed accessors: the claims -/

/-- C11: on a node whose tag is not the getter's, every getter returns its
sentinel: `FALSE`, `0.0`, `0`, `NULL`, the date `{0, 0}`, `NULL` (the empty
list), `NULL` and `NULL`; a getter only reads the heap (it returns none), so
the node is the same after the call. -/
theorem getter_returns_sentinel_on_other_tag (h : Heap) (object : Nat) (o : PlistObject)
    (length : Option Nat) (hr : h.read object = some (.object o)) :
    (o.type ≠ .PLIST_OBJECT_BOOLEAN → plist_object_get_boolean h object = some false) ∧
    (o.type ≠ .PLIST_OBJECT_REAL → plist_object_get_real h object = some 0) ∧
    (o.type ≠ .PLIST_OBJECT_INTEGER → plist_object_get_integer h object = some 0) ∧
    (o.type ≠ .PLIST_OBJECT_STRING → plist_object_get_string h object = some 0) ∧
    (o.type ≠ .PLIST_OBJECT_DATE → plist_object_get_date h object = some ⟨0, 0⟩) ∧
    (o.type ≠ .PLIST_OBJECT_ARRAY → plist_object_get_array h object = some []) ∧
    (o.type ≠ .PLIST_OBJECT_DICT → plist_object_get_dict h object = some 0) ∧
    (o.type ≠ .PLIST_OBJECT_DATA →
      plist_object_get_data h object length = some (0, length)) := by
  have h0 : object ≠ 0 := ne_zero_of_read hr
  refine ⟨?_, ?_, ?_, ?_, ?_, ?_, ?_, ?_⟩
  · intro hty
    cases o <;> simp_all [plist_object_get_boolean, PlistObject.type]
  · intro hty
    cases o <;> simp_all [plist_object_get_real, PlistObject.type]
  · intro hty
    cases o <;> simp_all [plist_object_get_integer, PlistObject.type]
  · intro hty
    cases o <;> simp_all [plist_object_get_string, PlistObject.type]
  · intro hty
    cases o <;> simp_all [plist_object_get_date, PlistObject.type]
  · intro hty
    cases o <;> simp_all [plist_object_get_array, PlistObject.type]
  · intro hty
    cases o <;> simp_all [plist_object_get_dict, PlistObject.type]
  · intro hty
    cases length <;> cases o <;> simp_all [plist_object_get_data, PlistObject.type]

/-- Witness for C11: `get_boolean` on the Integer node of the sample heap, and
`get_data` on it with a length variable that holds 99. -/
theorem getter_returns_sentinel_on_other_tag_witness :
    plist_object_get_boolean sampleHeap 3 = some false ∧
      plist_object_get_data sampleHeap 3 (some 99) = some (0, some 99) :=
  ⟨(getter_returns_sentinel_on_other_tag sampleHeap 3 (.integer 5) (some 99)
      (by decide)).1 (by decide),
    (getter_returns_sentinel_on_other_tag sampleHeap 3 (.integer 5) (some 99)
      (by decide)).2.2.2.2.2.2.2 (by decide)⟩

/-- C12: a setter called on a node whose tag is not the setter's is rejected,
whatever its arguments: the heap after the call is the heap before it, so the
node has the tag and payload it had and no owned block was touched. -/
theorem setter_rejected_on_other_tag (call : SetterCall) (fuel : Nat) (h : Heap)
    (object : Nat) (o : PlistObject) (hr : h.read object = some (.object o))
    (hty : o.type ≠ call.type) : call.run fuel h object = some h := by
  have h0 : object ≠ 0 := ne_zero_of_read hr
  cases call with
  | set_boolean val =>
    cases o <;> simp_all [SetterCall.run, SetterCall.type, plist_object_set_boolean,
      PlistObject.type]
  | set_real val =>
    cases o <;> simp_all [SetterCall.run, SetterCall.type, plist_object_set_real,
      PlistObject.type]
  | set_integer val =>
    cases o <;> simp_all [SetterCall.run, SetterCall.type, plist_object_set_integer,
      PlistObject.type]
  | set_string val =>
    by_cases hv : val = 0 <;>
    cases o <;> simp_all [SetterCall.run, SetterCall.type, plist_object_set_string,
      PlistObject.type]
  | set_date val =>
    cases o <;> simp_all [SetterCall.run, SetterCall.type, plist_object_set_date,
      PlistObject.type]
  | set_array val =>
    cases o <;> simp_all [SetterCall.run, SetterCall.type, plist_object_set_array,
      PlistObject.type]
  | set_dict val =>
    by_cases hv : val = 0 <;>
    cases o <;> simp_all [SetterCall.run, SetterCall.type, plist_object_set_dict,
      PlistObject.type]
  | set_data val length =>
    simp only [SetterCall.run, plist_object_set_data, h0, if_false]
    by_cases hv : ¬ (val ≠ 0 ∨ length = 0)
    · rw [if_pos hv]
    · rw [if_neg hv]
      cases o <;> simp_all [SetterCall.type, PlistObject.type]

/-- Witness for C12: `set_string` with the text "new" and `set_array` with a
list, called on the Integer node of the sample heap. -/
theorem setter_rejected_on_other_tag_witness :
    (SetterCall.set_string 12).run 0 sampleHeap 3 = some sampleHeap ∧
      (SetterCall.set_array [2]).run 5 sampleHeap 3 = some sampleHeap :=
  ⟨setter_rejected_on_other_tag (.set_string 12) 0 sampleHeap 3 (.integer 5)
      (by decide) (by decide),
    setter_rejected_on_other_tag (.set_array [2]) 5 sampleHeap 3 (.integer 5)
      (by decide) (by decide)⟩

/-- C13: on a node tagged Boolean, Real, Integer or Date, the setter of that
type goes through and the getter of that type then returns the value that was
set. -/
theorem scalar_set_then_get (h : Heap) (object : Nat) (o : PlistObject)
    (hr : h.read object = some (.object o)) :
    (∀ v, o.type = .PLIST_OBJECT_BOOLEAN →
      ∃ h2, plist_object_set_boolean h object v = some h2 ∧
        plist_object_get_boolean h2 object = some v) ∧
    (∀ v, o.type = .PLIST_OBJECT_REAL →
      ∃ h2, plist_object_set_real h object v = some h2 ∧
        plist_object_get_real h2 object = some v) ∧
    (∀ v, o.type = .PLIST_OBJECT_INTEGER →
      ∃ h2, plist_object_set_integer h object v = some h2 ∧
        plist_object_get_integer h2 object = some v) ∧
    (∀ v, o.type = .PLIST_OBJECT_DATE →
      ∃ h2, plist_object_set_date h object v = some h2 ∧
        plist_object_get_date h2 object = some v) := by
  have h0 : object ≠ 0 := ne_zero_of_read hr
  have hle : object ≤ h.size := le_size_of_read hr
  refine ⟨fun v hty => ?_, fun v hty => ?_, fun v hty => ?_, fun v hty => ?_⟩
  · cases o <;> simp [PlistObject.type] at hty
    exact ⟨h.write object (.object (.boolean v)), by simp [plist_object_set_boolean, h0, hr],
      by simp [plist_object_get_boolean, h0, read_write_self _ h0 hle]⟩
  · cases o <;> simp [PlistObject.type] at hty
    exact ⟨h.write object (.object (.real v)), by simp [plist_object_set_real, h0, hr],
      by simp [plist_object_get_real, h0, read_write_self _ h0 hle]⟩
  · cases o <;> simp [PlistObject.type] at hty
    exact ⟨h.write object (.object (.integer v)), by simp [plist_object_set_integer, h0, hr],
      by simp [plist_object_get_integer, h0, read_write_self _ h0 hle]⟩
  · cases o <;> simp [PlistObject.type] at hty
    exact ⟨h.write object (.object (.date v)), by simp [plist_object_set_date, h0, hr],
      by simp [plist_object_get_date, h0, read_write_self _ h0 hle]⟩

/-- Witness for C13: the four scalar nodes of the sample heap. -/
theorem scalar_set_then_get_witness :
    (∃ h2, plist_object_set_boolean sampleHeap 1 false = some h2 ∧
      plist_object_get_boolean h2 1 = some false) ∧
    (∃ h2, plist_object_set_real sampleHeap 2 11 = some h2 ∧
      plist_object_get_real h2 2 = some 11) ∧
    (∃ h2, plist_object_set_integer sampleHeap 3 (-4) = some h2 ∧
      plist_object_get_integer h2 3 = some (-4)) ∧
    (∃ h2, plist_object_set_date sampleHeap 6 ⟨1, 2⟩ = some h2 ∧
      plist_object_get_date h2 6 = some ⟨1, 2⟩) :=
  ⟨(scalar_set_then_get sampleHeap 1 (.boolean true) (by decide)).1 false rfl,
    (scalar_set_then_get sampleHeap 2 (.real 7) (by decide)).2.1 11 rfl,
    (scalar_set_then_get sampleHeap 3 (.integer 5) (by decide)).2.2.1 (-4) rfl,
    (scalar_set_then_get sampleHeap 6 (.date ⟨10, 20⟩) (by decide)).2.2.2 ⟨1, 2⟩ rfl⟩

theorem read_dealloc_self (h : Heap) (a : Nat) : (h.dealloc a).read a = none := by
  cases hr : (h.dealloc a).read a with
  | none => rfl
  | some c => exact absurd rfl (read_dealloc_some hr).2

/-- C14 fails when the text handed to `set_string` is the node's own text (the
pointer `get_string` returns): the text is freed before it is duplicated, so
the duplication reads a freed block, which is undefined. -/
theorem set_string_own_text_counterexample :
    plist_object_get_string sampleHeap 5 = some 4 ∧
      sampleHeap.read 4 = some (.chars "text") ∧
      plist_object_set_string sampleHeap 5 4 = none := by
  decide

/-- C14 as amended: on a String node (with a text or with none) and for a
non-null text `s` that is not the node's own text, `set_string` goes through
and `get_string` then returns a text equal to `s`, in a block of its own; the
text the node held before is freed. -/
theorem set_string_then_get (h : Heap) (object old val : Nat) (s : String)
    (hr : h.read object = some (.object (.string old)))
    (hold : old = 0 ∨ ∃ c, h.read old = some (.chars c))
    (hval : h.read val = some (.chars s)) (hne : val ≠ old) :
    ∃ h2 p, plist_object_set_string h object val = some h2 ∧
      plist_object_get_string h2 object = some p ∧
      h2.read p = some (.chars s) ∧ p ≠ val ∧ (old ≠ 0 → h2.read old = none) := by
  have h0 : object ≠ 0 := ne_zero_of_read hr
  have hle : object ≤ h.size := le_size_of_read hr
  have hv0 : val ≠ 0 := ne_zero_of_read hval
  have hvle : val ≤ h.size := le_size_of_read hval
  rcases hold with rfl | ⟨c, hc⟩
  · refine ⟨(h.alloc (.chars s)).1.write object (.object (.string (h.size + 1))), h.size + 1,
      ?_, ?_, ?_, by omega, fun hx => absurd rfl hx⟩
    · simp [plist_object_set_string, h0, hv0, hr, g_free, g_strdup, hval, alloc_snd]
    · simp [plist_object_get_string, h0,
        read_write_self _ h0 (show object ≤ (h.alloc (.chars s)).1.size by
          rw [size_alloc]; omega)]
    · rw [read_write_of_ne _ _ (by omega), read_alloc_self]
  · have ho0 : old ≠ 0 := ne_zero_of_read hc
    have hole : old ≤ h.size := le_size_of_read hc
    have hoo : old ≠ object := by
      rintro rfl
      rw [hr] at hc
      cases hc
    have hval1 : (h.dealloc old).read val = some (.chars s) := by
      rw [read_dealloc_of_ne h hne]; exact hval
    refine ⟨((h.dealloc old).alloc (.chars s)).1.write object
      (.object (.string (h.size + 1))), h.size + 1, ?_, ?_, ?_, by omega, fun _ => ?_⟩
    · simp [plist_object_set_string, h0, hv0, hr, g_free, ho0, hc, g_strdup, hval1, alloc_snd,
        size_dealloc]
    · simp [plist_object_get_string, h0,
        read_write_self _ h0 (show object ≤ ((h.dealloc old).alloc (.chars s)).1.size by
          rw [size_alloc, size_dealloc]; omega)]
    · rw [read_write_of_ne _ _ (by omega)]
      have := read_alloc_self (h.dealloc old) (.chars s)
      rwa [size_dealloc] at this
    · rw [read_write_of_ne _ _ hoo, read_alloc_of_ne _ _ (by rw [size_dealloc]; omega),
        read_dealloc_self]

/-- Witness for C14 as amended: the String node of the sample heap is given
the caller's text "new". -/
theorem set_string_then_get_witness :
    ∃ h2 p, plist_object_set_string sampleHeap 5 12 = some h2 ∧
      plist_object_get_string h2 5 = some p ∧
      h2.read p = some (.chars "new") ∧ p ≠ 12 ∧ (4 ≠ 0 → h2.read 4 = none) :=
  set_string_then_get sampleHeap 5 4 12 "new" (by decide) (Or.inr ⟨"text", by decide⟩)
    (by decide) (by decide)

/-- `set_data` with a length of zero on a Data node: the node's buffer is
freed and the node is left with a null buffer and length 0, whatever the
source pointer is. -/
theorem set_data_zero (h : Heap) (object old oldlen val : Nat)
    (hr : h.read object = some (.object (.data old oldlen)))
    (hold : old = 0 ∨ ∃ b, h.read old = some (.bytes b)) :
    ∃ h2, plist_object_set_data h object val 0 = some h2 ∧
      h2.read object = some (.object (.data 0 0)) := by
  have h0 : object ≠ 0 := ne_zero_of_read hr
  have hle : object ≤ h.size := le_size_of_read hr
  rcases hold with rfl | ⟨b, hb⟩
  · refine ⟨h.write object (.object (.data 0 0)), ?_, read_write_self _ h0 hle⟩
    simp [plist_object_set_data, h0, hr, g_realloc, g_free, memcpy]
  · have ho0 : old ≠ 0 := ne_zero_of_read hb
    refine ⟨(h.dealloc old).write object (.object (.data 0 0)), ?_,
      read_write_self _ h0 (by rw [size_dealloc]; exact hle)⟩
    simp [plist_object_set_data, h0, hr, g_realloc, g_free, ho0, hb, memcpy]

/-- Copying `n` bytes into the block that was just allocated for a Data node. -/
theorem memcpy_into_fresh (h1 : Heap) (object val n : Nat) (d bs : List Nat)
    (h0 : object ≠ 0) (hle : object ≤ h1.size) (hval : h1.read val = some (.bytes bs))
    (hvo : val ≠ object) (hd : d.length = n) (hbs : n ≤ bs.length) (hn : n ≠ 0) :
    ∃ h2, memcpy ((h1.alloc (.bytes d)).1.write object (.object (.data (h1.size + 1) n)))
        (h1.size + 1) val n = some h2 ∧
      h2.read object = some (.object (.data (h1.size + 1) n)) ∧
      h2.read (h1.size + 1) = some (.bytes (bs.take n)) := by
  have hvle : val ≤ h1.size := le_size_of_read hval
  have hp : ((h1.alloc (.bytes d)).1.write object (.object (.data (h1.size + 1) n))).read
      (h1.size + 1) = some (.bytes d) := by
    rw [read_write_of_ne _ _ (by omega), read_alloc_self]
  have hv : ((h1.alloc (.bytes d)).1.write object (.object (.data (h1.size + 1) n))).read val
      = some (.bytes bs) := by
    rw [read_write_of_ne _ _ hvo, read_alloc_of_ne _ _ (by omega)]; exact hval
  have hsz : ((h1.alloc (.bytes d)).1.write object (.object (.data (h1.size + 1) n))).size
      = h1.size + 1 := by rw [size_write, size_alloc]
  refine ⟨((h1.alloc (.bytes d)).1.write object (.object (.data (h1.size + 1) n))).write
    (h1.size + 1) (.bytes (bs.take n)), ?_, ?_, ?_⟩
  · subst hd
    simp [memcpy, hn, hp, hv, hbs]
  · rw [read_write_of_ne _ _ (by omega)]
    exact read_write_self _ h0 (by rw [size_alloc]; omega)
  · exact read_write_self _ (by omega) (by rw [hsz])

/-- C15 fails when the bytes handed to `set_data` are the node's own buffer
(the pointer `get_data` returns): `g_realloc` may move the block, after which
the source pointer is dangling and the copy from it is undefined. -/
theorem set_data_own_buffer_counterexample :
    plist_object_get_data sampleHeap 8 (some 0) = some (7, some 3) ∧
      sampleHeap.read 7 = some (.bytes [1, 2, 3]) ∧
      plist_object_set_data sampleHeap 8 7 3 = none := by
  decide

/-- C15 as amended: on a Data node and for `n` bytes that are not the node's
own buffer (any source when `n = 0`), `set_data` goes through and `get_data`
then reports the length `n` and a buffer, a block of its own, whose `n` bytes
are the given ones; what the node held before is replaced. -/
theorem set_data_then_get (h : Heap) (object old oldlen val n : Nat) (bs : List Nat)
    (l : Nat) (hr : h.read object = some (.object (.data old oldlen)))
    (hold : old = 0 ∨ ∃ b, h.read old = some (.bytes b))
    (hval : n = 0 ∨ (h.read val = some (.bytes bs) ∧ n ≤ bs.length ∧ val ≠ old)) :
    ∃ h2 p, plist_object_set_data h object val n = some h2 ∧
      plist_object_get_data h2 object (some l) = some (p, some n) ∧
      (n = 0 ∨ (h2.read p = some (.bytes (bs.take n)) ∧ p ≠ val)) := by
  have h0 : object ≠ 0 := ne_zero_of_read hr
  have hle : object ≤ h.size := le_size_of_read hr
  by_cases hn : n = 0
  · subst hn
    obtain ⟨h2, hset, hread⟩ := set_data_zero h object old oldlen val hr hold
    exact ⟨h2, 0, hset, by simp [plist_object_get_data, h0, hread], Or.inl rfl⟩
  · rcases hval with hn0 | ⟨hv, hbs, hne⟩
    · exact absurd hn0 hn
    · have hv0 : val ≠ 0 := ne_zero_of_read hv
      have hvle : val ≤ h.size := le_size_of_read hv
      have hvo : val ≠ object := by
        rintro rfl
        rw [hr] at hv
        cases hv
      have hchk : ¬ ¬ (val ≠ 0 ∨ n = 0) := fun hc => hc (Or.inl hv0)
      rcases hold with rfl | ⟨b, hb⟩
      · obtain ⟨h2, hcp, hro, hrp⟩ := memcpy_into_fresh h object val n (List.replicate n 0) bs
          h0 hle hv hvo (by simp) hbs hn
        refine ⟨h2, h.size + 1, ?_, by simp [plist_object_get_data, h0, hro],
          Or.inr ⟨hrp, by omega⟩⟩
        unfold plist_object_set_data
        rw [if_neg h0, if_neg hchk]
        simp only [hr, g_realloc, hn, if_false, if_true, g_malloc, Option.some_bind, alloc_snd]
        exact hcp
      · have ho0 : old ≠ 0 := ne_zero_of_read hb
        have hv1 : (h.dealloc old).read val = some (.bytes bs) := by
          rw [read_dealloc_of_ne h hne]; exact hv
        obtain ⟨h2, hcp, hro, hrp⟩ := memcpy_into_fresh (h.dealloc old) object val n
          (b.take n ++ List.replicate (n - b.length) 0) bs h0
          (by rw [size_dealloc]; exact hle) hv1 hvo
          (by simp only [List.length_append, List.length_take, List.length_replicate]; omega)
          hbs hn
        rw [size_dealloc] at hcp hro hrp
        refine ⟨h2, h.size + 1, ?_, by simp [plist_object_get_data, h0, hro],
          Or.inr ⟨hrp, by omega⟩⟩
        unfold plist_object_set_data
        rw [if_neg h0, if_neg hchk]
        simp only [hr, g_realloc, hn, if_false, ho0, hb, Option.some_bind, alloc_snd,
          size_dealloc]
        exact hcp

/-- Witness for C15 as amended: the Data node of the sample heap is given the
first two of the caller's bytes, and then no bytes at all. -/
theorem set_data_then_get_witness :
    (∃ h2 p, plist_object_set_data sampleHeap 8 13 2 = some h2 ∧
      plist_object_get_data h2 8 (some 0) = some (p, some 2) ∧
      (2 = 0 ∨ (h2.read p = some (.bytes [9, 8]) ∧ p ≠ 13))) ∧
    (∃ h2 p, plist_object_set_data sampleHeap 8 0 0 = some h2 ∧
      plist_object_get_data h2 8 (some 5) = some (p, some 0) ∧
      (0 = 0 ∨ (h2.read p = some (.bytes []) ∧ p ≠ 0))) :=
  ⟨set_data_then_get sampleHeap 8 7 3 13 2 [9, 8, 7, 6] 0 (by decide)
      (Or.inr ⟨[1, 2, 3], by decide⟩) (Or.inr ⟨by decide, by decide, by decide⟩),
    set_data_then_get sampleHeap 8 7 3 0 0 [] 5 (by decide)
      (Or.inr ⟨[1, 2, 3], by decide⟩) (Or.inl rfl)⟩

/-- C16: on a Data node, `set_data` with a null source is rejected for every
length above zero (the heap, so the node's buffer and length, stays as it is)
and accepted for the length zero, which leaves the node with a null buffer and
length 0. -/
theorem set_data_null_source (h : Heap) (object old oldlen : Nat)
    (hr : h.read object = some (.object (.data old oldlen)))
    (hold : old = 0 ∨ ∃ b, h.read old = some (.bytes b)) :
    (∀ n, 0 < n → plist_object_set_data h object 0 n = some h) ∧
    ∃ h2, plist_object_set_data h object 0 0 = some h2 ∧
      h2.read object = some (.object (.data 0 0)) ∧
      ∀ l, plist_object_get_data h2 object (some l) = some (0, some 0) := by
  have h0 : object ≠ 0 := ne_zero_of_read hr
  refine ⟨fun n hn => ?_, ?_⟩
  · have hchk : ¬ ((0 : Nat) ≠ 0 ∨ n = 0) := by
      rintro (hc | hc)
      · exact hc rfl
      · omega
    simp only [plist_object_set_data, h0, if_false, if_pos hchk]
  · obtain ⟨h2, hset, hread⟩ := set_data_zero h object old oldlen 0 hr hold
    exact ⟨h2, hset, hread, fun l => by simp [plist_object_get_data, h0, hread]⟩

/-- Witness for C16: the Data node of the sample heap. -/
theorem set_data_null_source_witness :
    (∀ n, 0 < n → plist_object_set_data sampleHeap 8 0 n = some sampleHeap) ∧
    ∃ h2, plist_object_set_data sampleHeap 8 0 0 = some h2 ∧
      h2.read 8 = some (.object (.data 0 0)) ∧
      ∀ l, plist_object_get_data h2 8 (some l) = some (0, some 0) :=
  set_data_null_source sampleHeap 8 7 3 (by decide) (Or.inr ⟨[1, 2, 3], by decide⟩)

/-! ## Construction and copy of `NULL`: the claims -/

/-- C19: for each of the eight types `plist_object_new` returns a non-null node
of that type whose payload is the zero value: Boolean false, Real 0.0, Integer
0, String with a null text, Date `{0, 0}`, Array with no elements, Data with a
null buffer and length 0, and Dict with a table of its own that has no entry,
so that every key looked up in it is absent. -/
theorem new_returns_zero_node (h : Heap) :
    (∀ ty, (plist_object_new h ty).2 ≠ 0 ∧
      ∃ o, (plist_object_new h ty).1.read (plist_object_new h ty).2 = some (.object o) ∧
        o.type = ty) ∧
    (plist_object_new h .PLIST_OBJECT_BOOLEAN).1.read
      (plist_object_new h .PLIST_OBJECT_BOOLEAN).2 = some (.object (.boolean false)) ∧
    (plist_object_new h .PLIST_OBJECT_REAL).1.read
      (plist_object_new h .PLIST_OBJECT_REAL).2 = some (.object (.real 0)) ∧
    (plist_object_new h .PLIST_OBJECT_INTEGER).1.read
      (plist_object_new h .PLIST_OBJECT_INTEGER).2 = some (.object (.integer 0)) ∧
    (plist_object_new h .PLIST_OBJECT_STRING).1.read
      (plist_object_new h .PLIST_OBJECT_STRING).2 = some (.object (.string 0)) ∧
    (plist_object_new h .PLIST_OBJECT_DATE).1.read
      (plist_object_new h .PLIST_OBJECT_DATE).2 = some (.object (.date ⟨0, 0⟩)) ∧
    (plist_object_new h .PLIST_OBJECT_ARRAY).1.read
      (plist_object_new h .PLIST_OBJECT_ARRAY).2 = some (.object (.array [])) ∧
    (plist_object_new h .PLIST_OBJECT_DATA).1.read
      (plist_object_new h .PLIST_OBJECT_DATA).2 = some (.object (.data 0 0)) ∧
    (∃ t, (plist_object_new h .PLIST_OBJECT_DICT).1.read
        (plist_object_new h .PLIST_OBJECT_DICT).2 = some (.object (.dict t)) ∧
      (plist_object_new h .PLIST_OBJECT_DICT).1.read t = some (.table []) ∧
      ∀ key k, (plist_object_new h .PLIST_OBJECT_DICT).1.read key = some (.chars k) →
        g_hash_table_lookup (plist_object_new h .PLIST_OBJECT_DICT).1 t key = some 0) := by
  have hleaf : ∀ o : PlistObject, (h.alloc (.object o)).1.read (h.size + 1)
      = some (.object o) := fun o => read_alloc_self h (.object o)
  have hreal : (plist_object_new h .PLIST_OBJECT_REAL).1.read
      (plist_object_new h .PLIST_OBJECT_REAL).2 = some (.object (.real 0)) := by
    simp only [plist_object_new, alloc_snd]
    exact read_write_self _ (by omega) (by rw [size_alloc])
  have hdict : (plist_object_new h .PLIST_OBJECT_DICT).1.read
        (plist_object_new h .PLIST_OBJECT_DICT).2 = some (.object (.dict (h.size + 1 + 1))) ∧
      (plist_object_new h .PLIST_OBJECT_DICT).1.read (h.size + 1 + 1) = some (.table []) := by
    simp only [plist_object_new, alloc_snd, g_hash_table_new_full, size_alloc]
    obtain ⟨_, _, hrd, hrd2⟩ := alloc_alloc_write_facts h
      (.object (zeroObject .PLIST_OBJECT_DICT)) (.table []) (.object (.dict (h.size + 1 + 1)))
    exact ⟨hrd, hrd2⟩
  refine ⟨fun ty => ?_, hleaf _, hreal, hleaf _, hleaf _, hleaf _, hleaf _, hleaf _,
    h.size + 1 + 1, hdict.1, hdict.2, fun key k hk => ?_⟩
  · cases ty with
    | PLIST_OBJECT_REAL => exact ⟨by simp [plist_object_new, alloc_snd], _, hreal, rfl⟩
    | PLIST_OBJECT_DICT => exact ⟨by simp [plist_object_new, alloc_snd], _, hdict.1, rfl⟩
    | PLIST_OBJECT_BOOLEAN => exact ⟨by simp [plist_object_new, alloc_snd], _, hleaf _, rfl⟩
    | PLIST_OBJECT_INTEGER => exact ⟨by simp [plist_object_new, alloc_snd], _, hleaf _, rfl⟩
    | PLIST_OBJECT_STRING => exact ⟨by simp [plist_object_new, alloc_snd], _, hleaf _, rfl⟩
    | PLIST_OBJECT_DATE => exact ⟨by simp [plist_object_new, alloc_snd], _, hleaf _, rfl⟩
    | PLIST_OBJECT_ARRAY => exact ⟨by simp [plist_object_new, alloc_snd], _, hleaf _, rfl⟩
    | PLIST_OBJECT_DATA => exact ⟨by simp [plist_object_new, alloc_snd], _, hleaf _, rfl⟩
  · simp [g_hash_table_lookup, hdict.2, hk]

/-- C20: `plist_object_copy` of `NULL` returns `NULL` and leaves the heap as it
is (nothing is allocated); of a non-null node that is the root of a well-formed
tree it returns a non-null node, given fuel for the depth of the tree. -/
theorem copy_null_and_non_null (n fuel : Nat) (h : Heap) (p : Nat) (t : PlistTree) :
    plist_object_copy (fuel + 1) h 0 = some (h, 0) ∧
    (tree_of n h p = some t → n ≤ fuel →
      p ≠ 0 ∧ ∃ h2 q, plist_object_copy fuel h p = some (h2, q) ∧ q ≠ 0) := by
  refine ⟨by simp [plist_object_copy], fun hT hfuel => ?_⟩
  have hT2 := tree_of_le h hfuel p t hT
  obtain ⟨h2, q, hc, _, hq, _, _⟩ := copy_spec fuel h p t hT2
  refine ⟨?_, h2, q, hc, by omega⟩
  rintro rfl
  cases n with
  | zero => simp [tree_of] at hT
  | succ n => simp [tree_of, read_zero] at hT

/-- Witness for C20: `NULL` and the root of the documentation's example. -/
theorem copy_null_and_non_null_witness :
    plist_object_copy 4 docExample 0 = some (docExample, 0) ∧
      (16 ≠ 0 ∧ ∃ h2 q, plist_object_copy 3 docExample 16 = some (h2, q) ∧ q ≠ 0) :=
  ⟨(copy_null_and_non_null 3 3 docExample 16 docTree).1,
    (copy_null_and_non_null 3 3 docExample 16 docTree).2 rfl (Nat.le_refl 3)⟩

/-! ## `set_array` and `set_dict`: the claims -/

theorem collect_length {α β : Type} {f : α → Option β} :
    ∀ (l : List α) (bs : List β), collect f l = some bs → bs.length = l.length := by
  intro l
  induction l with
  | nil => intro bs hc; simp [collect] at hc; simp [hc]
  | cons a as ih =>
    intro bs hc
    obtain ⟨b, bs2, _, hbs, rfl⟩ := collect_cons_eq_some hc
    simp [ih bs2 hbs]

theorem collect_mem_some {α β : Type} {f : α → Option β} :
    ∀ (l : List α) (bs : List β), collect f l = some bs → ∀ a ∈ l, ∃ b, f a = some b := by
  intro l
  induction l with
  | nil => intro bs _ a ha; simp at ha
  | cons x xs ih =>
    intro bs hc a ha
    obtain ⟨b, bs2, hb, hbs, _⟩ := collect_cons_eq_some hc
    rcases List.mem_cons.mp ha with rfl | hmem
    · exact ⟨b, hb⟩
    · exact ih bs2 hbs a hmem

theorem guard_zero (h : Heap) : Guard 0 h :=
  ⟨Nat.zero_le _, fun _ _ _ _ x _ => by omega⟩

theorem ne_zero_of_tree_of {n : Nat} {h : Heap} {p : Nat} {t : PlistTree}
    (hT : tree_of n h p = some t) : p ≠ 0 := by
  rintro rfl
  cases n with
  | zero => simp [tree_of] at hT
  | succ n => simp [tree_of, read_zero] at hT

/-- C17 fails when the list handed to `set_array` holds the node's own elements
(the list `get_array` returns): the elements are freed before they are copied,
so the copy reads freed nodes, which is undefined. -/
theorem set_array_own_elements_counterexample :
    plist_object_get_array sampleHeap 9 = some [3] ∧
      sampleHeap.read 3 = some (.object (.integer 5)) ∧
      plist_object_set_array 5 sampleHeap 9 [3] = none := by
  decide

/-- C17 as amended: on an Array node whose previous elements can be freed
(leaving the heap `h1`, in which the node is still there), and for a list `L`
(possibly empty) of nodes that are still well-formed trees, of values `ts`,
once the previous elements are freed and the node's list is emptied,
`set_array` goes through; the node's list then has the length of `L`, its
elements are trees of the same values `ts` in the same order, and every
element is at an address that held no block before the call, so none of the
previous elements is among them. -/
theorem set_array_then_get (fuel : Nat) (h h1 : Heap) (object : Nat) (old L : List Nat)
    (ts : List PlistTree)
    (hr : h.read object = some (.object (.array old)))
    (hfree : old.foldlM (fun hh e => plist_object_free fuel hh e) h = some h1)
    (hlive : h1.read object = some (.object (.array old)))
    (hL : collect (tree_of fuel (h1.write object (.object (.array [])))) L = some ts) :
    ∃ h2 qs, plist_object_set_array fuel h object L = some h2 ∧
      plist_object_get_array h2 object = some qs ∧ qs.length = L.length ∧
      collect (tree_of fuel h2) qs = some ts ∧
      (∀ q ∈ qs, h.size < q ∧ h.read q = none) := by
  have h0 : object ≠ 0 := ne_zero_of_read hr
  have hle1 : object ≤ h1.size := le_size_of_read hlive
  have hsz : h.size ≤ h1.size :=
    (keeps_foldlM (fun hh e => plist_object_free fuel hh e) (fun x => x = 0 ∨ 0 < x)
      (fun hh x hh2 hgg hx hfx => free_keeps fuel hh x hh2 hgg hx hfx)
      old h h1 (guard_zero h) (fun x _ => by omega) hfree).2.1
  obtain ⟨hs2, qs, hfold, hsb2, hel⟩ := copy_elements (copy_spec fuel)
    (h1.write object (.object (.array []))) L ts (h1.write object (.object (.array []))) []
    (sameBelow_refl _) hL
  have hle2 := hsb2.1
  rw [size_write] at hle2 hel
  have hag : AgreeOn h1.size hs2.size hs2 (hs2.write object (.object (.array qs))) :=
    fun a hlo _ => read_write_of_ne _ _ (by omega)
  obtain ⟨hcol, _⟩ := hel _ hag
  obtain ⟨_, hout⟩ := copy_elements_keeps (copy_keeps fuel) L
    (h1.write object (.object (.array []))) [] hs2 (qs.reverse ++ [])
    (by have := guard_of_size (h1.write object (.object (.array []))); exact this)
    (ptrsAbove_nil _) hfold
  rw [size_write] at hout
  refine ⟨hs2.write object (.object (.array qs)), qs, ?_, ?_, ?_, hcol, fun q hq => ?_⟩
  · simp only [plist_object_set_array, h0, if_false, hr, hfree, Option.some_bind, hfold,
      Option.map_some', g_list_reverse, List.append_nil, List.reverse_reverse]
  · simp [plist_object_get_array, h0, read_write_self _ h0 (show object ≤ hs2.size by omega)]
  · rw [← collect_length L ts hL, ← collect_length qs ts hcol]
  · obtain ⟨t, ht⟩ := collect_mem_some qs ts hcol q hq
    have hq0 : q ≠ 0 := ne_zero_of_tree_of ht
    have hlt : h.size < q := by
      rcases hout q (by simpa using hq) with hz | hlt
      · exact absurd hz hq0
      · omega
    exact ⟨hlt, read_of_size_lt hlt⟩

/-- Witness for C17 as amended: the Array node of the sample heap (its element
is the Integer node at 3) is given the list that holds the Real node, and the
empty list. -/
theorem set_array_then_get_witness :
    (∃ h2 qs, plist_object_set_array 5 sampleHeap 9 [2] = some h2 ∧
      plist_object_get_array h2 9 = some qs ∧ qs.length = [2].length ∧
      collect (tree_of 5 h2) qs = some [.real 7] ∧
      (∀ q ∈ qs, sampleHeap.size < q ∧ sampleHeap.read q = none)) ∧
    (∃ h2 qs, plist_object_set_array 5 sampleHeap 9 [] = some h2 ∧
      plist_object_get_array h2 9 = some qs ∧ qs.length = ([] : List Nat).length ∧
      collect (tree_of 5 h2) qs = some [] ∧
      (∀ q ∈ qs, sampleHeap.size < q ∧ sampleHeap.read q = none)) :=
  ⟨set_array_then_get 5 sampleHeap (sampleHeap.dealloc 3) 9 [3] [2] [.real 7]
      (by decide) (by decide) (by decide) rfl,
    set_array_then_get 5 sampleHeap (sampleHeap.dealloc 3) 9 [3] [] []
      (by decide) (by decide) (by decide) rfl⟩

/-- The copies of the entries of a mapping, made one after the other and
inserted into an existing table `nt`, when the values of the entries are
well-formed trees that do not go through `nt`. -/
theorem copy_entries_into {n : Nat} (ih : CopySpec n) (h0 : Heap) (nt : Nat) (hnt0 : nt ≠ 0) :
    ∀ (es : List (String × Nat)) (ts : List (String × PlistTree)) (hs : Heap)
      (done : List (String × Nat)),
      (∀ hx : Heap, (∀ a c, h0.read a = some c → a ≠ nt → hx.read a = some c) →
        collect (fun e => (tree_of n hx e.2).map fun t => (e.1, t)) es = some ts) →
      (∀ a c, h0.read a = some c → a ≠ nt → hs.read a = some c) → nt ≤ hs.size →
      hs.read nt = some (.table done) →
      (∀ e ∈ es, e.1 ∉ done.map Prod.fst) → (es.map Prod.fst).Nodup →
      ∃ hs2 ne, es.foldlM (insert_copied_key_and_value (plist_object_copy n)
            (plist_object_free n) nt) hs = some hs2 ∧
        hs2.read nt = some (.table (done ++ ne)) ∧ ne.map Prod.fst = es.map Prod.fst ∧
        hs.size ≤ hs2.size ∧ (∀ a, a ≤ hs.size → a ≠ nt → hs2.read a = hs.read a) ∧
        EntriesWithin n hs.size hs2.size hs2 ne ts := by
  intro es
  induction es with
  | nil =>
    intro ts hs done hsrc hpres _ hread _ _
    have hc := hsrc hs hpres
    simp [collect] at hc
    subst hc
    refine ⟨hs, [], by simp [foldlM_nil_option], by simpa using hread, rfl, Nat.le_refl _,
      fun _ _ _ => rfl, fun h2 _ => ?_⟩
    exact ⟨by simp [collect], h2, by simp [foldlM_nil_option], fun _ _ => rfl⟩
  | cons e es ihl =>
    intro ts hs done hsrc hpres hsize hread hfresh hnodup
    obtain ⟨b, ts2, hb, hts, rfl⟩ := collect_cons_eq_some (hsrc hs hpres)
    obtain ⟨k, v⟩ := e
    simp only at hb
    cases htv : tree_of n hs v with
    | none => simp [htv] at hb
    | some t =>
      simp only [htv, Option.map_some', Option.some.injEq] at hb
      subst hb
      have hsrc2 : ∀ hx : Heap, (∀ a c, h0.read a = some c → a ≠ nt → hx.read a = some c) →
          collect (fun e => (tree_of n hx e.2).map fun t => (e.1, t)) es = some ts2 := by
        intro hx hpx
        obtain ⟨b2, ts3, _, hts3, heq⟩ := collect_cons_eq_some (hsrc hx hpx)
        rw [hts3]
        simp only [List.cons.injEq] at heq
        rw [heq.2]
      obtain ⟨h1, q, hcopy, hsb1, _, _, hown⟩ := ih hs v t htv
      have hread1 : h1.read nt = some (.table done) := by rw [hsb1.2 nt hsize]; exact hread
      have hk : done.lookup k = none :=
        lookup_none_of_not_key (hfresh (k, v) (by simp))
      have hle1 := hsb1.1
      simp only [List.map_cons, List.nodup_cons] at hnodup
      obtain ⟨hs2, ne, hfold, hread2, hkeys, hsize2, hframe, hent⟩ :=
        ihl ts2 (h1.write nt (.table (done ++ [(k, q)]))) (done ++ [(k, q)]) hsrc2
          (fun a c ha hane => by
            have hsa := hpres a c ha hane
            rw [read_write_of_ne h1 _ hane, hsb1.2 a (le_size_of_read hsa)]
            exact hsa)
          (by rw [size_write]; omega)
          (read_write_self _ hnt0 (by omega))
          (fun e2 he2 => by
            simp only [List.map_append, List.map_cons, List.map_nil, List.mem_append,
              List.mem_singleton, not_or]
            refine ⟨hfresh e2 (by simp [he2]), fun heq => hnodup.1 ?_⟩
            rw [← heq]
            exact List.mem_map_of_mem Prod.fst he2)
          hnodup.2
      rw [size_write] at hsize2 hframe hent
      refine ⟨hs2, (k, q) :: ne, ?_, by simpa using hread2, by simp [hkeys], by omega,
        fun a ha hane => ?_, ?_⟩
      · rw [foldlM_cons_option]
        simp only [insert_copied_key_and_value, hcopy, Option.some_bind, g_hash_table_insert,
          hread1, hk]
        exact hfold
      · rw [hframe a (by omega) hane, read_write_of_ne h1 _ hane, hsb1.2 a ha]
      · intro h2 hag
        have hag1 : AgreeOn hs.size h1.size h1 h2 := fun a hlo hhi => by
          rw [hag a hlo (by omega), hframe a hhi (by omega), read_write_of_ne h1 _ (by omega)]
        obtain ⟨htq, h3, hfree, hfr⟩ := hown h2 hag1
        have hag2 : AgreeOn h1.size hs2.size hs2 h2 := fun a hlo hhi =>
          hag a (by omega) hhi
        obtain ⟨hcol, _⟩ := hent h2 hag2
        have hag3 : AgreeOn h1.size hs2.size hs2 h3 := fun a hlo hhi => by
          rw [hfr a (Or.inr hlo)]; exact hag2 a hlo hhi
        obtain ⟨_, h4, hfree2, hfr2⟩ := hent h3 hag3
        refine ⟨collect_cons_of_some (by simp [htq]) hcol, h4, ?_, fun a ha => ?_⟩
        · rw [foldlM_cons_option]
          simp only [hfree, Option.some_bind]
          exact hfree2
        · rw [hfr2 a (by omega), hfr a (by omega)]

/-- C18 fails when the mapping handed to `set_dict` is the node's own table
(the table `get_dict` returns): the entries are removed before anything is
copied, so the node ends with no entry instead of the keys the mapping had. -/
theorem set_dict_own_table_counterexample :
    plist_object_get_dict sampleHeap 11 = some 10 ∧
      sampleHeap.read 10 = some (.table [("k", 1)]) ∧
      (plist_object_set_dict 5 sampleHeap 11 10).map (fun h2 => h2.read 10)
        = some (some (.table [])) := by
  decide

/-- C18 as amended: on a Dict node whose previous entries can be removed
(leaving the heap `h1`, in which the node and its emptied table are still
there), and for a non-null mapping `M` that in `h1` still has the entries `es`,
with pairwise distinct keys and values that are well-formed trees (of values
`ts`) which do not go through the node's table, `set_dict` goes through; the
node's table then has exactly the keys of `es`, in entries `ne`, each mapped to
a tree of the same value as in `es`. -/
theorem set_dict_then_get (fuel : Nat) (h h1 : Heap) (object own val : Nat)
    (es : List (String × Nat)) (ts : List (String × PlistTree))
    (hr : h.read object = some (.object (.dict own)))
    (hrem : g_hash_table_remove_all (plist_object_free fuel) h own = some h1)
    (hlive : h1.read object = some (.object (.dict own)))
    (hown : h1.read own = some (.table []))
    (hval0 : val ≠ 0) (hM : h1.read val = some (.table es))
    (hnd : (es.map Prod.fst).Nodup)
    (hsrc : collect (fun e => (tree_of fuel (h1.dealloc own) e.2).map fun t => (e.1, t)) es
      = some ts) :
    ∃ h2 ne, plist_object_set_dict fuel h object val = some h2 ∧
      plist_object_get_dict h2 object = some own ∧
      h2.read own = some (.table ne) ∧ ne.map Prod.fst = es.map Prod.fst ∧
      collect (fun e => (tree_of fuel h2 e.2).map fun t => (e.1, t)) ne = some ts := by
  have h0 : object ≠ 0 := ne_zero_of_read hr
  have hown0 : own ≠ 0 := ne_zero_of_read hown
  have hoo : object ≠ own := by
    rintro rfl
    rw [hlive] at hown
    cases hown
  obtain ⟨hs2, ne, hfold, hread2, hkeys, _, hframe, hent⟩ :=
    copy_entries_into (copy_spec fuel) (h1.dealloc own) own hown0 es ts h1 []
      (fun hx hpx => collect_mono es ts
        (fun e _ b hb => map_eq_some_of_imp
          (fun t1 ht1 => tree_of_preserved
            (fun a c ha => hpx a c ha (read_dealloc_some ha).2) fuel e.2 t1 ht1) hb) hsrc)
      (fun a c ha _ => (read_dealloc_some ha).1)
      (le_size_of_read hown) hown (by simp) hnd
  refine ⟨hs2, ne, ?_, ?_, by simpa using hread2, hkeys, (hent hs2 (agreeOn_refl _ _ hs2)).1⟩
  · simp only [plist_object_set_dict, h0, hval0, if_false, hr, hrem, Option.some_bind, hM]
    exact hfold
  · have hro : hs2.read object = some (.object (.dict own)) := by
      rw [hframe object (le_size_of_read hlive) hoo]; exact hlive
    simp [plist_object_get_dict, h0, hro]

/-- Witness for C18 as amended: the Dict node of the sample heap (its table
maps "k" to the Boolean node) is given the caller's table, which maps "x" to
the Date node. -/
theorem set_dict_then_get_witness :
    ∃ h2 ne, plist_object_set_dict 5 sampleHeap 11 14 = some h2 ∧
      plist_object_get_dict h2 11 = some 10 ∧
      h2.read 10 = some (.table ne) ∧ ne.map Prod.fst = [("x", 6)].map Prod.fst ∧
      collect (fun e => (tree_of 5 h2 e.2).map fun t => (e.1, t)) ne
        = some [("x", .date ⟨10, 20⟩)] :=
  set_dict_then_get 5 sampleHeap ((sampleHeap.write 10 (.table [])).dealloc 1) 11 10 14
    [("x", 6)] [("x", .date ⟨10, 20⟩)] (by decide) (by decide) (by decide) (by decide)
    (by decide) (by decide) (by decide) rfl

/-! ## Behaviour of the accessors at the edges: the claims -/

/-- C27: with a non-null length output that holds `l`, `get_data` on a node
whose tag is not Data returns `NULL` and leaves the output at `l` (it is not
set to 0); on a Data node it returns the buffer and writes the node's length to
the output. -/
theorem get_data_length_output (h : Heap) (object : Nat) (o : PlistObject) (l : Nat)
    (hr : h.read object = some (.object o)) :
    (o.type ≠ .PLIST_OBJECT_DATA →
      plist_object_get_data h object (some l) = some (0, some l)) ∧
    (∀ val len, o = .data val len →
      plist_object_get_data h object (some l) = some (val, some len)) := by
  have h0 : object ≠ 0 := ne_zero_of_read hr
  refine ⟨fun hty => ?_, fun val len ho => ?_⟩
  · cases o <;> simp_all [plist_object_get_data, PlistObject.type]
  · subst ho
    simp [plist_object_get_data, h0, hr]

/-- Witness for C27: the Integer node and the Data node of the sample heap,
with a length variable that holds 99. -/
theorem get_data_length_output_witness :
    plist_object_get_data sampleHeap 3 (some 99) = some (0, some 99) ∧
      plist_object_get_data sampleHeap 8 (some 99) = some (7, some 3) :=
  ⟨(get_data_length_output sampleHeap 3 (.integer 5) 99 (by decide)).1 (by decide),
    (get_data_length_output sampleHeap 8 (.data 7 3) 99 (by decide)).2 7 3 rfl⟩

/-- C28: `set_string` with a null text and `set_dict` with a null mapping are
rejected on every node, whatever its tag: the heap after the call is the heap
before it, so a String node keeps its text and a Dict node its entries.
`set_array` with the empty (null) list on an Array node whose elements can be
freed is accepted and leaves the node with no elements. -/
theorem null_argument_setters (fuel : Nat) (h h1 : Heap) (object : Nat) (old : List Nat)
    (hr : h.read object = some (.object (.array old)))
    (hfree : old.foldlM (fun hh e => plist_object_free fuel hh e) h = some h1) :
    (∀ node, plist_object_set_string h node 0 = some h ∧
      plist_object_set_dict fuel h node 0 = some h) ∧
    plist_object_set_array fuel h object [] = some (h1.write object (.object (.array []))) ∧
    plist_object_get_array (h1.write object (.object (.array []))) object = some [] := by
  have h0 : object ≠ 0 := ne_zero_of_read hr
  have hsz : h.size ≤ h1.size :=
    (keeps_foldlM (fun hh e => plist_object_free fuel hh e) (fun x => x = 0 ∨ 0 < x)
      (fun hh x hh2 hgg hx hfx => free_keeps fuel hh x hh2 hgg hx hfx)
      old h h1 (guard_zero h) (fun x _ => by omega) hfree).2.1
  have hle : object ≤ h1.size := Nat.le_trans (le_size_of_read hr) hsz
  refine ⟨fun node => ?_, ?_, ?_⟩
  · constructor
    · by_cases hn : node = 0 <;> simp [plist_object_set_string, hn]
    · by_cases hn : node = 0 <;> simp [plist_object_set_dict, hn]
  · simp [plist_object_set_array, h0, hr, hfree, foldlM_nil_option, g_list_reverse,
      write_write]
  · simp [plist_object_get_array, h0, read_write_self _ h0 hle]

/-- Witness for C28: the String node (5), the Dict node (11) and the Array
node (9) of the sample heap. -/
theorem null_argument_setters_witness :
    (plist_object_set_string sampleHeap 5 0 = some sampleHeap ∧
      plist_object_set_dict 5 sampleHeap 5 0 = some sampleHeap) ∧
    (plist_object_set_string sampleHeap 11 0 = some sampleHeap ∧
      plist_object_set_dict 5 sampleHeap 11 0 = some sampleHeap) ∧
    plist_object_set_array 5 sampleHeap 9 []
      = some ((sampleHeap.dealloc 3).write 9 (.object (.array []))) ∧
    plist_object_get_array ((sampleHeap.dealloc 3).write 9 (.object (.array []))) 9
      = some [] :=
  ⟨(null_argument_setters 5 sampleHeap (sampleHeap.dealloc 3) 9 [3] (by decide)
      (by decide)).1 5,
    (null_argument_setters 5 sampleHeap (sampleHeap.dealloc 3) 9 [3] (by decide)
      (by decide)).1 11,
    (null_argument_setters 5 sampleHeap (sampleHeap.dealloc 3) 9 [3] (by decide)
      (by decide)).2⟩

/-! ## Lookup over a concatenated path and in a copy: the claims -/

/-- The loop over `p` followed by more arguments is the loop over `p`, ended by
the terminator, followed by a lookup of the remaining arguments from where it
stopped. -/
theorem lookup_loop_compose (h : Heap) {term : Nat} (hterm : isTerminator term = true)
    (r : Nat) (rest : List Nat) :
    ∀ (p : List Nat) (root : Nat), (∀ a ∈ p, isTerminator a = false) → root ≠ 0 →
      lookup_loop h root (p ++ r :: rest)
        = (lookup_loop h root (p ++ [term])).bind
            fun d => plist_object_lookup h d (r :: rest) := by
  intro p
  induction p with
  | nil =>
    intro root _ hroot
    simp [lookup_loop, hterm, plist_object_lookup, hroot]
  | cons a p ih =>
    intro root hp hroot
    have ha : isTerminator a = false := hp a (by simp)
    have hp2 : ∀ b ∈ p, isTerminator b = false := fun b hb => hp b (by simp [hb])
    simp only [List.cons_append, lookup_loop, ha]
    cases hr : h.read root with
    | none => simp
    | some c =>
      cases c with
      | object o =>
        cases o with
        | dict val =>
          simp only
          cases hl : g_hash_table_lookup h val a with
          | none => simp
          | some next =>
            simp only
            by_cases hn : next = 0
            · simp [hn, plist_object_lookup]
            · simp only [hn, if_false]
              exact ih next hp2 hn
        | array val =>
          simp only
          by_cases hn : g_list_nth_data val (GPOINTER_TO_UINT a) = 0
          · simp [hn, plist_object_lookup]
          · simp only [hn, if_false]
            exact ih _ hp2 hn
        | _ =>
          simp only [Bool.false_eq_true, if_false, Option.some_bind]
          by_cases hrt : isTerminator r = true
          · simp [plist_object_lookup, hroot, lookup_loop, hrt]
          · simp [plist_object_lookup, hroot, lookup_loop, hrt, hr]
      | _ => simp

/-- C22: for a path `p` (none of its segments the terminator) followed by a
path `q`, the lookup of `p ++ q` from a root is the lookup of `q` from the
result of the lookup of `p`; a lookup from `NULL` is `NULL`, and the empty path
returns the root. -/
theorem lookup_composes (h : Heap) (root : Nat) (p q : List Nat) (term : Nat)
    (tail : List Nat) (hp : ∀ a ∈ p, isTerminator a = false)
    (hterm : isTerminator term = true) :
    plist_object_lookup h root (p ++ q ++ term :: tail)
        = (plist_object_lookup h root (p ++ [term])).bind
            (fun d => plist_object_lookup h d (q ++ term :: tail)) ∧
      plist_object_lookup h 0 (q ++ term :: tail) = some 0 ∧
      plist_object_lookup h root (term :: tail) = some root := by
  refine ⟨?_, plist_object_lookup_null h _, plist_object_lookup_terminator h root hterm tail⟩
  by_cases hroot : root = 0
  · subst hroot
    simp [plist_object_lookup]
  · rw [plist_object_lookup_ne_null hroot, plist_object_lookup_ne_null hroot, List.append_assoc]
    cases q with
    | nil => exact lookup_loop_compose h hterm term tail p root hp hroot
    | cons r q2 => exact lookup_loop_compose h hterm r (q2 ++ term :: tail) p root hp hroot

/-- Witness for C22: on the documentation's example the path "Dict", "Integer"
is the path "Dict" followed by the path "Integer". -/
theorem lookup_composes_witness :
    plist_object_lookup docExample 16 ([2] ++ [3] ++ (2 ^ 32 - 1) :: [])
        = (plist_object_lookup docExample 16 ([2] ++ [2 ^ 32 - 1])).bind
            (fun d => plist_object_lookup docExample d ([3] ++ (2 ^ 32 - 1) :: [])) ∧
      plist_object_lookup docExample 0 ([3] ++ (2 ^ 32 - 1) :: []) = some 0 ∧
      plist_object_lookup docExample 16 ((2 ^ 32 - 1) :: []) = some 16 :=
  lookup_composes docExample 16 [2] [3] (2 ^ 32 - 1) [] (by decide) (by decide)

/-! ## More fuel changes no result -/

theorem foldlM_mono {σ α : Type} {f g : σ → α → Option σ}
    (hfg : ∀ s a s2, f s a = some s2 → g s a = some s2) :
    ∀ (l : List α) (s r : σ), l.foldlM f s = some r → l.foldlM g s = some r := by
  intro l
  induction l with
  | nil => intro s r hf; simpa [foldlM_nil_option] using hf
  | cons a as ih =>
    intro s r hf
    rw [foldlM_cons_option] at hf ⊢
    cases h1 : f s a with
    | none => simp [h1] at hf
    | some s1 =>
      simp only [h1, Option.some_bind] at hf
      simp only [hfg s a s1 h1, Option.some_bind]
      exact ih s1 r hf

theorem destroy_mono {d1 d2 : Heap → Nat → Option Heap}
    (hd : ∀ h p h2, d1 h p = some h2 → d2 h p = some h2) (h : Heap) (t : Nat) (r : Heap)
    (hf : g_hash_table_destroy d1 h t = some r) : g_hash_table_destroy d2 h t = some r := by
  unfold g_hash_table_destroy at hf ⊢
  cases ht : h.read t with
  | none => simp [ht] at hf
  | some c =>
    cases c with
    | table es =>
      simp only [ht] at hf ⊢
      cases h1 : es.foldlM (fun hh e => d1 hh e.2) h with
      | none => simp [h1] at hf
      | some hm =>
        simp only [h1, Option.some_bind] at hf
        have h2 := foldlM_mono (f := fun hh (e : String × Nat) => d1 hh e.2)
          (g := fun hh (e : String × Nat) => d2 hh e.2)
          (fun s a s2 hs => hd s a.2 s2 hs) es h hm h1
        simp only [h2, Option.some_bind]
        exact hf
    | _ => simp [ht] at hf

theorem insert_mono {d1 d2 : Heap → Nat → Option Heap}
    (hd : ∀ h p h2, d1 h p = some h2 → d2 h p = some h2) (h : Heap) (t : Nat) (k : String)
    (v : Nat) (r : Heap) (hf : g_hash_table_insert d1 h t k v = some r) :
    g_hash_table_insert d2 h t k v = some r := by
  unfold g_hash_table_insert at hf ⊢
  cases ht : h.read t with
  | none => simp [ht] at hf
  | some c =>
    cases c with
    | table es =>
      simp only [ht] at hf ⊢
      cases hl : es.lookup k with
      | none => simpa [hl] using hf
      | some old =>
        simp only [hl] at hf ⊢
        exact hd _ _ _ hf
    | _ => simp [ht] at hf

/-- What `plist_object_free` returns with some fuel it returns with more. -/
theorem free_succ :
    ∀ (n : Nat) (h : Heap) (p : Nat) (h2 : Heap), plist_object_free n h p = some h2 →
      plist_object_free (n + 1) h p = some h2 := by
  intro n
  induction n with
  | zero => intro h p h2 hf; simp [plist_object_free] at hf
  | succ n ih =>
    intro h p h2 hf
    rw [plist_object_free] at hf ⊢
    by_cases h0 : p = 0
    · simpa [h0] using hf
    · simp only [h0, if_false] at hf ⊢
      cases hr : h.read p with
      | none => simp [hr] at hf
      | some c =>
        cases c with
        | object o =>
          simp only [hr] at hf ⊢
          cases o with
          | array val =>
            simp only at hf ⊢
            cases h1 : val.foldlM (fun hh e => plist_object_free n hh e) h with
            | none => simp [h1] at hf
            | some hm =>
              simp only [h1, Option.some_bind] at hf
              have h2 := foldlM_mono (f := fun hh e => plist_object_free n hh e)
                (g := fun hh e => plist_object_free (n + 1) hh e)
                (fun s a s2 hs => ih s a s2 hs) val h hm h1
              simp only [h2, Option.some_bind]
              exact hf
          | dict val =>
            simp only at hf ⊢
            cases h1 : g_hash_table_destroy (plist_object_free n) h val with
            | none => simp [h1] at hf
            | some hm =>
              simp only [h1, Option.some_bind] at hf
              have h2 : g_hash_table_destroy (plist_object_free (n + 1)) h val = some hm :=
                destroy_mono ih h val hm h1
              simp only [h2, Option.some_bind]
              exact hf
          | _ => exact hf
        | _ => simp [hr] at hf

/-- What `plist_object_copy` returns with some fuel it returns with more. -/
theorem copy_succ :
    ∀ (n : Nat) (h : Heap) (p : Nat) (r : Heap × Nat), plist_object_copy n h p = some r →
      plist_object_copy (n + 1) h p = some r := by
  intro n
  induction n with
  | zero => intro h p r hc; simp [plist_object_copy] at hc
  | succ n ih =>
    intro h p r hc
    rw [plist_object_copy] at hc ⊢
    by_cases h0 : p = 0
    · simpa [h0] using hc
    · simp only [h0, if_false] at hc ⊢
      cases hr : h.read p with
      | none => simp [hr] at hc
      | some c =>
        cases c with
        | object o =>
          simp only [hr] at hc ⊢
          cases o with
          | array val =>
            simp only at hc ⊢
            cases h1 : val.foldlM (insert_copied_element (plist_object_copy n))
                ((plist_object_new h (PlistObject.array val).type).1, []) with
            | none => simp [h1] at hc
            | some s =>
              simp only [h1, Option.map_some'] at hc
              have h2 := foldlM_mono (f := insert_copied_element (plist_object_copy n))
                (g := insert_copied_element (plist_object_copy (n + 1)))
                (fun s a s2 hs => by
                  unfold insert_copied_element at hs ⊢
                  cases hcp : plist_object_copy n s.1 a with
                  | none => simp [hcp] at hs
                  | some r2 =>
                    rw [ih s.1 a r2 hcp]
                    simpa [hcp] using hs) val _ s h1
              simp only [h2, Option.map_some']
              exact hc
          | dict val =>
            simp only at hc ⊢
            cases hrv : (plist_object_new h (PlistObject.dict val).type).1.read val with
            | none => simp [hrv] at hc
            | some c2 =>
              cases hrr : (plist_object_new h (PlistObject.dict val).type).1.read
                  (plist_object_new h (PlistObject.dict val).type).2 with
              | none => cases c2 <;> simp [hrv, hrr] at hc
              | some c3 =>
                cases c2 with
                | table es =>
                  cases c3 with
                  | object o2 =>
                    cases o2 with
                    | dict nd =>
                      simp only [hrv, hrr] at hc ⊢
                      cases h1 : es.foldlM (insert_copied_key_and_value (plist_object_copy n)
                          (plist_object_free n) nd)
                          (plist_object_new h (PlistObject.dict val).type).1 with
                      | none => simp [h1] at hc
                      | some hm =>
                        simp only [h1, Option.map_some'] at hc
                        have h2 := foldlM_mono
                          (f := insert_copied_key_and_value (plist_object_copy n)
                            (plist_object_free n) nd)
                          (g := insert_copied_key_and_value (plist_object_copy (n + 1))
                            (plist_object_free (n + 1)) nd)
                          (fun s a s2 hs => by
                            unfold insert_copied_key_and_value at hs ⊢
                            cases hcp : plist_object_copy n s a.2 with
                            | none => simp [hcp] at hs
                            | some r2 =>
                              rw [ih s a.2 r2 hcp]
                              simp only [hcp, Option.some_bind] at hs ⊢
                              exact insert_mono (free_succ n) _ _ _ _ _ hs) es _ hm h1
                        simp only [h2, Option.map_some']
                        exact hc
                    | _ => simp [hrv, hrr] at hc
                  | _ => simp [hrv, hrr] at hc
                | _ => simp [hrv, hrr] at hc
          | _ => exact hc
        | _ => simp [hr] at hc

theorem copy_le {n m : Nat} (hnm : n ≤ m) (h : Heap) (p : Nat) (r : Heap × Nat)
    (hc : plist_object_copy n h p = some r) : plist_object_copy m h p = some r := by
  induction hnm with
  | refl => exact hc
  | step _ ih => exact copy_succ _ h p r ih

/-- C25: on a well-formed finite tree (every node has one of the eight tags,
by the type of `PlistObject`, so the `default` branch does not exist)
`plist_object_copy` is total: with fuel for the depth of the tree the recursion
ends and returns a non-null node, and every larger amount of fuel gives the
same heap and the same node. -/
theorem copy_total (n : Nat) (h : Heap) (p : Nat) (t : PlistTree)
    (hT : tree_of n h p = some t) :
    ∃ h2 q, q ≠ 0 ∧ ∀ fuel, n ≤ fuel → plist_object_copy fuel h p = some (h2, q) := by
  obtain ⟨h2, q, hc, _, hq, _, _⟩ := copy_spec n h p t hT
  exact ⟨h2, q, by omega, fun fuel hfuel => copy_le hfuel h p (h2, q) hc⟩

/-- Witness for C25: the documentation's example, a tree of depth 3. -/
theorem copy_total_witness :
    ∃ h2 q, q ≠ 0 ∧ ∀ fuel, 3 ≤ fuel → plist_object_copy fuel docExample 16 = some (h2, q) :=
  copy_total 3 docExample 16 docTree rfl

/-! ## What an operation can do to the kind of a block -/

theorem sameKind_refl (c : Cell) : SameKind c c := by
  cases c <;> simp [SameKind]

theorem sameKind_trans {c1 c2 c3 : Cell} (h12 : SameKind c1 c2) (h23 : SameKind c2 c3) :
    SameKind c1 c3 := by
  cases c1 <;> cases c2 <;> cases c3 <;> simp_all [SameKind]

/-- A loop over a list stays within a reflexive and transitive relation that
each of its steps stays within. -/
theorem foldlM_rel {α : Type} (R : Heap → Heap → Prop) (hrefl : ∀ h, R h h)
    (htrans : ∀ a b c, R a b → R b c → R a c) (f : Heap → α → Option Heap)
    (hf : ∀ h x h2, f h x = some h2 → R h h2) :
    ∀ (l : List α) (h h2 : Heap), l.foldlM f h = some h2 → R h h2 := by
  intro l
  induction l with
  | nil =>
    intro h h2 hfold
    simp [foldlM_nil_option] at hfold
    subst hfold
    exact hrefl h
  | cons x xs ih =>
    intro h h2 hfold
    rw [foldlM_cons_option] at hfold
    cases h1 : f h x with
    | none => simp [h1] at hfold
    | some hm =>
      simp only [h1, Option.some_bind] at hfold
      exact htrans _ _ _ (hf h x hm h1) (ih hm h2 hfold)

theorem onlyFrees_refl (h : Heap) : OnlyFrees h h := ⟨rfl, fun _ _ hc => hc⟩

theorem onlyFrees_trans (h1 h2 h3 : Heap) (h12 : OnlyFrees h1 h2) (h23 : OnlyFrees h2 h3) :
    OnlyFrees h1 h3 :=
  ⟨by rw [h23.1, h12.1], fun a c hc => h12.2 a c (h23.2 a c hc)⟩

theorem onlyFrees_dealloc (h : Heap) (a : Nat) : OnlyFrees h (h.dealloc a) :=
  ⟨size_dealloc h a, fun _ _ hc => (read_dealloc_some hc).1⟩

theorem onlyFrees_g_free {h h2 : Heap} {p : Nat} (hf : g_free h p = some h2) :
    OnlyFrees h h2 := by
  unfold g_free at hf
  by_cases h0 : p = 0
  · simp [h0] at hf
    subst hf
    exact onlyFrees_refl h
  · simp only [h0, if_false] at hf
    cases hr : h.read p with
    | none => simp [hr] at hf
    | some c =>
      simp [hr] at hf
      subst hf
      exact onlyFrees_dealloc h p

/-- `plist_object_free` only releases blocks. -/
theorem free_only_frees :
    ∀ (n : Nat) (h : Heap) (p : Nat) (h2 : Heap), plist_object_free n h p = some h2 →
      OnlyFrees h h2 := by
  intro n
  induction n with
  | zero => intro h p h2 hf; simp [plist_object_free] at hf
  | succ n ih =>
    intro h p h2 hf
    simp only [plist_object_free] at hf
    by_cases h0 : p = 0
    · simp [h0] at hf
      subst hf
      exact onlyFrees_refl h
    · simp only [h0, if_false] at hf
      cases hr : h.read p with
      | none => simp [hr] at hf
      | some c =>
        cases c with
        | object o =>
          simp only [hr] at hf
          cases o with
          | string val =>
            simp only at hf
            cases h1 : g_free h val with
            | none => simp [h1] at hf
            | some hm =>
              simp only [h1, Option.some_bind] at hf
              exact onlyFrees_trans _ _ _ (onlyFrees_g_free h1) (onlyFrees_g_free hf)
          | data val length =>
            simp only at hf
            cases h1 : g_free h val with
            | none => simp [h1] at hf
            | some hm =>
              simp only [h1, Option.some_bind] at hf
              exact onlyFrees_trans _ _ _ (onlyFrees_g_free h1) (onlyFrees_g_free hf)
          | array val =>
            simp only at hf
            cases h1 : val.foldlM (fun hh e => plist_object_free n hh e) h with
            | none => simp [h1] at hf
            | some hm =>
              simp only [h1, Option.some_bind] at hf
              have hk := foldlM_rel OnlyFrees onlyFrees_refl onlyFrees_trans
                (fun hh e => plist_object_free n hh e) (fun hh x hh2 hfx => ih hh x hh2 hfx)
                val h hm h1
              exact onlyFrees_trans _ _ _ hk (onlyFrees_g_free hf)
          | dict val =>
            simp only [g_hash_table_destroy] at hf
            cases ht : h.read val with
            | none => simp [ht] at hf
            | some c2 =>
              cases c2 with
              | table es =>
                simp only [ht] at hf
                cases h1 : es.foldlM (fun hh e => plist_object_free n hh e.2) h with
                | none => simp [h1] at hf
                | some hm =>
                  simp only [h1, Option.some_bind] at hf
                  have hk := foldlM_rel OnlyFrees onlyFrees_refl onlyFrees_trans
                    (fun hh (e : String × Nat) => plist_object_free n hh e.2)
                    (fun hh x hh2 hfx => ih hh x.2 hh2 hfx) es h hm h1
                  cases h3 : g_free hm val with
                  | none => simp [h3] at hf
                  | some hm2 =>
                    simp only [h3, Option.some_bind] at hf
                    exact onlyFrees_trans _ _ _ hk (onlyFrees_trans _ _ _
                      (onlyFrees_g_free h3) (onlyFrees_g_free hf))
              | _ => simp [ht] at hf
          | _ =>
            simp only [Option.some_bind] at hf
            exact onlyFrees_g_free hf
        | _ => simp [hr] at hf

theorem evolves_refl (h : Heap) : Evolves h h :=
  ⟨Nat.le_refl _, fun _ c2 _ hc => ⟨c2, hc, sameKind_refl c2⟩⟩

theorem evolves_trans (h1 h2 h3 : Heap) (h12 : Evolves h1 h2) (h23 : Evolves h2 h3) :
    Evolves h1 h3 := by
  refine ⟨Nat.le_trans h12.1 h23.1, fun a c3 ha hc => ?_⟩
  obtain ⟨c2, hc2, hk2⟩ := h23.2 a c3 (Nat.le_trans ha h12.1) hc
  obtain ⟨c1, hc1, hk1⟩ := h12.2 a c2 ha hc2
  exact ⟨c1, hc1, sameKind_trans hk1 hk2⟩

theorem evolves_of_onlyFrees {h h2 : Heap} (hof : OnlyFrees h h2) : Evolves h h2 :=
  ⟨Nat.le_of_eq hof.1.symm, fun a c2 _ hc => ⟨c2, hof.2 a c2 hc, sameKind_refl c2⟩⟩

theorem evolves_of_keeps {h h2 : Heap} (hk : Keeps h.size h h2) : Evolves h h2 :=
  ⟨hk.2.1, fun a c2 ha hc => ⟨c2, by rw [← hk.2.2 a ha]; exact hc, sameKind_refl c2⟩⟩

theorem evolves_alloc (h : Heap) (c : Cell) : Evolves h (h.alloc c).1 :=
  ⟨by rw [size_alloc]; omega, fun a c2 ha hc =>
    ⟨c2, by rw [← read_alloc_of_ne h c (show a ≠ h.size + 1 by omega)]; exact hc,
      sameKind_refl c2⟩⟩

/-- Overwriting a block that held a block of the same kind at the start. -/
theorem evolves_write_orig {h h1 : Heap} (he : Evolves h h1) {a : Nat} {c c2 : Cell}
    (hc : h.read a = some c) (hk : SameKind c c2) : Evolves h (h1.write a c2) := by
  refine ⟨by rw [size_write]; exact he.1, fun x c3 hx hr => ?_⟩
  rcases read_write_some hr with ⟨rfl, rfl⟩ | ⟨_, hr2⟩
  · exact ⟨c, hc, hk⟩
  · exact he.2 x c3 hx hr2

theorem evolves_write_live {h : Heap} {a : Nat} {c c2 : Cell}
    (hc : h.read a = some c) (hk : SameKind c c2) : Evolves h (h.write a c2) :=
  evolves_write_orig (evolves_refl h) hc hk

theorem evolves_g_free {h h2 : Heap} {p : Nat} (hf : g_free h p = some h2) : Evolves h h2 :=
  evolves_of_onlyFrees (onlyFrees_g_free hf)

theorem free_evolves (n : Nat) (h : Heap) (p : Nat) (h2 : Heap)
    (hf : plist_object_free n h p = some h2) : Evolves h h2 :=
  evolves_of_onlyFrees (free_only_frees n h p h2 hf)

theorem copy_evolves (n : Nat) (h : Heap) (p : Nat) (r : Heap × Nat)
    (hc : plist_object_copy n h p = some r) : Evolves h r.1 :=
  evolves_of_keeps (copy_keeps n h p r.1 r.2 (guard_of_size h) hc).1

theorem copy_elements_evolves (n : Nat) (val : List Nat) (hs : Heap) (s : Heap × List Nat)
    (hf : val.foldlM (insert_copied_element (plist_object_copy n)) (hs, []) = some s) :
    Evolves hs s.1 :=
  evolves_of_keeps (copy_elements_keeps (copy_keeps n) val hs [] s.1 s.2 (guard_of_size hs)
    (ptrsAbove_nil _) hf).1

theorem insert_evolves {n : Nat} {h h2 : Heap} {t : Nat} {k : String} {v : Nat}
    (hi : g_hash_table_insert (plist_object_free n) h t k v = some h2) : Evolves h h2 := by
  unfold g_hash_table_insert at hi
  cases ht : h.read t with
  | none => simp [ht] at hi
  | some c =>
    cases c with
    | table es =>
      simp only [ht] at hi
      cases hl : es.lookup k with
      | none =>
        simp only [hl, Option.some.injEq] at hi
        subst hi
        exact evolves_write_live ht (by simp [SameKind])
      | some old =>
        simp only [hl] at hi
        exact evolves_trans _ _ _ (evolves_write_live ht (by simp [SameKind]))
          (free_evolves n _ old h2 hi)
    | _ => simp [ht] at hi

theorem insert_copied_evolves (n : Nat) (nd : Nat) (h : Heap) (e : String × Nat) (h2 : Heap)
    (hi : insert_copied_key_and_value (plist_object_copy n) (plist_object_free n) nd h e
      = some h2) : Evolves h h2 := by
  unfold insert_copied_key_and_value at hi
  cases hc : plist_object_copy n h e.2 with
  | none => simp [hc] at hi
  | some r =>
    simp only [hc, Option.some_bind] at hi
    exact evolves_trans _ _ _ (copy_evolves n h e.2 r hc) (insert_evolves hi)

theorem remove_all_evolves {n : Nat} {h h2 : Heap} {t : Nat}
    (hre : g_hash_table_remove_all (plist_object_free n) h t = some h2) : Evolves h h2 := by
  unfold g_hash_table_remove_all at hre
  cases hrd : h.read t with
  | none => simp [hrd] at hre
  | some c =>
    cases c with
    | table es =>
      simp only [hrd] at hre
      exact evolves_trans _ _ _ (evolves_write_live hrd (by simp [SameKind]))
        (foldlM_rel Evolves evolves_refl evolves_trans
          (fun hh (e : String × Nat) => plist_object_free n hh e.2)
          (fun hh x hh2 hfx => free_evolves n hh x.2 hh2 hfx) es _ h2 hre)
    | _ => simp [hrd] at hre

theorem strdup_evolves {h : Heap} {val : Nat} {s : Heap × Nat}
    (hs : g_strdup h val = some s) : Evolves h s.1 := by
  unfold g_strdup at hs
  by_cases hv : val = 0
  · simp [hv] at hs
    subst hs
    exact evolves_refl h
  · simp only [hv, if_false] at hs
    cases hrv : h.read val with
    | none => simp [hrv] at hs
    | some c2 =>
      cases c2 with
      | chars cs =>
        simp [hrv] at hs
        subst hs
        exact evolves_alloc h _
      | _ => simp [hrv] at hs

theorem memcpy_evolves {h h2 : Heap} {dst src n : Nat}
    (hcp : memcpy h dst src n = some h2) : Evolves h h2 := by
  unfold memcpy at hcp
  by_cases hl : n = 0
  · simp [hl] at hcp
    subst hcp
    exact evolves_refl h
  · simp only [hl, if_false] at hcp
    cases hd : h.read dst with
    | none => simp [hd] at hcp
    | some cd =>
      cases hsrc : h.read src with
      | none => cases cd <;> simp [hd, hsrc] at hcp
      | some cs =>
        cases cd with
        | bytes d =>
          cases cs with
          | bytes sb =>
            simp only [hd, hsrc] at hcp
            by_cases hlen : n ≤ d.length ∧ n ≤ sb.length
            · simp only [hlen, and_self, if_true, Option.some.injEq] at hcp
              subst hcp
              exact evolves_write_live hd (by simp [SameKind])
            · simp [hlen] at hcp
          | _ => simp [hd, hsrc] at hcp
        | _ => simp [hd, hsrc] at hcp

theorem realloc_evolves {h : Heap} {p n : Nat} {r : Heap × Nat}
    (hre : g_realloc h p n = some r) : Evolves h r.1 := by
  unfold g_realloc at hre
  by_cases hn : n = 0
  · simp only [hn, if_true] at hre
    cases hf : g_free h p with
    | none => simp [hf] at hre
    | some h1 =>
      simp [hf] at hre
      subst hre
      exact evolves_g_free hf
  · simp only [hn, if_false] at hre
    by_cases h0 : p = 0
    · simp only [h0, if_true, Option.some.injEq] at hre
      subst hre
      unfold g_malloc
      rw [if_neg hn]
      exact evolves_alloc h _
    · simp only [h0, if_false] at hre
      cases hrd : h.read p with
      | none => simp [hrd] at hre
      | some c =>
        cases c with
        | bytes bs =>
          simp [hrd] at hre
          subst hre
          exact evolves_trans _ _ _ (evolves_of_onlyFrees (onlyFrees_dealloc h p))
            (evolves_alloc _ _)
        | _ => simp [hrd] at hre

/-! ## The setters never change a tag -/

theorem memcpy_live_object {h h2 : Heap} {dst src n a : Nat} {o : PlistObject}
    (hcp : memcpy h dst src n = some h2) (ha : h.read a = some (.object o)) :
    h2.read a = some (.object o) := by
  unfold memcpy at hcp
  by_cases hl : n = 0
  · simp [hl] at hcp
    subst hcp
    exact ha
  · simp only [hl, if_false] at hcp
    cases hd : h.read dst with
    | none => simp [hd] at hcp
    | some cd =>
      cases hsrc : h.read src with
      | none => cases cd <;> simp [hd, hsrc] at hcp
      | some cs =>
        cases cd with
        | bytes d =>
          cases cs with
          | bytes sb =>
            simp only [hd, hsrc] at hcp
            by_cases hlen : n ≤ d.length ∧ n ≤ sb.length
            · simp only [hlen, and_self, if_true, Option.some.injEq] at hcp
              subst hcp
              have hne : a ≠ dst := by
                rintro rfl
                rw [hd] at ha
                cases ha
              rw [read_write_of_ne _ _ hne]
              exact ha
            · simp [hlen] at hcp
          | _ => simp [hd, hsrc] at hcp
        | _ => simp [hd, hsrc] at hcp

theorem set_boolean_evolves {h h2 : Heap} {object : Nat} (val : Bool)
    (hrun : plist_object_set_boolean h object val = some h2) :
    Evolves h h2 ∧ ∀ o, h.read object = some (.object o) →
      ∃ o2, h2.read object = some (.object o2) ∧ o2.type = o.type := by
  unfold plist_object_set_boolean at hrun
  by_cases h0 : object = 0
  · simp [h0] at hrun
    subst hrun
    exact ⟨evolves_refl _, fun o ho => ⟨o, ho, rfl⟩⟩
  · simp only [h0, if_false] at hrun
    cases hrd : h.read object with
    | none => simp [hrd] at hrun
    | some c =>
      cases c with
      | object o =>
        cases o with
        | boolean old =>
          simp [hrd] at hrun
          subst hrun
          refine ⟨evolves_write_live hrd (by simp [SameKind, PlistObject.type]),
            fun o ho => ?_⟩
          cases ho
          exact ⟨_, read_write_self _ h0 (le_size_of_read hrd), rfl⟩
        | _ =>
          simp [hrd] at hrun
          subst hrun
          exact ⟨evolves_refl _, fun o ho => ⟨o, by rw [hrd, ho], rfl⟩⟩
      | _ => simp [hrd] at hrun

theorem set_real_evolves {h h2 : Heap} {object : Nat} (val : gdouble)
    (hrun : plist_object_set_real h object val = some h2) :
    Evolves h h2 ∧ ∀ o, h.read object = some (.object o) →
      ∃ o2, h2.read object = some (.object o2) ∧ o2.type = o.type := by
  unfold plist_object_set_real at hrun
  by_cases h0 : object = 0
  · simp [h0] at hrun
    subst hrun
    exact ⟨evolves_refl _, fun o ho => ⟨o, ho, rfl⟩⟩
  · simp only [h0, if_false] at hrun
    cases hrd : h.read object with
    | none => simp [hrd] at hrun
    | some c =>
      cases c with
      | object o =>
        cases o with
        | real old =>
          simp [hrd] at hrun
          subst hrun
          refine ⟨evolves_write_live hrd (by simp [SameKind, PlistObject.type]),
            fun o ho => ?_⟩
          cases ho
          exact ⟨_, read_write_self _ h0 (le_size_of_read hrd), rfl⟩
        | _ =>
          simp [hrd] at hrun
          subst hrun
          exact ⟨evolves_refl _, fun o ho => ⟨o, by rw [hrd, ho], rfl⟩⟩
      | _ => simp [hrd] at hrun

theorem set_integer_evolves {h h2 : Heap} {object : Nat} (val : Int)
    (hrun : plist_object_set_integer h object val = some h2) :
    Evolves h h2 ∧ ∀ o, h.read object = some (.object o) →
      ∃ o2, h2.read object = some (.object o2) ∧ o2.type = o.type := by
  unfold plist_object_set_integer at hrun
  by_cases h0 : object = 0
  · simp [h0] at hrun
    subst hrun
    exact ⟨evolves_refl _, fun o ho => ⟨o, ho, rfl⟩⟩
  · simp only [h0, if_false] at hrun
    cases hrd : h.read object with
    | none => simp [hrd] at hrun
    | some c =>
      cases c with
      | object o =>
        cases o with
        | integer old =>
          simp [hrd] at hrun
          subst hrun
          refine ⟨evolves_write_live hrd (by simp [SameKind, PlistObject.type]),
            fun o ho => ?_⟩
          cases ho
          exact ⟨_, read_write_self _ h0 (le_size_of_read hrd), rfl⟩
        | _ =>
          simp [hrd] at hrun
          subst hrun
          exact ⟨evolves_refl _, fun o ho => ⟨o, by rw [hrd, ho], rfl⟩⟩
      | _ => simp [hrd] at hrun

theorem set_date_evolves {h h2 : Heap} {object : Nat} (val : GTimeVal)
    (hrun : plist_object_set_date h object val = some h2) :
    Evolves h h2 ∧ ∀ o, h.read object = some (.object o) →
      ∃ o2, h2.read object = some (.object o2) ∧ o2.type = o.type := by
  unfold plist_object_set_date at hrun
  by_cases h0 : object = 0
  · simp [h0] at hrun
    subst hrun
    exact ⟨evolves_refl _, fun o ho => ⟨o, ho, rfl⟩⟩
  · simp only [h0, if_false] at hrun
    cases hrd : h.read object with
    | none => simp [hrd] at hrun
    | some c =>
      cases c with
      | object o =>
        cases o with
        | date old =>
          simp [hrd] at hrun
          subst hrun
          refine ⟨evolves_write_live hrd (by simp [SameKind, PlistObject.type]),
            fun o ho => ?_⟩
          cases ho
          exact ⟨_, read_write_self _ h0 (le_size_of_read hrd), rfl⟩
        | _ =>
          simp [hrd] at hrun
          subst hrun
          exact ⟨evolves_refl _, fun o ho => ⟨o, by rw [hrd, ho], rfl⟩⟩
      | _ => simp [hrd] at hrun

theorem set_string_evolves {h h2 : Heap} {object : Nat} (val : Nat)
    (hrun : plist_object_set_string h object val = some h2) :
    Evolves h h2 ∧ ∀ o, h.read object = some (.object o) →
      ∃ o2, h2.read object = some (.object o2) ∧ o2.type = o.type := by
  unfold plist_object_set_string at hrun
  by_cases h0 : object = 0
  · simp [h0] at hrun
    subst hrun
    exact ⟨evolves_refl _, fun o ho => ⟨o, ho, rfl⟩⟩
  · simp only [h0, if_false] at hrun
    by_cases hv : val = 0
    · simp [hv] at hrun
      subst hrun
      exact ⟨evolves_refl _, fun o ho => ⟨o, ho, rfl⟩⟩
    · simp only [hv, if_false] at hrun
      cases hrd : h.read object with
      | none => simp [hrd] at hrun
      | some c =>
        cases c with
        | object o =>
          cases o with
          | string old =>
            simp only [hrd] at hrun
            cases hf : g_free h old with
            | none => simp [hf] at hrun
            | some h1 =>
              simp only [hf, Option.some_bind] at hrun
              cases hs : g_strdup h1 val with
              | none => simp [hs] at hrun
              | some s =>
                simp only [hs, Option.map_some', Option.some.injEq] at hrun
                subst hrun
                have he : Evolves h s.1 :=
                  evolves_trans _ _ _ (evolves_g_free hf) (strdup_evolves hs)
                refine ⟨evolves_write_orig he hrd (by simp [SameKind, PlistObject.type]),
                  fun o ho => ?_⟩
                cases ho
                exact ⟨_, read_write_self _ h0 (Nat.le_trans (le_size_of_read hrd) he.1), rfl⟩
          | _ =>
            simp [hrd] at hrun
            subst hrun
            exact ⟨evolves_refl _, fun o ho => ⟨o, by rw [hrd, ho], rfl⟩⟩
        | _ => simp [hrd] at hrun

theorem set_data_evolves {h h2 : Heap} {object : Nat} (val length : Nat)
    (hrun : plist_object_set_data h object val length = some h2) :
    Evolves h h2 ∧ ∀ o, h.read object = some (.object o) →
      ∃ o2, h2.read object = some (.object o2) ∧ o2.type = o.type := by
  unfold plist_object_set_data at hrun
  by_cases h0 : object = 0
  · simp [h0] at hrun
    subst hrun
    exact ⟨evolves_refl _, fun o ho => ⟨o, ho, rfl⟩⟩
  · simp only [h0, if_false] at hrun
    by_cases hv : ¬ (val ≠ 0 ∨ length = 0)
    · rw [if_pos hv] at hrun
      simp only [Option.some.injEq] at hrun
      subst hrun
      exact ⟨evolves_refl _, fun o ho => ⟨o, ho, rfl⟩⟩
    · rw [if_neg hv] at hrun
      cases hrd : h.read object with
      | none => simp [hrd] at hrun
      | some c =>
        cases c with
        | object o =>
          cases o with
          | data old oldlen =>
            simp only [hrd] at hrun
            cases hre : g_realloc h old length with
            | none => simp [hre] at hrun
            | some m =>
              simp only [hre, Option.some_bind] at hrun
              have he : Evolves h m.1 := realloc_evolves hre
              have hw : Evolves h (m.1.write object (.object (.data m.2 length))) :=
                evolves_write_orig he hrd (by simp [SameKind, PlistObject.type])
              refine ⟨evolves_trans _ _ _ hw (memcpy_evolves hrun), fun o ho => ?_⟩
              cases ho
              exact ⟨_, memcpy_live_object hrun (read_write_self _ h0
                (Nat.le_trans (le_size_of_read hrd) he.1)), rfl⟩
          | _ =>
            simp [hrd] at hrun
            subst hrun
            exact ⟨evolves_refl _, fun o ho => ⟨o, by rw [hrd, ho], rfl⟩⟩
        | _ => simp [hrd] at hrun

theorem set_array_evolves {h h2 : Heap} {object : Nat} (fuel : Nat) (val : List Nat)
    (hrun : plist_object_set_array fuel h object val = some h2) :
    Evolves h h2 ∧ ∀ o, h.read object = some (.object o) →
      ∃ o2, h2.read object = some (.object o2) ∧ o2.type = o.type := by
  unfold plist_object_set_array at hrun
  by_cases h0 : object = 0
  · simp [h0] at hrun
    subst hrun
    exact ⟨evolves_refl _, fun o ho => ⟨o, ho, rfl⟩⟩
  · simp only [h0, if_false] at hrun
    cases hrd : h.read object with
    | none => simp [hrd] at hrun
    | some c =>
      cases c with
      | object o =>
        cases o with
        | array old =>
          simp only [hrd] at hrun
          cases hf : old.foldlM (fun hh e => plist_object_free fuel hh e) h with
          | none => simp [hf] at hrun
          | some h1 =>
            simp only [hf, Option.some_bind] at hrun
            have he1 : Evolves h h1 := foldlM_rel Evolves evolves_refl evolves_trans
              (fun hh e => plist_object_free fuel hh e)
              (fun hh x hh2 hfx => free_evolves fuel hh x hh2 hfx) old h h1 hf
            have hw : Evolves h (h1.write object (.object (.array []))) :=
              evolves_write_orig he1 hrd (by simp [SameKind, PlistObject.type])
            cases hc : val.foldlM (insert_copied_element (plist_object_copy fuel))
                (h1.write object (.object (.array [])), []) with
            | none => simp [hc] at hrun
            | some s =>
              simp only [hc, Option.map_some', Option.some.injEq] at hrun
              subst hrun
              have he2 : Evolves h s.1 :=
                evolves_trans _ _ _ hw (copy_elements_evolves fuel val _ s hc)
              refine ⟨evolves_write_orig he2 hrd (by simp [SameKind, PlistObject.type]),
                fun o ho => ?_⟩
              cases ho
              exact ⟨_, read_write_self _ h0 (Nat.le_trans (le_size_of_read hrd) he2.1), rfl⟩
        | _ =>
          simp [hrd] at hrun
          subst hrun
          exact ⟨evolves_refl _, fun o ho => ⟨o, by rw [hrd, ho], rfl⟩⟩
      | _ => simp [hrd] at hrun

theorem guard_write_below {b : Nat} {h : Heap} (hg : Guard b h) {a : Nat} (ha : a ≤ b)
    (c : Cell) : Guard b (h.write a c) := by
  refine ⟨by rw [size_write]; exact hg.1, fun x c2 hx hr => ?_⟩
  rw [read_write_of_ne _ _ (show x ≠ a by omega)] at hr
  exact hg.2 x c2 hx hr

/-- Filling a table at or below `b` with copies, all made above `b`: the
addresses above `b` stay closed, the table holds only values above `b`, and no
other block at or below `b` is touched. -/
theorem fill_table_frame {b n own : Nat} (hown : own ≤ b) :
    ∀ (es : List (String × Nat)) (h h2 : Heap), Guard b h →
      (∀ t, h.read own = some (.table t) → PtrsAbove b (t.map Prod.snd)) →
      es.foldlM (insert_copied_key_and_value (plist_object_copy n) (plist_object_free n) own) h
        = some h2 →
      Guard b h2 ∧ (∀ t, h2.read own = some (.table t) → PtrsAbove b (t.map Prod.snd)) ∧
        ∀ a, a ≤ b → a ≠ own → h2.read a = h.read a := by
  intro es
  induction es with
  | nil =>
    intro h h2 hg htab hfold
    simp [foldlM_nil_option] at hfold
    subst hfold
    exact ⟨hg, htab, fun _ _ _ => rfl⟩
  | cons e es ih =>
    intro h h2 hg htab hfold
    rw [foldlM_cons_option] at hfold
    cases hstep : insert_copied_key_and_value (plist_object_copy n) (plist_object_free n)
        own h e with
    | none => simp [hstep] at hfold
    | some hm =>
      simp only [hstep, Option.some_bind] at hfold
      unfold insert_copied_key_and_value at hstep
      cases hc : plist_object_copy n h e.2 with
      | none => simp [hc] at hstep
      | some r =>
        obtain ⟨hcp, q⟩ := r
        simp only [hc, Option.some_bind] at hstep
        obtain ⟨hk, hq⟩ := copy_keeps n h e.2 hcp q hg hc
        unfold g_hash_table_insert at hstep
        cases ht : hcp.read own with
        | none => simp [ht] at hstep
        | some c =>
          cases c with
          | table t =>
            simp only [ht] at hstep
            have hown0 : own ≠ 0 := ne_zero_of_read ht
            have hownle : own ≤ hcp.size := le_size_of_read ht
            have hpt : PtrsAbove b (t.map Prod.snd) :=
              htab t (by rw [← hk.2.2 own hown]; exact ht)
            cases hl : t.lookup e.1 with
            | none =>
              simp only [hl, Option.some.injEq] at hstep
              subst hstep
              obtain ⟨g2, t2, f2⟩ := ih _ h2 (guard_write_below hk.1 hown _)
                (fun t2 ht2 => by
                  rw [read_write_self _ hown0 hownle] at ht2
                  cases ht2
                  intro x hx
                  simp only [List.map_append, List.map_cons, List.map_nil, List.mem_append,
                    List.mem_singleton] at hx
                  rcases hx with hx | hx
                  · exact hpt x hx
                  · rw [hx]; exact hq) hfold
              exact ⟨g2, t2, fun a ha hne => by
                rw [f2 a ha hne, read_write_of_ne _ _ hne, hk.2.2 a ha]⟩
            | some old =>
              simp only [hl] at hstep
              have hgw := guard_write_below hk.1 hown (.table (replaceEntry e.1 q t))
              have hold : old = 0 ∨ b < old := hpt old (mem_values_of_lookup hl)
              have hkf := free_keeps n _ old hm hgw hold hstep
              obtain ⟨g2, t2, f2⟩ := ih hm h2 hkf.1
                (fun t2 ht2 => by
                  rw [hkf.2.2 own hown, read_write_self _ hown0 hownle] at ht2
                  cases ht2
                  intro x hx
                  rcases mem_values_replaceEntry t x hx with h1 | h1
                  · rw [h1]; exact hq
                  · exact hpt x h1) hfold
              exact ⟨g2, t2, fun a ha hne => by
                rw [f2 a ha hne, hkf.2.2 a ha, read_write_of_ne _ _ hne, hk.2.2 a ha]⟩
          | _ => simp [ht] at hstep

theorem set_dict_evolves {h h2 : Heap} {object : Nat} (fuel : Nat) (val : Nat)
    (hrun : plist_object_set_dict fuel h object val = some h2) : Evolves h h2 := by
  unfold plist_object_set_dict at hrun
  by_cases h0 : object = 0
  · simp [h0] at hrun
    subst hrun
    exact evolves_refl _
  · simp only [h0, if_false] at hrun
    by_cases hv : val = 0
    · simp [hv] at hrun
      subst hrun
      exact evolves_refl _
    · simp only [hv, if_false] at hrun
      cases hrd : h.read object with
      | none => simp [hrd] at hrun
      | some c =>
        cases c with
        | object o =>
          cases o with
          | dict own =>
            simp only [hrd] at hrun
            cases hre : g_hash_table_remove_all (plist_object_free fuel) h own with
            | none => simp [hre] at hrun
            | some h1 =>
              simp only [hre, Option.some_bind] at hrun
              cases hrv : h1.read val with
              | none => simp [hrv] at hrun
              | some c2 =>
                cases c2 with
                | table es =>
                  simp only [hrv] at hrun
                  exact evolves_trans _ _ _ (remove_all_evolves hre)
                    (foldlM_rel Evolves evolves_refl evolves_trans
                      (insert_copied_key_and_value (plist_object_copy fuel)
                        (plist_object_free fuel) own)
                      (fun hh e hh2 hi => insert_copied_evolves fuel own hh e hh2 hi)
                      es h1 h2 hrun)
                | _ => simp [hrv] at hrun
          | _ =>
            simp [hrd] at hrun
            subst hrun
            exact evolves_refl _
        | _ => simp [hrd] at hrun

/-- What `g_hash_table_remove_all` leaves of a table that is still there: no
entry. -/
theorem remove_all_leaves_empty {n : Nat} {h h1 : Heap} {t : Nat}
    (hre : g_hash_table_remove_all (plist_object_free n) h t = some h1) :
    (∀ es, h1.read t = some (.table es) → es = []) ∧
      ∀ a c, a ≠ t → h1.read a = some c → h.read a = some c := by
  unfold g_hash_table_remove_all at hre
  cases hrd : h.read t with
  | none => simp [hrd] at hre
  | some c =>
    cases c with
    | table es0 =>
      simp only [hrd] at hre
      have hof : OnlyFrees (h.write t (.table [])) h1 :=
        foldlM_rel OnlyFrees onlyFrees_refl onlyFrees_trans
          (fun hh (e : String × Nat) => plist_object_free n hh e.2)
          (fun hh x hh2 hfx => free_only_frees n hh x.2 hh2 hfx) es0 _ h1 hre
      refine ⟨fun es hes => ?_, fun a c ha hc => ?_⟩
      · have := hof.2 t _ hes
        rw [read_write_self _ (ne_zero_of_read hrd) (le_size_of_read hrd)] at this
        cases this
        rfl
      · have := hof.2 a c hc
        rwa [read_write_of_ne _ _ ha] at this
    | _ => simp [hrd] at hre

theorem set_dict_node_live {h h1 h2 : Heap} {object own : Nat} (fuel : Nat) (val : Nat)
    (hrd : h.read object = some (.object (.dict own)))
    (hre : g_hash_table_remove_all (plist_object_free fuel) h own = some h1)
    (hlive : h1.read object ≠ none)
    (hrun : plist_object_set_dict fuel h object val = some h2) :
    h2.read object = some (.object (.dict own)) := by
  have h0 : object ≠ 0 := ne_zero_of_read hrd
  obtain ⟨hempty, hframe⟩ := remove_all_leaves_empty hre
  have hoo : object ≠ own := by
    rintro rfl
    unfold g_hash_table_remove_all at hre
    simp [hrd] at hre
  have hro1 : h1.read object = some (.object (.dict own)) := by
    cases hx : h1.read object with
    | none => exact absurd hx hlive
    | some c =>
      have := hframe object c hoo hx
      rw [hrd] at this
      rw [← this]
  unfold plist_object_set_dict at hrun
  simp only [h0, if_false] at hrun
  by_cases hv : val = 0
  · simp [hv] at hrun
    subst hrun
    exact hrd
  · simp only [hv, if_false, hrd, hre, Option.some_bind] at hrun
    cases hrv : h1.read val with
    | none => simp [hrv] at hrun
    | some c2 =>
      cases c2 with
      | table es =>
        simp only [hrv] at hrun
        cases es with
        | nil =>
          simp [foldlM_nil_option] at hrun
          subst hrun
          exact hro1
        | cons e es =>
          have hownlive : ∃ t, h1.read own = some (.table t) := by
            rw [foldlM_cons_option] at hrun
            cases hstep : insert_copied_key_and_value (plist_object_copy fuel)
                (plist_object_free fuel) own h1 e with
            | none => simp [hstep] at hrun
            | some hm =>
              unfold insert_copied_key_and_value at hstep
              cases hc : plist_object_copy fuel h1 e.2 with
              | none => simp [hc] at hstep
              | some r =>
                simp only [hc, Option.some_bind] at hstep
                have hk := (copy_keeps fuel h1 e.2 r.1 r.2 (guard_of_size h1) hc).1
                unfold g_hash_table_insert at hstep
                cases ht : r.1.read own with
                | none => simp [ht] at hstep
                | some c =>
                  cases c with
                  | table t =>
                    by_cases hle : own ≤ h1.size
                    · exact ⟨t, by rw [← hk.2.2 own hle]; exact ht⟩
                    · exfalso
                      have hlt : h1.size < own := Nat.lt_of_not_le hle
                      have hsz : h.size ≤ h1.size := (remove_all_evolves hre).1
                      have hh : own ≤ h.size := by
                        unfold g_hash_table_remove_all at hre
                        cases hto : h.read own with
                        | none => simp [hto] at hre
                        | some c => exact le_size_of_read hto
                      omega
                  | _ => simp [ht] at hstep
          obtain ⟨t, ht⟩ := hownlive
          rw [(fill_table_frame (le_size_of_read ht) (e :: es) h1 h2 (guard_of_size h1)
            (fun t2 ht2 => by rw [hempty t2 ht2]; exact ptrsAbove_nil _) hrun).2.2 object
            (le_size_of_read hro1) hoo]
          exact hro1
      | _ => simp [hrv] at hrun

/-- C26: no setter changes a type tag.  After any call of a setter that returns,
with any argument and on any node, a block that was a node before the call and
is still allocated is a node with the tag it had: no node turns into a node of
another type, nor into anything else.  The node the setter was called on is
still there with its tag; for `set_dict` this needs that the release of the
previous entries has not released the node itself. -/
theorem setter_keeps_tag (call : SetterCall) (fuel : Nat) (h h2 : Heap) (object : Nat)
    (hrun : call.run fuel h object = some h2) :
    (∀ a o c, h.read a = some (.object o) → h2.read a = some c →
        ∃ o2, c = .object o2 ∧ o2.type = o.type) ∧
      (∀ o, h.read object = some (.object o) →
        (∀ val own h1, call = .set_dict val → h.read object = some (.object (.dict own)) →
          g_hash_table_remove_all (plist_object_free fuel) h own = some h1 →
          h1.read object ≠ none) →
        ∃ o2, h2.read object = some (.object o2) ∧ o2.type = o.type) := by
  have hev : Evolves h h2 := by
    cases call with
    | set_boolean val => exact (set_boolean_evolves val hrun).1
    | set_real val => exact (set_real_evolves val hrun).1
    | set_integer val => exact (set_integer_evolves val hrun).1
    | set_string val => exact (set_string_evolves val hrun).1
    | set_date val => exact (set_date_evolves val hrun).1
    | set_array val => exact (set_array_evolves fuel val hrun).1
    | set_dict val => exact set_dict_evolves fuel val hrun
    | set_data val length => exact (set_data_evolves val length hrun).1
  refine ⟨fun a o c ha hc => ?_, fun o ho hsurv => ?_⟩
  · obtain ⟨c0, hc0, hk⟩ := hev.2 a c (le_size_of_read ha) hc
    rw [ha] at hc0
    cases hc0
    cases c with
    | object o2 => exact ⟨o2, rfl, by simpa [SameKind] using hk.symm⟩
    | _ => simp [SameKind] at hk
  · cases call with
    | set_boolean val => exact (set_boolean_evolves val hrun).2 o ho
    | set_real val => exact (set_real_evolves val hrun).2 o ho
    | set_integer val => exact (set_integer_evolves val hrun).2 o ho
    | set_string val => exact (set_string_evolves val hrun).2 o ho
    | set_date val => exact (set_date_evolves val hrun).2 o ho
    | set_array val => exact (set_array_evolves fuel val hrun).2 o ho
    | set_data val length => exact (set_data_evolves val length hrun).2 o ho
    | set_dict val =>
      cases o with
      | dict own =>
        cases hre : g_hash_table_remove_all (plist_object_free fuel) h own with
        | none =>
          have h0 : object ≠ 0 := ne_zero_of_read ho
          by_cases hv : val = 0
          · simp [SetterCall.run, plist_object_set_dict, h0, hv] at hrun
            subst hrun
            exact ⟨_, ho, rfl⟩
          · simp [SetterCall.run, plist_object_set_dict, h0, hv, ho, hre] at hrun
        | some h1 =>
          exact ⟨_, set_dict_node_live fuel val ho hre (hsurv val own h1 rfl ho hre) hrun, rfl⟩
      | _ =>
        have h0 : object ≠ 0 := ne_zero_of_read ho
        have : h2 = h := by
          by_cases hv : val = 0
          · simp [SetterCall.run, plist_object_set_dict, h0, hv] at hrun
            exact hrun.symm
          · simp [SetterCall.run, plist_object_set_dict, h0, hv, ho] at hrun
            exact hrun.symm
        subst this
        exact ⟨_, ho, rfl⟩

/-- Witness for C26: `set_string` on the String node of the sample heap, given
the caller's text "new". -/
theorem setter_keeps_tag_witness :
    (∀ a o c, sampleHeap.read a = some (.object o) →
        (((sampleHeap.dealloc 4).alloc (.chars "new")).1.write 5
          (.object (.string 15))).read a = some c →
        ∃ o2, c = .object o2 ∧ o2.type = o.type) ∧
      (∀ o, sampleHeap.read 5 = some (.object o) →
        (∀ val own h1, SetterCall.set_string 12 = .set_dict val →
          sampleHeap.read 5 = some (.object (.dict own)) →
          g_hash_table_remove_all (plist_object_free 5) sampleHeap own = some h1 →
          h1.read 5 ≠ none) →
        ∃ o2, (((sampleHeap.dealloc 4).alloc (.chars "new")).1.write 5
          (.object (.string 15))).read 5 = some (.object o2) ∧ o2.type = o.type) :=
  setter_keeps_tag (.set_string 12) 5 sampleHeap _ 5 (by decide)

/-! ## The keys of a table stay pairwise distinct -/

theorem keys_replaceEntry (k : String) (v : Nat) :
    ∀ es : List (String × Nat), (replaceEntry k v es).map Prod.fst = es.map Prod.fst := by
  intro es
  induction es with
  | nil => rfl
  | cons e es ih =>
    simp only [replaceEntry]
    by_cases he : e.1 = k
    · simp [he]
    · simp [he, ih]

theorem length_replaceEntry (k : String) (v : Nat) (es : List (String × Nat)) :
    (replaceEntry k v es).length = es.length := by
  have := congrArg List.length (keys_replaceEntry k v es)
  simpa using this

theorem lookup_replaceEntry {k : String} (v : Nat) :
    ∀ {es : List (String × Nat)} {old : Nat}, es.lookup k = some old →
      (replaceEntry k v es).lookup k = some v := by
  intro es
  induction es with
  | nil => intro old h; simp at h
  | cons e es ih =>
    intro old h
    obtain ⟨k1, v1⟩ := e
    simp only [replaceEntry]
    by_cases he : k1 = k
    · subst he
      simp [List.lookup_cons]
    · have hne : (k == k1) = false := by simpa using fun heq => he heq.symm
      simp only [he, if_false, List.lookup_cons, hne] at h ⊢
      exact ih h

theorem not_mem_keys_of_lookup_none {es : List (String × Nat)} {k : String}
    (hl : es.lookup k = none) : k ∉ es.map Prod.fst := by
  rw [List.lookup_eq_none_iff] at hl
  intro hk
  obtain ⟨e, he, rfl⟩ := List.mem_map.mp hk
  simpa using hl e he

theorem nodup_keys_append {es : List (String × Nat)} {k : String} (v : Nat)
    (hn : (es.map Prod.fst).Nodup) (hl : es.lookup k = none) :
    ((es ++ [(k, v)]).map Prod.fst).Nodup := by
  rw [List.map_append, List.nodup_append]
  refine ⟨hn, by simp, ?_⟩
  intro x hx hx2
  simp only [List.map_cons, List.map_nil, List.mem_singleton] at hx2
  subst hx2
  exact not_mem_keys_of_lookup_none hl hx

theorem tablesKept_refl (h : Heap) : TablesKept h h := fun _ _ hr => Or.inl hr

theorem tablesKept_trans (h1 h2 h3 : Heap) (h12 : TablesKept h1 h2) (h23 : TablesKept h2 h3) :
    TablesKept h1 h3 :=
  fun a es hr => (h23 a es hr).elim (fun hh => h12 a es hh) Or.inr

theorem tablesKept_of_onlyFrees {h h2 : Heap} (hof : OnlyFrees h h2) : TablesKept h h2 :=
  fun a _ hr => Or.inl (hof.2 a _ hr)

theorem tablesKept_alloc (h : Heap) (c : Cell)
    (hc : ∀ es, c = .table es → (es.map Prod.fst).Nodup) : TablesKept h (h.alloc c).1 := by
  intro a es hr
  rcases read_alloc_some hr with ⟨_, hcc⟩ | ⟨_, hr2⟩
  · exact Or.inr (hc es hcc.symm)
  · exact Or.inl hr2

theorem tablesKept_write (h : Heap) (a : Nat) (c : Cell)
    (hc : ∀ es, c = .table es → (es.map Prod.fst).Nodup) : TablesKept h (h.write a c) := by
  intro x es hr
  rcases read_write_some hr with ⟨_, hcc⟩ | ⟨_, hr2⟩
  · exact Or.inr (hc es hcc.symm)
  · exact Or.inl hr2

theorem distinctAt_of_tablesKept {h h2 : Heap} {t : Nat} (hk : TablesKept h h2)
    (hd : DistinctAt t h) : DistinctAt t h2 :=
  fun es hr => (hk t es hr).elim (hd es) id

theorem distinctAt_of_fresh {h h2 : Heap} {t : Nat} (hk : TablesKept h h2)
    (ht : t = 0 ∨ h.size < t) : DistinctAt t h2 := by
  intro es hr
  rcases hk t es hr with hh | hh
  · rcases ht with rfl | hlt
    · rw [read_zero] at hh; cases hh
    · rw [read_of_size_lt hlt] at hh; cases hh
  · exact hh

/-- The table `g_hash_table_insert` leaves, when it is still there: the entry
is added at the end for a new key and replaced in place for a key already
present. -/
theorem insert_table {n : Nat} {h h2 : Heap} {t : Nat} {k : String} {v : Nat}
    {es : List (String × Nat)} (ht : h.read t = some (.table es))
    (hi : g_hash_table_insert (plist_object_free n) h t k v = some h2) :
    ∀ es2, h2.read t = some (.table es2) →
      es2 = match es.lookup k with
        | some _ => replaceEntry k v es
        | none => es ++ [(k, v)] := by
  intro es2 hr2
  have h0 : t ≠ 0 := ne_zero_of_read ht
  have hle : t ≤ h.size := le_size_of_read ht
  unfold g_hash_table_insert at hi
  simp only [ht] at hi
  cases hl : es.lookup k with
  | none =>
    simp only [hl, Option.some.injEq] at hi
    subst hi
    rw [read_write_self _ h0 hle] at hr2
    cases hr2
    rfl
  | some old =>
    simp only [hl] at hi
    have := (free_only_frees n _ old h2 hi).2 t _ hr2
    rw [read_write_self _ h0 hle] at this
    cases this
    rfl

theorem insert_tablesKept {n : Nat} {h h2 : Heap} {t : Nat} {k : String} {v : Nat}
    (hd : DistinctAt t h)
    (hi : g_hash_table_insert (plist_object_free n) h t k v = some h2) : TablesKept h h2 := by
  unfold g_hash_table_insert at hi
  cases ht : h.read t with
  | none => simp [ht] at hi
  | some c =>
    cases c with
    | table es =>
      simp only [ht] at hi
      have hn := hd es ht
      cases hl : es.lookup k with
      | none =>
        simp only [hl, Option.some.injEq] at hi
        subst hi
        refine tablesKept_write h t _ (fun es2 he => ?_)
        cases he
        exact nodup_keys_append v hn hl
      | some old =>
        simp only [hl] at hi
        refine tablesKept_trans _ _ _ (tablesKept_write h t _ (fun es2 he => ?_))
          (tablesKept_of_onlyFrees (free_only_frees n _ old h2 hi))
        cases he
        rw [keys_replaceEntry]
        exact hn
    | _ => simp [ht] at hi

theorem new_tablesKept (h : Heap) (ty : PlistObjectType) :
    TablesKept h (plist_object_new h ty).1 := by
  have hz : TablesKept h (h.alloc (.object (zeroObject ty))).1 :=
    tablesKept_alloc h _ (fun es he => by cases he)
  cases ty with
  | PLIST_OBJECT_REAL =>
    simp only [plist_object_new]
    exact tablesKept_trans _ _ _ hz (tablesKept_write _ _ _ (fun es he => by cases he))
  | PLIST_OBJECT_DICT =>
    simp only [plist_object_new, g_hash_table_new_full]
    exact tablesKept_trans _ _ _ hz (tablesKept_trans _ _ _
      (tablesKept_alloc _ _ (fun es he => by cases he; simp))
      (tablesKept_write _ _ _ (fun es he => by cases he)))
  | _ =>
    simp only [plist_object_new]
    exact hz

/-- A loop over a list, on any state, stays within a reflexive and transitive
relation that each of its steps stays within. -/
theorem foldlM_rel_state {σ α : Type} (R : σ → σ → Prop) (hrefl : ∀ s, R s s)
    (htrans : ∀ a b c, R a b → R b c → R a c) (f : σ → α → Option σ)
    (hf : ∀ s x s2, f s x = some s2 → R s s2) :
    ∀ (l : List α) (s s2 : σ), l.foldlM f s = some s2 → R s s2 := by
  intro l
  induction l with
  | nil =>
    intro s s2 hfold
    simp [foldlM_nil_option] at hfold
    subst hfold
    exact hrefl s
  | cons x xs ih =>
    intro s s2 hfold
    rw [foldlM_cons_option] at hfold
    cases h1 : f s x with
    | none => simp [h1] at hfold
    | some sm =>
      simp only [h1, Option.some_bind] at hfold
      exact htrans _ _ _ (hf s x sm h1) (ih sm s2 hfold)

theorem strdup_tablesKept {h : Heap} {val : Nat} {s : Heap × Nat}
    (hs : g_strdup h val = some s) : TablesKept h s.1 := by
  unfold g_strdup at hs
  by_cases hv : val = 0
  · simp [hv] at hs
    subst hs
    exact tablesKept_refl h
  · simp only [hv, if_false] at hs
    cases hrv : h.read val with
    | none => simp [hrv] at hs
    | some c2 =>
      cases c2 with
      | chars cs =>
        simp [hrv] at hs
        subst hs
        exact tablesKept_alloc h _ (fun es he => by cases he)
      | _ => simp [hrv] at hs

theorem memcpy_tablesKept {h h2 : Heap} {dst src n : Nat}
    (hcp : memcpy h dst src n = some h2) : TablesKept h h2 := by
  unfold memcpy at hcp
  by_cases hl : n = 0
  · simp [hl] at hcp
    subst hcp
    exact tablesKept_refl h
  · simp only [hl, if_false] at hcp
    cases hd : h.read dst with
    | none => simp [hd] at hcp
    | some cd =>
      cases hsrc : h.read src with
      | none => cases cd <;> simp [hd, hsrc] at hcp
      | some cs =>
        cases cd with
        | bytes d =>
          cases cs with
          | bytes sb =>
            simp only [hd, hsrc] at hcp
            by_cases hlen : n ≤ d.length ∧ n ≤ sb.length
            · simp only [hlen, and_self, if_true, Option.some.injEq] at hcp
              subst hcp
              exact tablesKept_write h _ _ (fun es he => by cases he)
            · simp [hlen] at hcp
          | _ => simp [hd, hsrc] at hcp
        | _ => simp [hd, hsrc] at hcp

theorem malloc_tablesKept (h : Heap) (n : Nat) : TablesKept h (g_malloc h n).1 := by
  unfold g_malloc
  by_cases hl : n = 0
  · rw [if_pos hl]
    exact tablesKept_refl h
  · rw [if_neg hl]
    exact tablesKept_alloc h _ (fun es he => by cases he)

/-- One entry copied into a table whose keys are pairwise distinct. -/
theorem insert_copied_tablesKept {n : Nat}
    (ih : ∀ (h : Heap) (p : Nat) (r : Heap × Nat), plist_object_copy n h p = some r →
      TablesKept h r.1)
    (nd : Nat) (h : Heap) (e : String × Nat) (h2 : Heap)
    (hi : insert_copied_key_and_value (plist_object_copy n) (plist_object_free n) nd h e
      = some h2) : DistinctAt nd h → TablesKept h h2 := by
  intro hd
  unfold insert_copied_key_and_value at hi
  cases hc : plist_object_copy n h e.2 with
  | none => simp [hc] at hi
  | some r =>
    simp only [hc, Option.some_bind] at hi
    have hk := ih h e.2 r hc
    exact tablesKept_trans _ _ _ hk (insert_tablesKept (distinctAt_of_tablesKept hk hd) hi)

/-- The entries copied one after the other into a table whose keys are
pairwise distinct. -/
theorem fill_tablesKept {n : Nat}
    (ih : ∀ (h : Heap) (p : Nat) (r : Heap × Nat), plist_object_copy n h p = some r →
      TablesKept h r.1)
    (nd : Nat) (es : List (String × Nat)) (h h2 : Heap) (hd : DistinctAt nd h)
    (hf : es.foldlM (insert_copied_key_and_value (plist_object_copy n)
      (plist_object_free n) nd) h = some h2) : TablesKept h h2 :=
  foldlM_rel (fun a b => DistinctAt nd a → TablesKept a b)
    (fun a _ => tablesKept_refl a)
    (fun _ _ _ hab hbc hda =>
      tablesKept_trans _ _ _ (hab hda) (hbc (distinctAt_of_tablesKept (hab hda) hda)))
    (insert_copied_key_and_value (plist_object_copy n) (plist_object_free n) nd)
    (fun hh e hh2 hi => insert_copied_tablesKept ih nd hh e hh2 hi) es h h2 hf hd

/-- Every table `plist_object_copy` makes has pairwise distinct keys, and it
changes no table that was there. -/
theorem copy_tablesKept :
    ∀ (n : Nat) (h : Heap) (p : Nat) (r : Heap × Nat), plist_object_copy n h p = some r →
      TablesKept h r.1 := by
  intro n
  induction n with
  | zero => intro h p r hc; simp [plist_object_copy] at hc
  | succ n ih =>
    intro h p res hc
    simp only [plist_object_copy] at hc
    by_cases h0 : p = 0
    · simp [h0] at hc
      subst hc
      exact tablesKept_refl h
    · simp only [h0, if_false] at hc
      cases hr : h.read p with
      | none => simp [hr] at hc
      | some c =>
        cases c with
        | object o =>
          simp only [hr] at hc
          have hkn := new_tablesKept h o.type
          obtain ⟨hgn, hrn⟩ := new_keeps (guard_of_size h) o.type
          generalize plist_object_new h o.type = r at hc hkn hgn hrn
          cases o with
          | boolean val =>
            simp only [Option.some.injEq] at hc
            subst hc
            exact tablesKept_trans _ _ _ hkn (tablesKept_write _ _ _ (fun es he => by cases he))
          | real val =>
            simp only [Option.some.injEq] at hc
            subst hc
            exact tablesKept_trans _ _ _ hkn (tablesKept_write _ _ _ (fun es he => by cases he))
          | integer val =>
            simp only [Option.some.injEq] at hc
            subst hc
            exact tablesKept_trans _ _ _ hkn (tablesKept_write _ _ _ (fun es he => by cases he))
          | date val =>
            simp only [Option.some.injEq] at hc
            subst hc
            exact tablesKept_trans _ _ _ hkn (tablesKept_write _ _ _ (fun es he => by cases he))
          | string val =>
            simp only at hc
            cases hs : g_strdup r.1 val with
            | none => simp [hs] at hc
            | some s =>
              simp only [hs, Option.map_some', Option.some.injEq] at hc
              subst hc
              exact tablesKept_trans _ _ _ hkn (tablesKept_trans _ _ _ (strdup_tablesKept hs)
                (tablesKept_write _ _ _ (fun es he => by cases he)))
          | array val =>
            simp only at hc
            cases hf : val.foldlM (insert_copied_element (plist_object_copy n)) (r.1, []) with
            | none => simp [hf] at hc
            | some s =>
              simp only [hf, Option.map_some', Option.some.injEq] at hc
              subst hc
              have hk : TablesKept r.1 s.1 :=
                foldlM_rel_state (fun (a b : Heap × List Nat) => TablesKept a.1 b.1)
                  (fun a => tablesKept_refl a.1)
                  (fun a b c hab hbc => tablesKept_trans _ _ _ hab hbc)
                  (insert_copied_element (plist_object_copy n))
                  (fun s0 x s2 hstep => by
                    unfold insert_copied_element at hstep
                    cases hcx : plist_object_copy n s0.1 x with
                    | none => simp [hcx] at hstep
                    | some rx =>
                      simp only [hcx, Option.map_some', Option.some.injEq] at hstep
                      subst hstep
                      exact ih s0.1 x rx hcx)
                  val (r.1, []) s hf
              exact tablesKept_trans _ _ _ hkn (tablesKept_trans _ _ _ hk
                (tablesKept_write _ _ _ (fun es he => by cases he)))
          | dict val =>
            simp only at hc
            cases hrv : r.1.read val with
            | none => simp [hrv] at hc
            | some c2 =>
              cases hrr : r.1.read r.2 with
              | none => cases c2 <;> simp [hrv, hrr] at hc
              | some c3 =>
                cases c2 with
                | table es =>
                  cases c3 with
                  | object o2 =>
                    cases o2 with
                    | dict nd =>
                      simp only [hrv, hrr] at hc
                      have hnd : nd = 0 ∨ h.size < nd :=
                        hgn.1.2 r.2 _ hrn hrr nd (by simp [Cell.ptrs])
                      cases hf : es.foldlM (insert_copied_key_and_value (plist_object_copy n)
                          (plist_object_free n) nd) r.1 with
                      | none => simp [hf] at hc
                      | some hs2 =>
                        simp only [hf, Option.map_some', Option.some.injEq] at hc
                        subst hc
                        exact tablesKept_trans _ _ _ hkn
                          (fill_tablesKept ih nd es r.1 hs2 (distinctAt_of_fresh hkn hnd) hf)
                    | _ => simp [hrv, hrr] at hc
                  | _ => simp [hrv, hrr] at hc
                | _ => simp [hrv, hrr] at hc
          | data val length =>
            simp only at hc
            have hm := malloc_tablesKept r.1 length
            generalize g_malloc r.1 length = m at hc hm
            cases hcp : memcpy m.1 m.2 val length with
            | none => simp [hcp] at hc
            | some h3 =>
              simp only [hcp, Option.map_some', Option.some.injEq] at hc
              subst hc
              exact tablesKept_trans _ _ _ hkn (tablesKept_trans _ _ _ hm
                (tablesKept_trans _ _ _ (memcpy_tablesKept hcp)
                  (tablesKept_write _ _ _ (fun es he => by cases he))))
        | _ => simp [hr] at hc

/-! ## The value of a tree, read back at its root -/

theorem tree_of_dict_inv {n : Nat} {h : Heap} {p : Nat} {ts : List (String × PlistTree)}
    (hT : tree_of n h p = some (.dict ts)) :
    ∃ m tab es, n = m + 1 ∧ h.read p = some (.object (.dict tab)) ∧
      h.read tab = some (.table es) ∧ (es.map Prod.fst).Nodup ∧
      collect (fun e => (tree_of m h e.2).map fun t => (e.1, t)) es = some ts := by
  cases n with
  | zero => simp [tree_of] at hT
  | succ m =>
    simp only [tree_of] at hT
    cases hr : h.read p with
    | none => simp [hr] at hT
    | some c =>
      cases c with
      | object o =>
        cases o with
        | dict tab =>
          simp only [hr] at hT
          cases ht : h.read tab with
          | none => simp [ht] at hT
          | some c2 =>
            cases c2 with
            | table es =>
              simp only [ht] at hT
              by_cases hn : (es.map Prod.fst).Nodup
              · rw [if_pos hn] at hT
                cases hcol : collect (fun e => (tree_of m h e.2).map fun t => (e.1, t)) es with
                | none => simp [hcol] at hT
                | some ts2 =>
                  simp only [hcol, Option.map_some', Option.some.injEq,
                    PlistTree.dict.injEq] at hT
                  subst hT
                  exact ⟨m, tab, es, rfl, rfl, ht, hn, hcol⟩
              · rw [if_neg hn] at hT
                cases hT
            | _ => simp [ht] at hT
        | string val =>
          simp only [hr] at hT
          split at hT
          · cases hT
          · split at hT <;> cases hT
        | data val len =>
          simp only [hr] at hT
          split at hT
          · cases hT
          · split at hT
            · split at hT <;> cases hT
            · cases hT
        | array val =>
          simp only [hr] at hT
          cases hcol : collect (tree_of m h) val with
          | none => simp [hcol] at hT
          | some ts2 => simp [hcol] at hT
        | _ => simp [hr] at hT
      | _ => simp [hr] at hT

theorem tree_of_array_inv {n : Nat} {h : Heap} {p : Nat} {ts : List PlistTree}
    (hT : tree_of n h p = some (.array ts)) :
    ∃ m l, n = m + 1 ∧ h.read p = some (.object (.array l)) ∧
      collect (tree_of m h) l = some ts := by
  cases n with
  | zero => simp [tree_of] at hT
  | succ m =>
    simp only [tree_of] at hT
    cases hr : h.read p with
    | none => simp [hr] at hT
    | some c =>
      cases c with
      | object o =>
        cases o with
        | dict tab =>
          simp only [hr] at hT
          cases ht : h.read tab with
          | none => simp [ht] at hT
          | some c2 =>
            cases c2 with
            | table es =>
              simp only [ht] at hT
              by_cases hn : (es.map Prod.fst).Nodup
              · rw [if_pos hn] at hT
                cases hcol : collect (fun e => (tree_of m h e.2).map fun t => (e.1, t)) es with
                | none => simp [hcol] at hT
                | some ts2 => simp [hcol] at hT
              · rw [if_neg hn] at hT
                cases hT
            | _ => simp [ht] at hT
        | string val =>
          simp only [hr] at hT
          split at hT
          · cases hT
          · split at hT <;> cases hT
        | data val len =>
          simp only [hr] at hT
          split at hT
          · cases hT
          · split at hT
            · split at hT <;> cases hT
            · cases hT
        | array val =>
          simp only [hr] at hT
          cases hcol : collect (tree_of m h) val with
          | none => simp [hcol] at hT
          | some ts2 =>
            simp only [hcol, Option.map_some', Option.some.injEq,
              PlistTree.array.injEq] at hT
            subst hT
            exact ⟨m, val, rfl, rfl, hcol⟩
        | _ => simp [hr] at hT
      | _ => simp [hr] at hT

theorem tree_of_scalar_inv {n : Nat} {h : Heap} {p : Nat} {t : PlistTree}
    (hT : tree_of n h p = some t) (hd : ∀ ts, t ≠ .dict ts) (ha : ∀ ts, t ≠ .array ts) :
    IsScalar h p := by
  cases n with
  | zero => simp [tree_of] at hT
  | succ m =>
    simp only [tree_of] at hT
    cases hr : h.read p with
    | none => simp [hr] at hT
    | some c =>
      cases c with
      | object o =>
        cases o with
        | dict tab =>
          exfalso
          simp only [hr] at hT
          cases ht : h.read tab with
          | none => simp [ht] at hT
          | some c2 =>
            cases c2 with
            | table es =>
              simp only [ht] at hT
              by_cases hn : (es.map Prod.fst).Nodup
              · rw [if_pos hn] at hT
                cases hcol : collect (fun e => (tree_of m h e.2).map fun t => (e.1, t)) es with
                | none => simp [hcol] at hT
                | some ts2 =>
                  simp only [hcol, Option.map_some', Option.some.injEq] at hT
                  exact hd ts2 hT.symm
              · rw [if_neg hn] at hT
                cases hT
            | _ => simp [ht] at hT
        | array val =>
          exfalso
          simp only [hr] at hT
          cases hcol : collect (tree_of m h) val with
          | none => simp [hcol] at hT
          | some ts2 =>
            simp only [hcol, Option.map_some', Option.some.injEq] at hT
            exact ha ts2 hT.symm
        | _ => exact ⟨_, hr, by simp [PlistObject.type], by simp [PlistObject.type]⟩
      | _ => simp [hr] at hT

/-- The value of a Dict node whose table is known. -/
theorem tree_of_dict_entries {n : Nat} {h : Heap} {p tab : Nat} {t : PlistTree}
    {es : List (String × Nat)} (hT : tree_of n h p = some t)
    (hp : h.read p = some (.object (.dict tab))) (ht : h.read tab = some (.table es)) :
    ∃ m ts, n = m + 1 ∧ t = .dict ts ∧ (es.map Prod.fst).Nodup ∧
      collect (fun e => (tree_of m h e.2).map fun t => (e.1, t)) es = some ts := by
  cases n with
  | zero => simp [tree_of] at hT
  | succ m =>
    simp only [tree_of, hp, ht] at hT
    by_cases hn : (es.map Prod.fst).Nodup
    · rw [if_pos hn] at hT
      cases hcol : collect (fun e => (tree_of m h e.2).map fun t => (e.1, t)) es with
      | none => simp [hcol] at hT
      | some ts =>
        simp only [hcol, Option.map_some', Option.some.injEq] at hT
        exact ⟨m, ts, rfl, hT.symm, hn, hcol⟩
    · rw [if_neg hn] at hT
      cases hT

/-- The values collected from the entries of a table come with the keys of the
entries, in order. -/
theorem collect_keys {β : Type} {f : Nat → Option β} :
    ∀ (es : List (String × Nat)) (ts : List (String × β)),
      collect (fun e => (f e.2).map fun t => (e.1, t)) es = some ts →
      ts.map Prod.fst = es.map Prod.fst := by
  intro es
  induction es with
  | nil => intro ts hc; simp [collect] at hc; simp [hc]
  | cons e es ih =>
    intro ts hc
    obtain ⟨b, bs, hb, hbs, rfl⟩ := collect_cons_eq_some hc
    cases hfe : f e.2 with
    | none => simp [hfe] at hb
    | some v =>
      simp only [hfe, Option.map_some', Option.some.injEq] at hb
      subst hb
      simp [ih bs hbs]

theorem inTree_root_or_child {h : Heap} {root r : Nat} (hin : InTree h root r) :
    r = root ∨ ∃ c ∈ children h root, InTree h c r := by
  induction hin with
  | root => exact Or.inl rfl
  | @child p q _ hq ih =>
    rcases ih with rfl | ⟨c, hc, hcp⟩
    · exact Or.inr ⟨q, hq, InTree.root⟩
    · exact Or.inr ⟨c, hc, InTree.child hcp hq⟩

/-- Every Dict node of the tree `plist_object_copy` returns has pairwise
distinct keys, whatever the source is. -/
theorem copy_dicts_distinct (n : Nat) (h : Heap) (p : Nat) (h2 : Heap) (q : Nat)
    (hc : plist_object_copy n h p = some (h2, q)) :
    ∀ r tab es, InTree h2 q r → h2.read r = some (.object (.dict tab)) →
      h2.read tab = some (.table es) → (es.map Prod.fst).Nodup := by
  intro r tab es hin hr htab
  obtain ⟨hk, hq⟩ := copy_keeps n h p h2 q (guard_of_size h) hc
  obtain ⟨_, hptrs⟩ := ptrs_of_live hk.1 (inTree_above hk.1 hq r hin) hr
  exact distinctAt_of_fresh (copy_tablesKept n h p (h2, q) hc)
    (hptrs tab (by simp [Cell.ptrs])) es htab

theorem remove_all_table_live {n : Nat} {h h1 : Heap} {t : Nat}
    (hre : g_hash_table_remove_all (plist_object_free n) h t = some h1) :
    ∃ es, h.read t = some (.table es) := by
  unfold g_hash_table_remove_all at hre
  cases hrd : h.read t with
  | none => simp [hrd] at hre
  | some c =>
    cases c with
    | table es => exact ⟨es, rfl⟩
    | _ => simp [hrd] at hre

/-- Every Dict node of the tree of a Dict node has pairwise distinct keys
after `set_dict` with a non-null mapping, whatever the mapping is. -/
theorem set_dict_dicts_distinct (fuel : Nat) (h : Heap) (object own val : Nat) (h2 : Heap)
    (hrd : h.read object = some (.object (.dict own))) (hv : val ≠ 0)
    (hrun : plist_object_set_dict fuel h object val = some h2) :
    ∀ r tab es, InTree h2 object r → h2.read r = some (.object (.dict tab)) →
      h2.read tab = some (.table es) → (es.map Prod.fst).Nodup := by
  have h0 : object ≠ 0 := ne_zero_of_read hrd
  unfold plist_object_set_dict at hrun
  simp only [h0, hv, if_false, hrd] at hrun
  cases hre : g_hash_table_remove_all (plist_object_free fuel) h own with
  | none => simp [hre] at hrun
  | some h1 =>
    simp only [hre, Option.some_bind] at hrun
    cases hrv : h1.read val with
    | none => simp [hrv] at hrun
    | some c2 =>
      cases c2 with
      | table es0 =>
        simp only [hrv] at hrun
        obtain ⟨hempty, hframe⟩ := remove_all_leaves_empty hre
        obtain ⟨eso, heso⟩ := remove_all_table_live hre
        have hsz : h.size ≤ h1.size := (remove_all_evolves hre).1
        have hown : own ≤ h1.size := Nat.le_trans (le_size_of_read heso) hsz
        have hobj : object ≤ h1.size := Nat.le_trans (le_size_of_read hrd) hsz
        have hoo : object ≠ own := by
          rintro rfl
          rw [hrd] at heso
          cases heso
        have hd1 : DistinctAt own h1 := fun es hes => by rw [hempty es hes]; simp
        have hk2 : TablesKept h1 h2 :=
          fill_tablesKept (copy_tablesKept fuel) own es0 h1 h2 hd1 hrun
        have hd2 : DistinctAt own h2 := distinctAt_of_tablesKept hk2 hd1
        obtain ⟨hg2, hvals, hfr⟩ := fill_table_frame hown es0 h1 h2 (guard_of_size h1)
          (fun t ht => by rw [hempty t ht]; exact ptrsAbove_nil _) hrun
        have hnode : ∀ c, h2.read object = some c → c = .object (.dict own) := by
          intro c hc
          rw [hfr object hobj hoo] at hc
          have := hframe object c hoo hc
          rw [hrd] at this
          exact (Option.some.inj this).symm
        intro r tab es hin hr htab
        rcases inTree_root_or_child hin with rfl | ⟨c, hc, hcr⟩
        · have := hnode _ hr
          cases this
          exact hd2 es htab
        · have hcab : c = 0 ∨ h1.size < c := by
            unfold children at hc
            cases hro : h2.read object with
            | none => simp [hro] at hc
            | some c0 =>
              have := hnode c0 hro
              subst this
              simp only [hro] at hc
              cases hto : h2.read own with
              | none => simp [hto] at hc
              | some c1 =>
                cases c1 with
                | table t1 =>
                  simp only [hto] at hc
                  exact hvals t1 hto c hc
                | _ => simp [hto] at hc
          obtain ⟨_, hptrs⟩ := ptrs_of_live hg2 (inTree_above hg2 hcab r hcr) hr
          exact distinctAt_of_fresh hk2 (hptrs tab (by simp [Cell.ptrs])) es htab
      | _ => simp [hrv] at hrun

/-! ## Dict keys stay unique: the claim -/

/-- C21: dict keys stay unique under copy and `set_dict`.  For a well-formed
tree whose root is a Dict with the entries `es`, the copy is a Dict with the
same keys in the same order, so with as many entries.  Every Dict node of a tree
that `plist_object_copy` returns (for any source) and every Dict node of the
tree of the node after `set_dict` with a non-null mapping (any mapping) has
pairwise distinct keys.  `g_hash_table_insert` under a key already present
frees the old value and leaves a table with the same keys and as many entries,
in which the key has the new value. -/
theorem dict_keys_stay_unique (n fuel : Nat) (h : Heap) (p : Nat) (t : PlistTree)
    (es : List (String × Nat)) (hT : tree_of n h p = some t) (hfuel : n ≤ fuel)
    (hd : IsDict h p es) :
    (∃ h2 q es2, plist_object_copy fuel h p = some (h2, q) ∧ IsDict h2 q es2 ∧
        es2.map Prod.fst = es.map Prod.fst ∧ es2.length = es.length) ∧
      (∀ src h2 q, plist_object_copy fuel h src = some (h2, q) →
        ∀ r tab es3, InTree h2 q r → h2.read r = some (.object (.dict tab)) →
          h2.read tab = some (.table es3) → (es3.map Prod.fst).Nodup) ∧
      (∀ val h2, val ≠ 0 → plist_object_set_dict fuel h p val = some h2 →
        ∀ r tab es3, InTree h2 p r → h2.read r = some (.object (.dict tab)) →
          h2.read tab = some (.table es3) → (es3.map Prod.fst).Nodup) ∧
      (∀ tab es0 k v old h2, h.read tab = some (.table es0) → es0.lookup k = some old →
        g_hash_table_insert (plist_object_free fuel) h tab k v = some h2 →
        plist_object_free fuel (h.write tab (.table (replaceEntry k v es0))) old = some h2 ∧
          ∀ es2, h2.read tab = some (.table es2) →
            es2.map Prod.fst = es0.map Prod.fst ∧ es2.length = es0.length ∧
              es2.lookup k = some v) := by
  refine ⟨?_, fun src h2 q hc => copy_dicts_distinct fuel h src h2 q hc, ?_, ?_⟩
  · have hT2 := tree_of_le h hfuel p t hT
    obtain ⟨h2, q, hc, _, _, _, hown⟩ := copy_spec fuel h p t hT2
    have hq2 : tree_of fuel h2 q = some t := (hown h2 (agreeOn_refl _ _ h2)).1
    obtain ⟨tab, hp, htab⟩ := hd
    obtain ⟨m, ts, _, rfl, _, hcol⟩ := tree_of_dict_entries hT2 hp htab
    obtain ⟨m2, tab2, es2, _, hp2, htab2, _, hcol2⟩ := tree_of_dict_inv hq2
    have hkeys : es2.map Prod.fst = es.map Prod.fst := by
      rw [← collect_keys es2 ts hcol2, collect_keys es ts hcol]
    exact ⟨h2, q, es2, hc, ⟨tab2, hp2, htab2⟩, hkeys,
      by simpa using congrArg List.length hkeys⟩
  · intro val h2 hv hrun
    obtain ⟨own, hp, _⟩ := hd
    exact set_dict_dicts_distinct fuel h p own val h2 hp hv hrun
  · intro tab es0 k v old h2 htab hl hi
    have hfree : plist_object_free fuel (h.write tab (.table (replaceEntry k v es0))) old
        = some h2 := by
      unfold g_hash_table_insert at hi
      simpa [htab, hl] using hi
    refine ⟨hfree, fun es2 hr2 => ?_⟩
    have := insert_table htab hi es2 hr2
    simp only [hl] at this
    subst this
    exact ⟨keys_replaceEntry k v es0, length_replaceEntry k v es0, lookup_replaceEntry v hl⟩

/-- Witness for C21: the root Dict of the documentation's example and its
copy, with the keys "Array" and "Dict". -/
theorem dict_keys_stay_unique_witness :
    ∃ h2 q es2, plist_object_copy 3 docExample 16 = some (h2, q) ∧ IsDict h2 q es2 ∧
      es2.map Prod.fst = [("Array", 8), ("Dict", 14)].map Prod.fst ∧
      es2.length = [("Array", 8), ("Dict", 14)].length :=
  (dict_keys_stay_unique 3 3 docExample 16 docTree [("Array", 8), ("Dict", 14)] rfl
    (Nat.le_refl 3) ⟨15, by decide, by decide⟩).1

/-! ## Path lookup in a copy -/

/-- The entry of a key, in a table and in the values collected from it. -/
theorem collect_lookup {β : Type} {f : Nat → Option β} (k : String) :
    ∀ (es : List (String × Nat)) (ts : List (String × β)),
      collect (fun e => (f e.2).map fun t => (e.1, t)) es = some ts →
      (es.lookup k = none ∧ ts.lookup k = none) ∨
        ∃ v tv, es.lookup k = some v ∧ ts.lookup k = some tv ∧ f v = some tv := by
  intro es
  induction es with
  | nil =>
    intro ts hc
    simp [collect] at hc
    subst hc
    exact Or.inl ⟨rfl, rfl⟩
  | cons e es ih =>
    intro ts hc
    obtain ⟨b, bs, hb, hbs, rfl⟩ := collect_cons_eq_some hc
    obtain ⟨k1, v1⟩ := e
    cases hfe : f v1 with
    | none => simp [hfe] at hb
    | some tv0 =>
      simp only [hfe, Option.map_some', Option.some.injEq] at hb
      subst hb
      by_cases hk : k = k1
      · subst hk
        exact Or.inr ⟨v1, tv0, by simp [List.lookup_cons], by simp [List.lookup_cons], hfe⟩
      · have hne : (k == k1) = false := by simpa using hk
        rcases ih bs hbs with ⟨h1, h2⟩ | ⟨v, tv, h1, h2, h3⟩
        · exact Or.inl ⟨by simp [List.lookup_cons, hne, h1], by simp [List.lookup_cons, hne, h2]⟩
        · exact Or.inr ⟨v, tv, by simp [List.lookup_cons, hne, h1],
            by simp [List.lookup_cons, hne, h2], h3⟩

/-- The element at a position, in a list and in the values collected from it. -/
theorem collect_getD {β : Type} {f : Nat → Option β} :
    ∀ (l : List Nat) (ts : List β), collect f l = some ts → ∀ i : Nat,
      (ts.length ≤ i ∧ l.getD i 0 = 0) ∨ ∃ tv, ts[i]? = some tv ∧ f (l.getD i 0) = some tv := by
  intro l
  induction l with
  | nil =>
    intro ts hc i
    simp [collect] at hc
    subst hc
    exact Or.inl ⟨by simp, by simp⟩
  | cons x xs ih =>
    intro ts hc i
    obtain ⟨b, bs, hb, hbs, rfl⟩ := collect_cons_eq_some hc
    cases i with
    | zero => exact Or.inr ⟨b, by simp, by simpa using hb⟩
    | succ j =>
      rcases ih bs hbs j with ⟨h1, h2⟩ | ⟨tv, h1, h2⟩
      · exact Or.inl ⟨by simp; omega, by simpa using h2⟩
      · exact Or.inr ⟨tv, by simpa using h1, by simpa using h2⟩

/-- The walk along a path in two trees of the same value, the second in a heap
that still has every block of the first: both walks end absent, or on nodes
whose trees have the same value. -/
theorem lookup_loop_sim {h h2 : Heap} (hpres : ∀ a c, h.read a = some c → h2.read a = some c) :
    ∀ (args : List Nat) (n a b : Nat) (t : PlistTree) (d : Nat),
      tree_of n h a = some t → tree_of n h2 b = some t → lookup_loop h a args = some d →
      (d = 0 ∧ lookup_loop h2 b args = some 0) ∨
        ∃ d2 m td, lookup_loop h2 b args = some d2 ∧ m ≤ n ∧
          tree_of m h d = some td ∧ tree_of m h2 d2 = some td := by
  intro args
  induction args with
  | nil => intro n a b t d _ _ hl; simp [lookup_loop] at hl
  | cons arg rest ih =>
    intro n a b t d hTa hTb hl
    by_cases hterm : isTerminator arg = true
    · simp only [lookup_loop, hterm, if_true, Option.some.injEq] at hl
      subst hl
      exact Or.inr ⟨b, n, t, by simp [lookup_loop, hterm], Nat.le_refl n, hTa, hTb⟩
    · have hterm2 : isTerminator arg = false := by simpa using hterm
      cases t with
      | dict ts =>
        obtain ⟨m, tab, es, rfl, hp, htab, _, hcol⟩ := tree_of_dict_inv hTa
        obtain ⟨m2, tab2, es2, hm2, hp2, htab2, _, hcol2⟩ := tree_of_dict_inv hTb
        have hmm : m2 = m := by omega
        subst hmm
        cases hk : h.read arg with
        | none => simp [lookup_loop, hterm2, hp, g_hash_table_lookup, htab, hk] at hl
        | some c =>
          cases c with
          | chars k =>
            have hk2 := hpres arg _ hk
            rw [lookup_loop_dict ⟨tab, hp, htab⟩ ⟨hterm2, hk⟩ rest] at hl
            rw [lookup_loop_dict ⟨tab2, hp2, htab2⟩ ⟨hterm2, hk2⟩ rest]
            rcases collect_lookup k es ts hcol with ⟨he, hts⟩ | ⟨v, tv, he, hts, hv⟩
            · rcases collect_lookup k es2 ts hcol2 with ⟨he2, _⟩ | ⟨v2, tv2, _, hts2, _⟩
              · rw [he] at hl
                rw [he2]
                simp only [Option.getD_none, plist_object_lookup_null,
                  Option.some.injEq] at hl ⊢
                exact Or.inl ⟨hl.symm, trivial⟩
              · rw [hts] at hts2
                cases hts2
            · rcases collect_lookup k es2 ts hcol2 with ⟨_, hts2⟩ | ⟨v2, tv2, he2, hts2, hv2⟩
              · rw [hts] at hts2
                cases hts2
              · rw [hts] at hts2
                cases hts2
                rw [he] at hl
                rw [he2]
                simp only [Option.getD_some] at hl ⊢
                rw [plist_object_lookup_ne_null (ne_zero_of_tree_of hv)] at hl
                rw [plist_object_lookup_ne_null (ne_zero_of_tree_of hv2)]
                rcases ih _ v v2 tv d hv hv2 hl with h0 | ⟨d2, m3, td, h1, h2x, h3, h4⟩
                · exact Or.inl h0
                · exact Or.inr ⟨d2, m3, td, h1, by omega, h3, h4⟩
          | _ => simp [lookup_loop, hterm2, hp, g_hash_table_lookup, htab, hk] at hl
      | array ts =>
        obtain ⟨m, l, rfl, hp, hcol⟩ := tree_of_array_inv hTa
        obtain ⟨m2, l2, hm2, hp2, hcol2⟩ := tree_of_array_inv hTb
        have hmm : m2 = m := by omega
        subst hmm
        rw [lookup_loop_array hp hterm2 rest] at hl
        rw [lookup_loop_array hp2 hterm2 rest]
        unfold g_list_nth_data at hl ⊢
        rcases collect_getD l ts hcol (GPOINTER_TO_UINT arg) with ⟨hlen, hz⟩ | ⟨tv, hts, hv⟩
        · rcases collect_getD l2 ts hcol2 (GPOINTER_TO_UINT arg) with
            ⟨_, hz2⟩ | ⟨tv2, hts2, _⟩
          · rw [hz] at hl
            rw [hz2]
            simp only [plist_object_lookup_null, Option.some.injEq] at hl ⊢
            exact Or.inl ⟨hl.symm, trivial⟩
          · rw [List.getElem?_eq_none hlen] at hts2
            cases hts2
        · rcases collect_getD l2 ts hcol2 (GPOINTER_TO_UINT arg) with
            ⟨hlen2, _⟩ | ⟨tv2, hts2, hv2⟩
          · rw [List.getElem?_eq_none hlen2] at hts
            cases hts
          · rw [hts] at hts2
            cases hts2
            rw [plist_object_lookup_ne_null (ne_zero_of_tree_of hv)] at hl
            rw [plist_object_lookup_ne_null (ne_zero_of_tree_of hv2)]
            rcases ih _ _ _ tv d hv hv2 hl with h0 | ⟨d2, m3, td, h1, h2x, h3, h4⟩
            · exact Or.inl h0
            · exact Or.inr ⟨d2, m3, td, h1, by omega, h3, h4⟩
      | _ =>
        have hsa := tree_of_scalar_inv hTa (fun ts hh => PlistTree.noConfusion hh)
          (fun ts hh => PlistTree.noConfusion hh)
        have hsb := tree_of_scalar_inv hTb (fun ts hh => PlistTree.noConfusion hh)
          (fun ts hh => PlistTree.noConfusion hh)
        rw [lookup_loop_scalar hsa hterm2 rest] at hl
        cases hl
        exact Or.inr ⟨b, n, _, lookup_loop_scalar hsb hterm2 rest, Nat.le_refl n, hTa, hTb⟩

/-- C23: copy commutes with lookup.  For a well-formed tree and a path on which
the lookup in it returns (absent or a node), the lookup of the same path in the
copy is absent exactly when the lookup in the source is; and when it is not,
the node found in the copy has the same value as the node found in the source,
which is the value of the copy of that node. -/
theorem copy_commutes_with_lookup (n fuel : Nat) (h : Heap) (root : Nat) (t : PlistTree)
    (args : List Nat) (d : Nat) (hT : tree_of n h root = some t) (hfuel : n ≤ fuel)
    (hl : plist_object_lookup h root args = some d) :
    ∃ h2 q, plist_object_copy fuel h root = some (h2, q) ∧
      (plist_object_lookup h2 q args = some 0 ↔ d = 0) ∧
      (d ≠ 0 → ∃ d2 td h3 q3, plist_object_lookup h2 q args = some d2 ∧ d2 ≠ 0 ∧
        plist_object_copy fuel h d = some (h3, q3) ∧
        tree_of fuel h2 d2 = some td ∧ tree_of fuel h3 q3 = some td ∧
        tree_of fuel h d = some td) := by
  have hT2 := tree_of_le h hfuel root t hT
  obtain ⟨h2, q, hc, hsb, _, _, hown⟩ := copy_spec fuel h root t hT2
  have hq2 : tree_of fuel h2 q = some t := (hown h2 (agreeOn_refl _ _ h2)).1
  rw [plist_object_lookup_ne_null (ne_zero_of_tree_of hT)] at hl
  refine ⟨h2, q, hc, ?_⟩
  rw [plist_object_lookup_ne_null (ne_zero_of_tree_of hq2)]
  rcases lookup_loop_sim (preserved_of_sameBelow hsb) args fuel root q t d hT2 hq2 hl with
    ⟨hd0, hl2⟩ | ⟨d2, m, td, hl2, hm, hTd, hTd2⟩
  · exact ⟨⟨fun _ => hd0, fun _ => hl2⟩, fun hne => absurd hd0 hne⟩
  · have hdne : d ≠ 0 := ne_zero_of_tree_of hTd
    have hd2ne : d2 ≠ 0 := ne_zero_of_tree_of hTd2
    have hTdf := tree_of_le h hm d td hTd
    refine ⟨⟨fun h0 => ?_, fun h0 => absurd h0 hdne⟩, fun _ => ?_⟩
    · rw [hl2] at h0
      exact absurd (Option.some.inj h0) hd2ne
    · obtain ⟨h3, q3, hc3, _, _, _, hown3⟩ := copy_spec fuel h d td hTdf
      exact ⟨d2, td, h3, q3, hl2, hd2ne, hc3, tree_of_le h2 hm d2 td hTd2,
        (hown3 h3 (agreeOn_refl _ _ h3)).1, hTdf⟩

/-- Witness for C23: the path "Dict", "Integer" in the documentation's example
and in its copy, which ends on the Integer node 9 of the source. -/
theorem copy_commutes_with_lookup_witness :
    ∃ h2 q, plist_object_copy 3 docExample 16 = some (h2, q) ∧
      (plist_object_lookup h2 q [2, 3, 2 ^ 32 - 1] = some 0 ↔ 9 = 0) ∧
      (9 ≠ 0 → ∃ d2 td h3 q3, plist_object_lookup h2 q [2, 3, 2 ^ 32 - 1] = some d2 ∧ d2 ≠ 0 ∧
        plist_object_copy 3 docExample 9 = some (h3, q3) ∧
        tree_of 3 h2 d2 = some td ∧ tree_of 3 h3 q3 = some td ∧
        tree_of 3 docExample 9 = some td) :=
  copy_commutes_with_lookup 3 3 docExample 16 docTree [2, 3, 2 ^ 32 - 1] 9 rfl
    (Nat.le_refl 3) (by decide)

/-! ## `set_dict` handed the node's own table: the claim -/

/-- C24: when `set_dict` is handed the node's own table (what `get_dict`
returns for the node), the previous entries are removed and nothing is copied:
the call returns the heap `h1` that `g_hash_table_remove_all` leaves, in which
the node's table has no entry.  The table itself must not be among the blocks
that the release of its values releases. -/
theorem set_dict_own_table_empties (fuel : Nat) (h h1 : Heap) (object own : Nat)
    (hr : h.read object = some (.object (.dict own)))
    (hrem : g_hash_table_remove_all (plist_object_free fuel) h own = some h1)
    (hsurv : h1.read own ≠ none) :
    plist_object_get_dict h object = some own ∧
      plist_object_set_dict fuel h object own = some h1 ∧
      h1.read own = some (.table []) := by
  have h0 : object ≠ 0 := ne_zero_of_read hr
  obtain ⟨es, hes⟩ := remove_all_table_live hrem
  have hown0 : own ≠ 0 := ne_zero_of_read hes
  have hempty : h1.read own = some (.table []) := by
    cases hx : h1.read own with
    | none => exact absurd hx hsurv
    | some c =>
      unfold g_hash_table_remove_all at hrem
      simp only [hes] at hrem
      have hfr : OnlyFrees (h.write own (.table [])) h1 :=
        foldlM_rel OnlyFrees onlyFrees_refl onlyFrees_trans
          (fun hh (e : String × Nat) => plist_object_free fuel hh e.2)
          (fun hh x hh2 hfx => free_only_frees fuel hh x.2 hh2 hfx) es _ h1 hrem
      have := hfr.2 own c hx
      rw [read_write_self _ hown0 (le_size_of_read hes)] at this
      rw [← Option.some.inj this]
  refine ⟨by simp [plist_object_get_dict, h0, hr], ?_, hempty⟩
  simp [plist_object_set_dict, h0, hown0, hr, hrem, hempty, foldlM_nil_option]

/-- Witness for C24: the Dict node of the sample heap, whose table maps "k" to
the Boolean node, is handed its own table and ends with no entry. -/
theorem set_dict_own_table_empties_witness :
    sampleHeap.read 10 = some (.table [("k", 1)]) ∧
      plist_object_get_dict sampleHeap 11 = some 10 ∧
      plist_object_set_dict 5 sampleHeap 11 10
        = some ((sampleHeap.write 10 (.table [])).dealloc 1) ∧
      ((sampleHeap.write 10 (.table [])).dealloc 1).read 10 = some (.table []) :=
  ⟨by decide, set_dict_own_table_empties 5 sampleHeap
    ((sampleHeap.write 10 (.table [])).dealloc 1) 11 10 (by decide) (by decide)
    (by decide)⟩

end Osxcart
